import Mathlib

/-!
# The ORG.md parser of openspawn (`packages/cli/internal/orgparser/parser.go`)

A shallow embedding of the parser and theorems about it; the init wizard
(`packages/cli/internal/wizard/wizard.go`) and the built-in templates
(`packages/cli/internal/templates/templates.go`) are embedded after the parser.

Conventions of the embedding

* A Go `string` is a `Str`, the list of its Unicode code points (the document is
  UTF-8 text).
* A Go `int` is an `Int`; the only place where its width is visible is
  `strconv.Atoi`, which is modelled for the 64-bit `int`.
* A Go `map[string]string` is an association list read through `metaGet`.
* A Go slice is a `List`; an index or slice expression that the Go runtime
  bounds-checks appears twice: in the total definitions as the list operation it
  performs when in bounds, and in the `...Checked` definitions as an `Option`
  that is `none` where the runtime would panic. The `...Checked` definitions
  also check every `append` to the role slice against the number of records the
  slice can hold, a parameter.
-/

set_option autoImplicit false
set_option linter.unusedVariables false

/-- A Go string, as the list of its code points. -/
abbrev Str := List Char

/-! ## The Go standard library functions the parser calls -/

namespace unicode

/-- `unicode.IsSpace`: the Unicode White_Space code points. -/
def IsSpace (c : Char) : Bool :=
  let n := c.toNat
  (9 ≤ n && n ≤ 13) || n == 32 || n == 0x85 || n == 0xA0 || n == 0x1680 ||
  (0x2000 ≤ n && n ≤ 0x200A) || n == 0x2028 || n == 0x2029 || n == 0x202F ||
  n == 0x205F || n == 0x3000

/-- `unicode.ToLower`, exact wherever the argument or the result is ASCII: the
letters `A`..`Z` and the two code points outside ASCII whose lower case is an
ASCII letter (U+0130 and U+212A) are mapped as Go maps them; every other code
point is kept, although Go also lower-cases the other cased code points (the
table of the library is not part of this repository). `Parse` only compares
lower-cased text with ASCII keywords, ASCII keys and ASCII character classes,
which see no other case pair; what is stated about the keys `extractMeta` stores
is stated for every lower-casing function (`extractMetaWith`). -/
def ToLower (c : Char) : Char :=
  if 65 ≤ c.toNat ∧ c.toNat ≤ 90 then Char.ofNat (c.toNat + 32)
  else if c.toNat = 0x130 then 'i'
  else if c.toNat = 0x212A then 'k'
  else c

end unicode

namespace strings

/-- `strings.TrimSpace`. -/
def TrimSpace (s : Str) : Str :=
  ((s.dropWhile unicode.IsSpace).reverse.dropWhile unicode.IsSpace).reverse

/-- `strings.HasPrefix`. -/
def HasPrefix (s p : Str) : Bool := p.isPrefixOf s

/-- `strings.TrimPrefix`. -/
def TrimPrefix (s p : Str) : Str := if HasPrefix s p then s.drop p.length else s

/-- `strings.Contains`. -/
def Contains : Str → Str → Bool
  | [], sub => sub.isPrefixOf []
  | c :: cs, sub => sub.isPrefixOf (c :: cs) || Contains cs sub

/-- `strings.ToLower`. -/
def ToLower (s : Str) : Str := s.map unicode.ToLower

/-- `strings.Split(s, "\n")`: the pieces between line feeds; the empty string
gives one empty piece. -/
def SplitLines : Str → List Str
  | [] => [[]]
  | c :: cs =>
    if c = '\n' then [] :: SplitLines cs
    else match SplitLines cs with
      | [] => [[c]]
      | l :: ls => (c :: l) :: ls

/-- `strings.Join(parts, "\n")`. -/
def JoinLines : List Str → Str
  | [] => []
  | [l] => l
  | l :: ls => l ++ '\n' :: JoinLines ls

/-- `strings.SplitN(s, ":", 2)`: the text before the first colon and the text
after it, or the whole string alone when it has no colon. -/
def SplitColon2 (s : Str) : List Str :=
  if ':' ∈ s then [s.takeWhile (fun c => c != ':'), (s.dropWhile (fun c => c != ':')).drop 1]
  else [s]

/-- `strings.Trim(s, "-")`. -/
def TrimDash (s : Str) : Str :=
  ((s.dropWhile (fun c => c == '-')).reverse.dropWhile (fun c => c == '-')).reverse

end strings

namespace strconv

/-- The value of a run of decimal digits. -/
def digitsValue (ds : Str) : Nat := ds.foldl (fun a c => 10 * a + (c.toNat - 48)) 0

/-- `strconv.Atoi` for the 64-bit `int`: the value and whether `err == nil`. An
optional sign followed by one or more ASCII digits; out of range the value is
clamped and the error is set. -/
def Atoi (s : Str) : Int × Bool :=
  let neg := s.head? == some '-'
  let ds := if s.head? == some '-' || s.head? == some '+' then s.drop 1 else s
  if ds.isEmpty || !(ds.all Char.isDigit) then (0, false)
  else
    let n : Int := digitsValue ds
    if neg then (if n > 2 ^ 63 then (-(2 ^ 63), false) else (-n, true))
    else (if n ≥ 2 ^ 63 then (2 ^ 63 - 1, false) else (n, true))

end strconv

namespace regexp

/-- The class `\s` of Go regular expressions: `[\t\n\f\r ]`. -/
def isS (c : Char) : Bool :=
  c.toNat == 9 || c.toNat == 10 || c.toNat == 12 || c.toNat == 13 || c.toNat == 32

/-- The class `\w` of Go regular expressions: `[0-9A-Za-z_]`. -/
def isW (c : Char) : Bool := c.isAlphanum || c == '_'

/-- The suffix `\s*(.+)$` of a pattern, matched against the rest of the text:
the group, if the suffix matches. `\s*` is greedy and gives back one character
when nothing is left for `.+`; `.` matches no line feed. -/
def tailGroup (r : Str) : Option Str :=
  let rest := r.dropWhile isS
  if rest ≠ [] then (if '\n' ∈ rest then none else some rest)
  else match r.getLast? with
    | none => none
    | some c => if c = '\n' then none else some [c]

end regexp

/-! ## The parser -/

namespace orgparser

/-- The Go type `section`: a heading, its level, the raw text up to the next
heading, and the nested sections. -/
inductive Section where
  | mk (heading : Str) (level : Int) (content : Str) (children : List Section) : Section
  deriving Repr

namespace Section

def heading : Section → Str
  | mk h _ _ _ => h

def level : Section → Int
  | mk _ l _ _ => l

def content : Section → Str
  | mk _ _ c _ => c

def children : Section → List Section
  | mk _ _ _ cs => cs

/-- The assignment `s.children = cs`. -/
def setChildren (s : Section) (cs : List Section) : Section :=
  mk s.heading s.level s.content cs

end Section

/-- The local type `headingInfo` of `parseMarkdownSections`. -/
structure headingInfo where
  level : Int
  heading : Str
  lineIdx : Nat
  deriving DecidableEq, Repr

/-- `headingRegex.FindStringSubmatch` for `^(#{1,6})\s+(.+)$`: the two groups,
if the text matches. -/
def headingRegex (t : Str) : Option (Str × Str) :=
  let hashes := t.takeWhile (fun c => c == '#')
  let rest := t.dropWhile (fun c => c == '#')
  let ws := rest.takeWhile regexp.isS
  let title := rest.dropWhile regexp.isS
  if hashes.length < 1 ∨ 6 < hashes.length ∨ ws = [] then none
  else if title ≠ [] then (if '\n' ∈ title then none else some (hashes, title))
  else match ws.getLast? with
    | none => none
    | some c => if ws.length < 2 ∨ c = '\n' then none else some (hashes, [c])

/-- The first pass of `parseMarkdownSections` (lines 70-88): the loop over the
lines from index `i` on, with the flag `inCodeBlock`. -/
def scanHeadings : Nat → Bool → List Str → List headingInfo
  | _, _, [] => []
  | i, inCodeBlock, line :: rest =>
    let trimmed := strings.TrimSpace line
    if strings.HasPrefix trimmed "```".toList then scanHeadings (i + 1) (!inCodeBlock) rest
    else if inCodeBlock then scanHeadings (i + 1) inCodeBlock rest
    else match headingRegex trimmed with
      | some m => ⟨m.1.length, m.2, i⟩ :: scanHeadings (i + 1) inCodeBlock rest
      | none => scanHeadings (i + 1) inCodeBlock rest

/-- The second pass of `parseMarkdownSections` (lines 95-108): one flat section
for each heading, its content being `lines[startLine:endLine]` joined by line
feeds. -/
def flatSections (lines : List Str) : List headingInfo → List Section
  | [] => []
  | h :: hs =>
    let startLine := h.lineIdx + 1
    let endLine := match hs with
      | [] => lines.length
      | h2 :: _ => h2.lineIdx
    Section.mk h.heading h.level (strings.JoinLines ((lines.take endLine).drop startLine)) []
      :: flatSections lines hs

/-- The second pass with the bounds check of `lines[startLine:endLine]`. -/
def flatSectionsChecked (lines : List Str) : List headingInfo → Option (List Section)
  | [] => some []
  | h :: hs =>
    let startLine := h.lineIdx + 1
    let endLine := match hs with
      | [] => lines.length
      | h2 :: _ => h2.lineIdx
    if startLine ≤ endLine ∧ endLine ≤ lines.length then
      match flatSectionsChecked lines hs with
      | some r =>
        some (Section.mk h.heading h.level
          (strings.JoinLines ((lines.take endLine).drop startLine)) [] :: r)
      | none => none
    else none

/-- The local type `stackEntry` of `buildTree`. The pointer `sec` is the index
path of the section it addresses: `[i]` is `&roots[i]` and `p ++ [j]` is
`&q.children[j]` for the section `q` at `p`. -/
structure stackEntry where
  sec : List Nat
  level : Int
  deriving DecidableEq, Repr

/-- The section a path addresses in a forest. -/
def getAt : List Section → List Nat → Option Section
  | _, [] => none
  | f, [i] => f[i]?
  | f, i :: j :: p =>
    match f[i]? with
    | some s => getAt s.children (j :: p)
    | none => none

/-- The list after `g` is applied to its element with index `i`. -/
def updateNth (g : Section → Section) : List Section → Nat → List Section
  | [], _ => []
  | s :: ss, 0 => g s :: ss
  | s :: ss, i + 1 => s :: updateNth g ss i

/-- The forest after `g` is applied to the section a path addresses. -/
def modifyAt (g : Section → Section) : List Section → List Nat → List Section
  | f, [] => f
  | f, [i] => updateNth g f i
  | f, i :: j :: p => updateNth (fun s => s.setChildren (modifyAt g s.children (j :: p))) f i

/-- One iteration of the loop of `buildTree` (lines 124-140) on the state
`(roots, stack)`; the stack is kept with its top first. -/
def buildTreeStep (st : List Section × List stackEntry) (s : Section) :
    List Section × List stackEntry :=
  let stack := st.2.dropWhile (fun e => decide (e.level ≥ s.level))
  match stack with
  | [] =>
    let roots := st.1 ++ [s]
    (roots, [⟨[roots.length - 1], s.level⟩])
  | top :: _ =>
    let parent := top.sec
    let roots := modifyAt (fun p => p.setChildren (p.children ++ [s])) st.1 parent
    let n := match getAt roots parent with
      | some p => p.children.length
      | none => 0
    (roots, ⟨parent ++ [n - 1], s.level⟩ :: stack)

/-- `buildTree`. -/
def buildTree (flat : List Section) : List Section :=
  (flat.foldl buildTreeStep ([], [])).1

/-- One iteration of the loop of `buildTree` with its checks: the pointer on top
of the stack addresses a section, and the index `len - 1` is in the slice just
appended to. -/
def buildTreeStepChecked (st : List Section × List stackEntry) (s : Section) :
    Option (List Section × List stackEntry) :=
  let stack := st.2.dropWhile (fun e => decide (e.level ≥ s.level))
  match stack with
  | [] =>
    let roots := st.1 ++ [s]
    if roots.length - 1 < roots.length then some (roots, [⟨[roots.length - 1], s.level⟩])
    else none
  | top :: _ =>
    let parent := top.sec
    match getAt st.1 parent with
    | none => none
    | some _ =>
      let roots := modifyAt (fun p => p.setChildren (p.children ++ [s])) st.1 parent
      match getAt roots parent with
      | none => none
      | some p =>
        if p.children.length - 1 < p.children.length then
          some (roots, ⟨parent ++ [p.children.length - 1], s.level⟩ :: stack)
        else none

/-- The loop of `buildTree` with its checks. -/
def buildTreeLoopChecked :
    List Section × List stackEntry → List Section → Option (List Section × List stackEntry)
  | st, [] => some st
  | st, s :: rest =>
    match buildTreeStepChecked st s with
    | some st2 => buildTreeLoopChecked st2 rest
    | none => none

/-- `buildTree` with its checks. -/
def buildTreeChecked (flat : List Section) : Option (List Section) :=
  (buildTreeLoopChecked ([], []) flat).map (fun st => st.1)

/-- `parseMarkdownSections`. -/
def parseMarkdownSections (source : Str) : List Section :=
  let lines := strings.SplitLines source
  let headings := scanHeadings 0 false lines
  if headings.length = 0 then []
  else buildTree (flatSections lines headings)

/-- `parseMarkdownSections` with its checks. -/
def parseMarkdownSectionsChecked (source : Str) : Option (List Section) :=
  let lines := strings.SplitLines source
  let headings := scanHeadings 0 false lines
  if headings.length = 0 then some []
  else match flatSectionsChecked lines headings with
    | some flat => buildTreeChecked flat
    | none => none

/-- The type `Agent`. -/
structure Agent where
  ID : Str
  Name : Str
  Role : Str
  Level : Int
  Domain : Str
  Avatar : Str
  ParentID : Str
  ReportsTo : Str
  Count : Int
  deriving DecidableEq, Repr

/-- The type `Culture`. -/
structure Culture where
  Preset : Str
  Escalation : Str
  ProgressUpdates : Str
  AckRequired : Bool
  HierarchyDepth : Int
  deriving DecidableEq, Repr

/-- The type `Policies`; the map `DepartmentCaps` is an association list. -/
structure Policies where
  PerAgentBudget : Int
  AlertThreshold : Int
  DepartmentCaps : List (Str × Int)
  deriving DecidableEq, Repr

/-- The type `ParsedOrg`. -/
structure ParsedOrg where
  Name : Str
  Agents : List Agent
  Culture : Culture
  Policies : Policies
  deriving DecidableEq, Repr

/-- A `map[string]string`, latest assignment first. -/
abbrev Meta := List (Str × Str)

/-- The two-valued map read `v, ok := m[k]`. -/
def metaGet? : Meta → Str → Option Str
  | [], _ => none
  | (k2, v) :: rest, k => if k2 = k then some v else metaGet? rest k

/-- The map read `m[k]`, the empty string when the key is absent. -/
def metaGet (m : Meta) (k : Str) : Str := (metaGet? m k).getD []

/-- The search of `metaRegex` for the end of its lazy first group: `key` holds,
reversed, the characters taken so far; the first position where `:**` and a match
of `\s*(.+)$` follow a non-empty key wins. -/
def metaScan : Str → Str → Option (Str × Str)
  | _, [] => none
  | key, c :: cs =>
    match (if key ≠ [] ∧ strings.HasPrefix (c :: cs) ":**".toList
           then regexp.tailGroup ((c :: cs).drop 3) else none) with
    | some v => some (key.reverse, v)
    | none => if c = '\n' then none else metaScan (c :: key) cs

/-- `metaRegex.FindStringSubmatch` for `^\*\*(.+?):\*\*\s*(.+)$`: the two
groups, if the text matches. -/
def metaRegex (t : Str) : Option (Str × Str) :=
  if strings.HasPrefix t "**".toList then metaScan [] (t.drop 2) else none

/-- The search of `dashNameRegex` for the end of its lazy first group: the first
position where optional `\s`, an em dash and a match of `\s*(.+)$` follow a
non-empty group wins. -/
def dashScan : Str → Str → Option (Str × Str)
  | _, [] => none
  | key, c :: cs =>
    match (if key ≠ [] then
             (match (c :: cs).dropWhile regexp.isS with
              | d :: r => if d = '—' then regexp.tailGroup r else none
              | [] => none)
           else none) with
    | some v => some (key.reverse, v)
    | none => if c = '\n' then none else dashScan (c :: key) cs

/-- `dashNameRegex.FindStringSubmatch` for `^(.+?)\s*—\s*(.+)$`. -/
def dashNameRegex (t : Str) : Option (Str × Str) := dashScan [] t

/-- One iteration of the loop of `extractMeta`. -/
def extractMetaLine (m : Meta) (line : Str) : Meta :=
  let line := strings.TrimPrefix (strings.TrimSpace line) "- ".toList
  match metaRegex line with
  | some g => (strings.ToLower (strings.TrimSpace g.1), strings.TrimSpace g.2) :: m
  | none => m

/-- `extractMeta`. -/
def extractMeta (content : Str) : Meta :=
  (strings.SplitLines content).foldl extractMetaLine []

/-- `nameFromHeading`. -/
def nameFromHeading (heading : Str) : Str :=
  match dashNameRegex heading with
  | some g => strings.TrimSpace g.1
  | none => strings.TrimSpace heading

/-- The class `[a-z0-9]`. -/
def isLowerAlnum (c : Char) : Bool := c.isLower || c.isDigit

/-- `ReplaceAllString(s, "-")` for the pattern `[^a-z0-9]+`: every maximal run
of other characters becomes one dash; `inRun` tells that the previous character
belonged to such a run. -/
def replaceRuns : Bool → Str → Str
  | _, [] => []
  | inRun, c :: cs =>
    if isLowerAlnum c then c :: replaceRuns false cs
    else if inRun then replaceRuns true cs
    else '-' :: replaceRuns true cs

/-- `makeID`. -/
def makeID (name : Str) : Str :=
  strings.TrimDash (replaceRuns false (strings.ToLower name))

/-- `MatchString` for a pattern `\b(k1|k2|...)\b` whose keywords are made of word
characters: some keyword occurs with no word character right before and right
after it; `prevW` tells that the previous character is a word character. -/
def wordMatch (kws : List Str) : Bool → Str → Bool
  | _, [] => false
  | prevW, c :: cs =>
    (!prevW && kws.any (fun k => strings.HasPrefix (c :: cs) k &&
        !((((c :: cs).drop k.length).head?.map regexp.isW).getD false)))
      || wordMatch kws (regexp.isW c) cs

def kwExecutive : List Str := ["coo".toList, "cto".toList, "ceo".toList, "owner".toList, "chief".toList]
def kwDirector : List Str := ["vp".toList, "director".toList, "head".toList]
def kwLeadLevel : List Str := ["lead".toList, "manager".toList, "architect".toList, "strategist".toList]
def kwLeadRole : List Str := ["lead".toList, "manager".toList]
def kwSenior : List Str := ["senior".toList, "principal".toList]
def kwIntern : List Str := ["junior".toList, "intern".toList, "assistant".toList]

/-- `inferLevel`. -/
def inferLevel (heading : Str) (m : Meta) : Int :=
  let explicit : Option Int := match metaGet? m "level".toList with
    | some v => let r := strconv.Atoi (strings.TrimSpace v); if r.2 then some r.1 else none
    | none => none
  match explicit with
  | some n => n
  | none =>
    let lower := strings.ToLower heading
    if wordMatch kwExecutive false lower then 10
    else if wordMatch kwDirector false lower then 9
    else if wordMatch kwLeadLevel false lower then 7
    else if wordMatch kwSenior false lower then 6
    else if wordMatch kwIntern false lower then 1
    else 4

/-- `inferRole`. -/
def inferRole (heading : Str) : Str :=
  let lower := strings.ToLower heading
  if wordMatch kwExecutive false lower then "executive".toList
  else if wordMatch kwDirector false lower then "director".toList
  else if wordMatch kwLeadRole false lower then "lead".toList
  else if wordMatch kwSenior false lower then "senior".toList
  else if wordMatch kwIntern false lower then "intern".toList
  else "worker".toList

/-- The zero value of `Culture`. -/
def Culture.zero : Culture := ⟨[], [], [], false, 0⟩

/-- The part of `parseCulture` that reads the metadata map (lines 203-215). -/
def cultureOfMeta (m : Meta) : Culture :=
  { Preset := metaGet m "preset".toList
    Escalation := metaGet m "escalation".toList
    ProgressUpdates := metaGet m "progress updates".toList
    AckRequired := match metaGet? m "ack required".toList with
      | some v => strings.ToLower v == "yes".toList
      | none => false
    HierarchyDepth := match metaGet? m "hierarchy depth".toList with
      | some v => let r := strconv.Atoi (strings.TrimSpace v); if r.2 then r.1 else 0
      | none => 0 }

/-- One iteration of the loop over the lines looking for a bare `preset:`. -/
def barePresetLine (preset : Str) (line : Str) : Str :=
  let line := strings.TrimSpace line
  if strings.HasPrefix (strings.ToLower line) "preset:".toList then
    strings.TrimSpace ((strings.SplitColon2 line).getD 1 [])
  else preset

/-- `parseCulture`. -/
def parseCulture (sec : Section) : Culture :=
  let c := cultureOfMeta (extractMeta sec.content)
  if c.Preset = [] then
    { c with Preset := (strings.SplitLines sec.content).foldl barePresetLine c.Preset }
  else c

/-- One iteration of the bare `preset:` loop with the bounds check of
`strings.SplitN(line, ":", 2)[1]`. -/
def barePresetLineChecked (preset : Str) (line : Str) : Option Str :=
  let line := strings.TrimSpace line
  if strings.HasPrefix (strings.ToLower line) "preset:".toList then
    match (strings.SplitColon2 line)[1]? with
    | some v => some (strings.TrimSpace v)
    | none => none
  else some preset

/-- The bare `preset:` loop with its bounds check. -/
def barePresetLoopChecked : Str → List Str → Option Str
  | preset, [] => some preset
  | preset, line :: rest =>
    match barePresetLineChecked preset line with
    | some p => barePresetLoopChecked p rest
    | none => none

/-- `parseCulture` with its bounds check. -/
def parseCultureChecked (sec : Section) : Option Culture :=
  let c := cultureOfMeta (extractMeta sec.content)
  if c.Preset = [] then
    match barePresetLoopChecked c.Preset (strings.SplitLines sec.content) with
    | some p => some { c with Preset := p }
    | none => none
  else some c

/-- The `count` annotation as both branches of `parseStructure` read it: 1
unless the entry is present and parses as an integer. -/
def countOf (m : Meta) : Int :=
  match metaGet? m "count".toList with
  | some c => let r := strconv.Atoi (strings.TrimSpace c); if r.2 then r.1 else 1
  | none => 1

/-- The decimal form `%d` of a positive loop index. -/
def decimal (n : Nat) : Str := Nat.toDigits 10 n

/-- The name of instance `i` (from 0) in a count loop: `fmt.Sprintf("%s %d",
name, i+1)` when `count > 1`, else the name. -/
def agentNameOf (name : Str) (count : Int) (i : Nat) : Str :=
  if count > 1 then name ++ ' ' :: decimal (i + 1) else name

/-- The records of the count loop of the standalone branch (lines 256-271). -/
def standaloneAgents (dept : Section) : List Agent :=
  let m := extractMeta dept.content
  let name := nameFromHeading dept.heading
  let level := inferLevel dept.heading m
  let domain := if metaGet m "domain".toList = [] then name else metaGet m "domain".toList
  let count := countOf m
  (List.range count.toNat).map (fun i =>
    { ID := makeID (agentNameOf name count i)
      Name := agentNameOf name count i
      Role := inferRole dept.heading
      Level := level
      Domain := domain
      Avatar := metaGet m "avatar".toList
      ParentID := []
      ReportsTo := metaGet m "reports to".toList
      Count := 1 })

/-- One iteration of the loop over `dept.children` (lines 277-329) on the state
`(agents, deptLeadID)`; `domain` is the department's domain and `ri` the index of
`sub` in `dept.children`. -/
def subRoleStep (domain : Str) (st : List Agent × Str) (ri : Nat) (sub : Section) :
    List Agent × Str :=
  if sub.level ≠ 4 then st
  else
    let subMeta := extractMeta sub.content
    let subName := nameFromHeading sub.heading
    let subLevel := inferLevel sub.heading subMeta
    let subDomain := if metaGet subMeta "domain".toList = [] then domain
      else metaGet subMeta "domain".toList
    let subReportsTo := metaGet subMeta "reports to".toList
    let parentID := if subReportsTo ≠ [] then makeID subReportsTo
      else if ri = 0 then [] else st.2
    let count := countOf subMeta
    let made := (List.range count.toNat).map (fun i =>
      ({ ID := makeID (agentNameOf subName count i)
         Name := agentNameOf subName count i
         Role := inferRole sub.heading
         Level := subLevel
         Domain := subDomain
         Avatar := metaGet subMeta "avatar".toList
         ParentID := parentID
         ReportsTo := subReportsTo
         Count := 1 } : Agent))
    (st.1 ++ made,
     if ri = 0 ∧ 0 < count then makeID (agentNameOf subName count 0) else st.2)

/-- The loop over `dept.children` from index `ri` on. -/
def subRoleLoop (domain : Str) : List Agent × Str → Nat → List Section → List Agent × Str
  | st, _, [] => st
  | st, ri, sub :: rest => subRoleLoop domain (subRoleStep domain st ri sub) (ri + 1) rest

/-- One iteration of the loop over `sec.children` of `parseStructure` (lines
232-330) on the list `agents`. -/
def deptStep (agents : List Agent) (dept : Section) : List Agent :=
  if dept.level ≠ 3 then agents
  else
    let m := extractMeta dept.content
    let name := nameFromHeading dept.heading
    let level := inferLevel dept.heading m
    let domain := if metaGet m "domain".toList = [] then name else metaGet m "domain".toList
    if level ≥ 10 ∨ dept.children.length = 0 then agents ++ standaloneAgents dept
    else (subRoleLoop domain (agents, []) 0 dept.children).1

/-- `parseStructure`: the agents and the errors, which are never appended to. -/
def parseStructure (sec : Section) : List Agent × List Str :=
  (sec.children.foldl deptStep [], [])

/-- `FindString` for the pattern `\d+`: the first maximal run of digits. -/
def findDigits (v : Str) : Str :=
  (v.dropWhile (fun c => !c.isDigit)).takeWhile Char.isDigit

/-- A policy number (lines 345-350 and 351-356): the digits found in the value
of the key, the zero value otherwise. -/
def policyNumber (m : Meta) (key : Str) : Int :=
  match metaGet? m key with
  | some v => if findDigits v ≠ [] then (strconv.Atoi (findDigits v)).1 else 0
  | none => 0

/-- `parsePolicies`. -/
def parsePolicies (sec : Section) : Policies :=
  let allContent := sec.children.foldl (fun acc child => acc ++ '\n' :: child.content) sec.content
  let m := extractMeta allContent
  { PerAgentBudget := policyNumber m "per-agent limit".toList
    AlertThreshold := policyNumber m "alert threshold".toList
    DepartmentCaps := [] }

/-- The only validation error. -/
def noAgentsError : Str := "No agents found in Structure section".toList

/-- One iteration of the loop over the children of the level-1 section (lines
161-173) on the state `(org, errors)`. -/
def dispatchChild (st : ParsedOrg × List Str) (h2 : Section) : ParsedOrg × List Str :=
  let lower := strings.ToLower h2.heading
  if strings.Contains lower "culture".toList then
    ({ st.1 with Culture := parseCulture h2 }, st.2)
  else if strings.Contains lower "structure".toList then
    ({ st.1 with Agents := (parseStructure h2).1 }, st.2 ++ (parseStructure h2).2)
  else if strings.Contains lower "policies".toList || strings.Contains lower "policy".toList then
    ({ st.1 with Policies := parsePolicies h2 }, st.2)
  else st

/-- One iteration of the fallback loop over the root sections (lines 180-192). -/
def dispatchRoot (st : ParsedOrg × List Str) (s : Section) : ParsedOrg × List Str :=
  if s.level = 2 then
    let lower := strings.ToLower s.heading
    if strings.Contains lower "culture".toList then
      ({ st.1 with Culture := parseCulture s }, st.2)
    else if strings.Contains lower "structure".toList then
      ({ st.1 with Agents := (parseStructure s).1 }, st.2 ++ (parseStructure s).2)
    else st
  else st

/-- The value of `org` before the loops. -/
def emptyOrg : ParsedOrg := ⟨[], [], Culture.zero, ⟨0, 0, []⟩⟩

/-- The end of `Parse` (lines 178-199): the fallback loop, run when the name is
empty, and the validation. -/
def finishParse (sections : List Section) (st : ParsedOrg × List Str) :
    ParsedOrg × List Str :=
  let st2 := if st.1.Name = [] then sections.foldl dispatchRoot st else st
  if st2.1.Agents.length = 0 then (st2.1, st2.2 ++ [noAgentsError]) else st2

/-- `Parse`. -/
def Parse (source : Str) : ParsedOrg × List Str :=
  let sections := parseMarkdownSections source
  let st := match sections.find? (fun s => decide (s.level = 1)) with
    | some s => s.children.foldl dispatchChild ({ emptyOrg with Name := s.heading }, [])
    | none => (emptyOrg, [])
  finishParse sections st

/-- A loop whose iterations may panic. -/
def loopChecked {σ α : Type} (step : σ → α → Option σ) : σ → List α → Option σ
  | st, [] => some st
  | st, a :: rest =>
    match step st a with
    | some st2 => loopChecked step st2 rest
    | none => none

/-- The count loops of `parseStructure` (lines 256-271 and 308-328) with the
check of `append`: `mk i` is the record of the iteration `i`, the first argument
the number of iterations left, the second the loop index. The slice `agents` can
hold at most `maxLen` records: where an `append` would exceed this, the runtime
panics in `growslice` or stops with "out of memory", and the result is `none`. A
slice length is an `int`, so `maxLen` is at most 2^63 - 1. -/
def countLoopChecked (maxLen : Nat) (mk : Nat → Agent) : Nat → Nat → List Agent →
    Option (List Agent)
  | 0, _, agents => some agents
  | k + 1, i, agents =>
    if agents.length < maxLen then countLoopChecked maxLen mk k (i + 1) (agents ++ [mk i])
    else none

/-- The standalone branch (lines 250-272) with the check of `append`. -/
def standaloneChecked (maxLen : Nat) (agents : List Agent) (dept : Section) :
    Option (List Agent) :=
  let m := extractMeta dept.content
  let name := nameFromHeading dept.heading
  let level := inferLevel dept.heading m
  let domain := if metaGet m "domain".toList = [] then name else metaGet m "domain".toList
  let count := countOf m
  countLoopChecked maxLen (fun i =>
    { ID := makeID (agentNameOf name count i)
      Name := agentNameOf name count i
      Role := inferRole dept.heading
      Level := level
      Domain := domain
      Avatar := metaGet m "avatar".toList
      ParentID := []
      ReportsTo := metaGet m "reports to".toList
      Count := 1 }) count.toNat 0 agents

/-- One iteration of the loop over `dept.children` with the check of
`append`. -/
def subRoleStepChecked (maxLen : Nat) (domain : Str) (st : List Agent × Str) (ri : Nat)
    (sub : Section) : Option (List Agent × Str) :=
  if sub.level ≠ 4 then some st
  else
    let subMeta := extractMeta sub.content
    let subName := nameFromHeading sub.heading
    let subLevel := inferLevel sub.heading subMeta
    let subDomain := if metaGet subMeta "domain".toList = [] then domain
      else metaGet subMeta "domain".toList
    let subReportsTo := metaGet subMeta "reports to".toList
    let parentID := if subReportsTo ≠ [] then makeID subReportsTo
      else if ri = 0 then [] else st.2
    let count := countOf subMeta
    match countLoopChecked maxLen (fun i =>
      ({ ID := makeID (agentNameOf subName count i)
         Name := agentNameOf subName count i
         Role := inferRole sub.heading
         Level := subLevel
         Domain := subDomain
         Avatar := metaGet subMeta "avatar".toList
         ParentID := parentID
         ReportsTo := subReportsTo
         Count := 1 } : Agent)) count.toNat 0 st.1 with
    | some agents =>
      some (agents,
        if ri = 0 ∧ 0 < count then makeID (agentNameOf subName count 0) else st.2)
    | none => none

/-- The loop over `dept.children` from index `ri` on, with the check of
`append`. -/
def subRoleLoopChecked (maxLen : Nat) (domain : Str) :
    List Agent × Str → Nat → List Section → Option (List Agent × Str)
  | st, _, [] => some st
  | st, ri, sub :: rest =>
    match subRoleStepChecked maxLen domain st ri sub with
    | some st2 => subRoleLoopChecked maxLen domain st2 (ri + 1) rest
    | none => none

/-- One iteration of the loop over `sec.children` of `parseStructure` with the
check of `append`. -/
def deptStepChecked (maxLen : Nat) (agents : List Agent) (dept : Section) :
    Option (List Agent) :=
  if dept.level ≠ 3 then some agents
  else
    let m := extractMeta dept.content
    let name := nameFromHeading dept.heading
    let level := inferLevel dept.heading m
    let domain := if metaGet m "domain".toList = [] then name else metaGet m "domain".toList
    if level ≥ 10 ∨ dept.children.length = 0 then standaloneChecked maxLen agents dept
    else (subRoleLoopChecked maxLen domain (agents, []) 0 dept.children).map (fun st => st.1)

/-- `parseStructure` with the check of `append`. -/
def parseStructureChecked (maxLen : Nat) (sec : Section) : Option (List Agent × List Str) :=
  (loopChecked (deptStepChecked maxLen) [] sec.children).map (fun agents => (agents, []))

/-- One iteration of the loop over the children of the level-1 section, with the
checks of `parseCulture` and `parseStructure`. -/
def dispatchChildChecked (maxLen : Nat) (st : ParsedOrg × List Str) (h2 : Section) :
    Option (ParsedOrg × List Str) :=
  let lower := strings.ToLower h2.heading
  if strings.Contains lower "culture".toList then
    match parseCultureChecked h2 with
    | some c => some ({ st.1 with Culture := c }, st.2)
    | none => none
  else if strings.Contains lower "structure".toList then
    match parseStructureChecked maxLen h2 with
    | some r => some ({ st.1 with Agents := r.1 }, st.2 ++ r.2)
    | none => none
  else if strings.Contains lower "policies".toList || strings.Contains lower "policy".toList then
    some ({ st.1 with Policies := parsePolicies h2 }, st.2)
  else some st

/-- One iteration of the fallback loop, with the checks of `parseCulture` and
`parseStructure`. -/
def dispatchRootChecked (maxLen : Nat) (st : ParsedOrg × List Str) (s : Section) :
    Option (ParsedOrg × List Str) :=
  if s.level = 2 then
    let lower := strings.ToLower s.heading
    if strings.Contains lower "culture".toList then
      match parseCultureChecked s with
      | some c => some ({ st.1 with Culture := c }, st.2)
      | none => none
    else if strings.Contains lower "structure".toList then
      match parseStructureChecked maxLen s with
      | some r => some ({ st.1 with Agents := r.1 }, st.2 ++ r.2)
      | none => none
    else some st
  else some st

/-- `Parse` with the checks of every index and slice expression and of every
`append` to the role slice on its way: `none` stands for a run that does not
return (a run-time panic or "out of memory"); `maxLen` is the number of records
the role slice can hold. -/
def ParseChecked (maxLen : Nat) (source : Str) : Option (ParsedOrg × List Str) :=
  match parseMarkdownSectionsChecked source with
  | none => none
  | some sections =>
    let st1 := match sections.find? (fun s => decide (s.level = 1)) with
      | some s =>
        loopChecked (dispatchChildChecked maxLen) ({ emptyOrg with Name := s.heading }, [])
          s.children
      | none => some (emptyOrg, [])
    match st1 with
    | none => none
    | some st =>
      let st2 := if st.1.Name = [] then loopChecked (dispatchRootChecked maxLen) st sections
        else some st
      match st2 with
      | none => none
      | some st3 =>
        if st3.1.Agents.length = 0 then some (st3.1, st3.2 ++ [noAgentsError]) else some st3

end orgparser

/-! ## Reading a forest of sections -/

namespace orgparser

/-- What a heading carries apart from its nesting: title, level and body. -/
abbrev Label := Str × Int × Str

/-- The label of a section. -/
def Section.label (s : Section) : Label := (s.heading, s.level, s.content)

mutual
/-- The labels of a section and its descendants, the section first, then its
children from left to right (pre-order). -/
def preorderS : Section → List Label
  | .mk h l c cs => (h, l, c) :: preorder cs
/-- The labels of a forest in pre-order. -/
def preorder : List Section → List Label
  | [] => []
  | s :: ss => preorderS s ++ preorder ss
end

mutual
/-- For a section whose pre-order position is `base` and whose parent is at
position `par` (`none` for a root): the parent positions of the section and of
its descendants, in pre-order. -/
def parentsS (par : Option Nat) (base : Nat) : Section → List (Option Nat)
  | .mk _ _ _ cs => par :: parents (some base) (base + 1) cs
/-- The parent positions of the nodes of a list of siblings that starts at
pre-order position `base`, in pre-order. -/
def parents (par : Option Nat) (base : Nat) : List Section → List (Option Nat)
  | [] => []
  | s :: ss => parentsS par base s ++ parents par (base + (preorderS s).length) ss
end

/-- The pre-order position of the parent of each node of a forest, `none` for
the roots. -/
def parentIndex (f : List Section) : List (Option Nat) := parents none 0 f

mutual
/-- Every child of every node of the section has a level above its node. -/
def childrenDeeperS : Section → Bool
  | .mk _ l _ cs => cs.all (fun c => decide (l < c.level)) && childrenDeeper cs
/-- Every child of every node of the forest has a level above its node. -/
def childrenDeeper : List Section → Bool
  | [] => true
  | s :: ss => childrenDeeperS s && childrenDeeper ss
end

/-- The line with index `k` is a fence line: its trimmed text starts with three
backticks. -/
def isFenceLine (lines : List Str) (k : Nat) : Bool :=
  strings.HasPrefix (strings.TrimSpace (lines.getD k [])) "```".toList

/-- The number of fence lines before the line with index `k`. -/
def fencesBefore (lines : List Str) (k : Nat) : Nat :=
  ((lines.take k).filter (fun l => strings.HasPrefix (strings.TrimSpace l) "```".toList)).length

/-- The line with index `k` is a recognized heading: it exists, an even number of
fence lines precede it, it is no fence line, and its trimmed text matches the
heading pattern. -/
def recognized (lines : List Str) (k : Nat) : Bool :=
  decide (k < lines.length) && decide (fencesBefore lines k % 2 = 0) && !isFenceLine lines k &&
    (headingRegex (strings.TrimSpace (lines.getD k []))).isSome

/-! ## The open path of the tree builder

The state of `buildTree` between two headings, read as the sections that are
closed (`done`) and the chain of sections still on the stack (`frames`, the top
first), each with the children it has so far. -/

/-- A section on the stack with the children attached to it so far. -/
structure Frame where
  heading : Str
  level : Int
  content : Str
  kids : List Section

/-- The forest obtained by hanging `sub` under the top frame and every frame
under the one below it. -/
def plugUp : List Section → List Frame → List Section
  | sub, [] => sub
  | sub, f :: fs => plugUp [Section.mk f.heading f.level f.content (f.kids ++ sub)] fs

/-- The index path, in `done ++ plugUp sub fs`, of the place `q` below element
`i` of `sub`. -/
def zPath (done : List Section) : List Frame → Nat → List Nat → List Nat
  | [], i, q => (done.length + i) :: q
  | f :: fs, i, q => zPath done fs 0 ((f.kids.length + i) :: q)

/-- The stack of `buildTree` that belongs to the frames, top first. -/
def zStack (done : List Section) : List Frame → List stackEntry
  | [] => []
  | f :: fs => ⟨zPath done fs 0 [], f.level⟩ :: zStack done fs

/-- The labels of the frames and their children, in pre-order. -/
def zPre : List Frame → List Label
  | [] => []
  | f :: fs => zPre fs ++ (f.heading, f.level, f.content) :: preorder f.kids

/-- The pre-order position and the level of each frame, top first; `b` is the
number of nodes before the frames. -/
def zChain (b : Nat) : List Frame → List (Nat × Int)
  | [] => []
  | f :: fs => (b + (zPre fs).length, f.level) :: zChain b fs

/-- The frames popped for a heading of level `l`, folded into `sub`. -/
def zPop (l : Int) : List Section → List Frame → List Section × List Frame
  | sub, [] => (sub, [])
  | sub, f :: fs =>
    if f.level ≥ l then zPop l [Section.mk f.heading f.level f.content (f.kids ++ sub)] fs
    else (sub, f :: fs)

/-- The frames after the sections in `sub` were attached and the heading `s` was
pushed. -/
def zPush (s : Section) (done sub : List Section) : List Frame → List Section × List Frame
  | [] => (done ++ sub, [⟨s.heading, s.level, s.content, s.children⟩])
  | f :: fs => (done, ⟨s.heading, s.level, s.content, s.children⟩ ::
      ⟨f.heading, f.level, f.content, f.kids ++ sub⟩ :: fs)

/-- The nearest position before `n` whose level is below `l`. -/
def prevLower (levels : List Int) (l : Int) : Nat → Option Nat
  | 0 => none
  | n + 1 => if levels.getD n 0 < l then some n else prevLower levels l n

/-- Each entry of the chain holds a position and its level, and the entry below
it is the nearest earlier position of lower level. -/
def ChainOK (levels : List Int) : List (Nat × Int) → Prop
  | [] => True
  | e :: rest => levels[e.1]? = some e.2 ∧
      prevLower levels e.2 e.1 = rest.head?.map (fun x => x.1) ∧ ChainOK levels rest

/-- One more than the position on top of the chain, 0 for the empty chain. -/
def chainTop : List (Nat × Int) → Nat
  | [] => 0
  | e :: _ => e.1 + 1

/-- The parent of the sections hung under the top frame. -/
def zTopPar (par : Option Nat) (b : Nat) : List Frame → Option Nat
  | [] => par
  | _ :: fs => some (b + (zPre fs).length)

/-- The parent positions of the nodes that the frames hold. -/
def zPar (par : Option Nat) (b : Nat) : List Frame → List (Option Nat)
  | [] => []
  | f :: fs => zPar par b fs ++ zTopPar par b fs ::
      parents (some (b + (zPre fs).length)) (b + (zPre fs).length + 1) f.kids

/-- The frames are nested by strictly growing level, and so are their children. -/
def zDeep : List Frame → Bool
  | [] => true
  | f :: fs => f.kids.all (fun c => decide (f.level < c.level)) && childrenDeeper f.kids &&
      (match fs with
        | [] => true
        | g :: _ => decide (g.level < f.level)) && zDeep fs

/-- The sections hung under the top frame have a level above it. -/
def zSubOK (sub : List Section) : List Frame → Bool
  | [] => true
  | f :: _ => sub.all (fun c => decide (f.level < c.level))

/-- The nearest position before `i` whose level is below the level at `i`. -/
def nearestLower (levels : List Int) (i : Nat) : Option Nat :=
  prevLower levels (levels.getD i 0) i

/-- What holds of the state of `buildTree` after the headings `p`. -/
def BuildInv (p : List Section) (st : List Section × List stackEntry) : Prop :=
  ∃ (done : List Section) (fs : List Frame),
    st = (done ++ plugUp [] fs, zStack done fs) ∧
    preorder st.1 = p.map Section.label ∧
    parentIndex st.1 = (List.range p.length).map (nearestLower (p.map Section.level)) ∧
    childrenDeeper st.1 = true ∧
    ChainOK (p.map Section.level) (zChain (preorder done).length fs) ∧
    chainTop (zChain (preorder done).length fs) = p.length

/-- A line is a fence line: its trimmed text starts with three backticks. -/
def fenceText (l : Str) : Bool := strings.HasPrefix (strings.TrimSpace l) "```".toList

/-- The headings `hs` are recognized headings of `lines` in growing line order,
each with the level and title its line gives, and no line from `start` on that is
not among them is a recognized heading. -/
def HSeg (lines : List Str) : Nat → List headingInfo → Prop
  | start, [] => ∀ j, start ≤ j → recognized lines j = false
  | start, h :: hs =>
    start ≤ h.lineIdx ∧ recognized lines h.lineIdx = true ∧
    (∃ hashes : Str, headingRegex (strings.TrimSpace (lines.getD h.lineIdx [])) =
        some (hashes, h.heading) ∧ h.level = hashes.length) ∧
    (∀ j, start ≤ j → j < h.lineIdx → recognized lines j = false) ∧
    HSeg lines (h.lineIdx + 1) hs

/-- The title and the level a heading line gives: the text after the hashes and
the white space that follows them, and the number of hashes. -/
def headingOfLine (l : Str) : Str × Int :=
  match headingRegex (strings.TrimSpace l) with
  | some m => (m.2, m.1.length)
  | none => ([], 0)

/-- The document of the test `TestParseBasic`. -/
def testOrg : Str :=
  ("# Test Org\n\n## Identity\n\nWe build things.\n\n## Structure\n\n### Boss — CEO\n" ++
   "Runs everything.\n\n- **Level:** 10\n- **Avatar:** 👑\n- **Domain:** Operations\n\n" ++
   "### Engineering\n\n#### Lead — Engineering Lead\nLeads the team.\n\n- **Level:** 7\n" ++
   "- **Avatar:** 💻\n- **Domain:** Engineering\n- **Reports to:** Boss\n\n" ++
   "#### Worker — Developer\nDoes the work.\n\n- **Level:** 4\n- **Avatar:** ⚙️\n" ++
   "- **Domain:** Backend\n- **Reports to:** Lead\n").toList

/-- A child of the title section goes to the policy extractor: its lower-cased
title holds neither "culture" nor "structure" and holds "policies" or "policy". -/
def policyChild (c : Section) : Bool :=
  !strings.Contains (strings.ToLower c.heading) "culture".toList &&
  !strings.Contains (strings.ToLower c.heading) "structure".toList &&
  (strings.Contains (strings.ToLower c.heading) "policies".toList ||
    strings.Contains (strings.ToLower c.heading) "policy".toList)

/-- A document without level-1 heading whose only section is a level-2
"Policies" section. -/
def policiesAtRoot : Str :=
  "## Policies\n- **Per-agent limit:** 500 credits/period\n- **Alert threshold:** 80%".toList

/-- The same section under a level-1 title. -/
def policiesUnderTitle : Str :=
  "# Acme\n## Policies\n- **Per-agent limit:** 500 credits/period\n- **Alert threshold:** 80%".toList

/-- A document whose title has a child titled "Police". -/
def policeDoc : Str := "# T\n## Police\n- **Per-agent limit:** 500".toList

end orgparser

/-! ## Reading the structure extractor -/

namespace orgparser

/-- The parent id a sub-section gets in `subRoleStep` (lines 291-299);
`lead` is the value of `deptLeadID` and `ri` the index of `sub`. -/
def subParent (lead : Str) (ri : Nat) (sub : Section) : Str :=
  if metaGet (extractMeta sub.content) "reports to".toList ≠ [] then
    makeID (metaGet (extractMeta sub.content) "reports to".toList)
  else if ri = 0 then [] else lead

/-- The records the count loop of the sub-role branch (lines 308-328) makes for
the sub-section `sub`, with the department's domain and the parent id. -/
def subRoleAgents (domain parentID : Str) (sub : Section) : List Agent :=
  (List.range (countOf (extractMeta sub.content)).toNat).map (fun i =>
    ({ ID := makeID (agentNameOf (nameFromHeading sub.heading)
              (countOf (extractMeta sub.content)) i)
       Name := agentNameOf (nameFromHeading sub.heading) (countOf (extractMeta sub.content)) i
       Role := inferRole sub.heading
       Level := inferLevel sub.heading (extractMeta sub.content)
       Domain := if metaGet (extractMeta sub.content) "domain".toList = [] then domain
         else metaGet (extractMeta sub.content) "domain".toList
       Avatar := metaGet (extractMeta sub.content) "avatar".toList
       ParentID := parentID
       ReportsTo := metaGet (extractMeta sub.content) "reports to".toList
       Count := 1 } : Agent))

/-- The section is processed by the standalone branch of `parseStructure`: it has
level 3 and its rank is at least 10 or it has no nested section. -/
def standaloneDept (dept : Section) : Prop :=
  dept.level = 3 ∧
    (inferLevel dept.heading (extractMeta dept.content) ≥ 10 ∨ dept.children = [])

/-- The records are the `n` instances of the name: they carry the names
`name 1`, ..., `name n` in this order, each id is the slug of its name, and the
ids are pairwise distinct. -/
def Expanded (name : Str) (n : Nat) (recs : List Agent) : Prop :=
  recs.map (fun a => a.Name) = (List.range n).map (fun i => name ++ ' ' :: decimal (i + 1)) ∧
  (∀ a ∈ recs, a.ID = makeID a.Name) ∧
  (recs.map (fun a => a.ID)).Nodup

/-- A child of the title section goes to the structure extractor: its lower-cased
title holds "structure" and does not hold "culture". -/
def structureChild (c : Section) : Bool :=
  !strings.Contains (strings.ToLower c.heading) "culture".toList &&
  strings.Contains (strings.ToLower c.heading) "structure".toList

/-- A child of the title section goes to the culture extractor: its lower-cased
title holds "culture". -/
def cultureChild (c : Section) : Bool :=
  strings.Contains (strings.ToLower c.heading) "culture".toList

/-- The text `s` holds the keyword `k` as a whole word: an occurrence of `k` in
`s` with no word character right before it and none right after it. -/
def wholeWordIn (k s : Str) : Prop :=
  ∃ pre post : Str, s = pre ++ k ++ post ∧
    (∀ c ∈ pre.getLast?, regexp.isW c = false) ∧ (∀ c ∈ post.head?, regexp.isW c = false)

/-- The text holds one of the keywords as a whole word. -/
def hasWord (kws : List Str) (s : Str) : Prop := ∃ k ∈ kws, wholeWordIn k s

/-- The metadata map has no `level` entry that parses as an integer. -/
def noExplicitLevel (m : Meta) : Prop :=
  ∀ v, metaGet? m "level".toList = some v → (strconv.Atoi (strings.TrimSpace v)).2 = false

/-- A title with a structure section followed by a section whose title holds
both "culture" and "structure". -/
def cultureStructureDoc : Str :=
  "# T\n## Structure\n### Boss\n## Culture and Structure\n### Other".toList

/-- A title with two structure sections and two culture sections. -/
def duplicatesDoc : Str :=
  ("# T\n## Culture\n- **Preset:** one\n## Structure\n### Boss\n" ++
   "## Team Structure\n### Other\n## Our Culture\n- **Preset:** two").toList

/-- A department with a count annotation of its own and one sub-role. -/
def countedDeptDoc : Str := "# T\n## Structure\n### Eng\n- **Count:** 3\n#### A".toList

/-- A standalone department with the count 3. -/
def countThreeDoc : Str := "# T\n## Structure\n### Devs\n- **Count:** 3".toList

/-- A department whose first nested section is a level-5 heading, followed by
two level-4 sub-roles. -/
def leadSkippedDoc : Str := "# T\n## Structure\n### Eng\n##### Note\n#### A\n#### B".toList

/-- A department with the sub-roles A, B and C, the last reporting to A. -/
def threeSubRolesDoc : Str :=
  "# T\n## Structure\n### Eng\n#### A\n#### B\n#### C\n- **Reports to:** A".toList

/-- The document of the concrete scenario of the specification. -/
def scenarioDoc : Str :=
  ("# Acme\n## Structure\n### Boss — CEO\n- **Level:** 10\n### Eng\n" ++
   "#### Dev — Developer\n- **Reports to:** Boss").toList

/-- A chief with the explicit level 3. -/
def levelThreeDoc : Str := "# T\n## Structure\n### Boss — CEO\n- **Level:** 3".toList

/-- A department whose first sub-role has the count 0, followed by two
sub-roles. -/
def countZeroLeadDoc : Str :=
  "# T\n## Structure\n### Eng\n#### Z\n- **Count:** 0\n#### A\n#### B".toList

/-- The roles of the state are those of the start or those `parseStructure`
extracted from some section. -/
def AgentsFrom (st : ParsedOrg × List Str) : Prop :=
  st.1.Agents = [] ∨ ∃ sec : Section, st.1.Agents = (parseStructure sec).1

/-- No word character stands right before the place that follows `pre`: the last
character of `pre`, or the character before the text when `pre` is empty (`prevW`
tells that it is a word character), is no word character. -/
def boundaryBefore (prevW : Bool) (pre : Str) : Prop :=
  match pre.getLast? with
  | none => prevW = false
  | some c => regexp.isW c = false

end orgparser

/-! ## Reading the annotations, the slugs and the templates -/

namespace strings

/-- `strings.TrimFunc(s, f)`: the text without the leading and the trailing
characters that satisfy `f`; `TrimSpace` is `TrimFunc` at `unicode.IsSpace` and
`Trim(s, "-")` is `TrimFunc` at the test for a dash. -/
def TrimFunc (s : Str) (f : Char → Bool) : Str :=
  ((s.dropWhile f).reverse.dropWhile f).reverse

/-- `strings.Replace(s, old, new, 1)`: the first occurrence of `old` in `s` is
replaced by `new`; without an occurrence the text is returned as it is. -/
def ReplaceFirst : Str → Str → Str → Str
  | [], old, new => if old = [] then new else []
  | c :: cs, old, new =>
    if old.isPrefixOf (c :: cs) then new ++ (c :: cs).drop old.length
    else c :: ReplaceFirst cs old new

end strings

namespace orgparser

/-- Two neighbours in a text are not both dashes. -/
def noTwoDashes (a c : Char) : Prop := ¬ (a = '-' ∧ c = '-')

/-- One iteration of the loop of `extractMeta` with the library function
`strings.ToLower` as the parameter `lower`. -/
def extractMetaLineWith (lower : Str → Str) (m : Meta) (line : Str) : Meta :=
  let line := strings.TrimPrefix (strings.TrimSpace line) "- ".toList
  match metaRegex line with
  | some g => (lower (strings.TrimSpace g.1), strings.TrimSpace g.2) :: m
  | none => m

/-- `extractMeta` with the library function `strings.ToLower` as the parameter
`lower`; `extractMeta` is `extractMetaWith strings.ToLower`. -/
def extractMetaWith (lower : Str → Str) (content : Str) : Meta :=
  (strings.SplitLines content).foldl (extractMetaLineWith lower) []

/-- The annotation a line of a body carries, if any, for the lower-casing
function `lower`: the line is trimmed, a leading bullet "- " is removed, and the
rest is matched against `metaRegex`; the key is trimmed and lower-cased, the
value trimmed. -/
def annotationWith (lower : Str → Str) (line : Str) : Option (Str × Str) :=
  (metaRegex (strings.TrimPrefix (strings.TrimSpace line) "- ".toList)).map
    (fun g => (lower (strings.TrimSpace g.1), strings.TrimSpace g.2))

/-- The line `line` is the last line of `lines` that carries an annotation of the
key `k` for the lower-casing function `lower`, and its value is `v`. -/
def lastAnnotatedWith (lower : Str → Str) (lines : List Str) (k v : Str) : Prop :=
  ∃ (pre : List Str) (line : Str) (post : List Str), lines = pre ++ line :: post ∧
    annotationWith lower line = some (k, v) ∧
    ∀ l ∈ post, ∀ v2, annotationWith lower l ≠ some (k, v2)

/-- No line of `lines` carries an annotation of the key `k` for the lower-casing
function `lower`. -/
def notAnnotatedWith (lower : Str → Str) (lines : List Str) (k : Str) : Prop :=
  ∀ l ∈ lines, ∀ v, annotationWith lower l ≠ some (k, v)

/-- A lower-casing function that also maps the capital letters of Latin-1
(U+00C0 to U+00DE without the sign U+00D7) as Go does. -/
def lowerLatin (s : Str) : Str :=
  s.map (fun c =>
    if 0xC0 ≤ c.toNat ∧ c.toNat ≤ 0xDE ∧ c.toNat ≠ 0xD7 then Char.ofNat (c.toNat + 32)
    else unicode.ToLower c)

/-- The maximal runs of characters of the class `[a-z0-9]` of a text, in order:
the pieces of the text between its other characters, the empty pieces left
out. -/
def alnumRuns (l : Str) : List Str :=
  (l.splitOnP (fun c => !isLowerAlnum c)).filter (fun w => !w.isEmpty)

/-- The role records of a structure section fit a slice that holds `maxLen`
records. -/
def fits (maxLen : Nat) (sec : Section) : Bool :=
  decide ((parseStructure sec).1.length ≤ maxLen)

/-- The structure sections `Parse` hands to `parseStructure` on a source: the
children of the title section that go to the structure extractor and, when the
name is empty, the root sections of level 2 that do. -/
def dispatchedStructures (source : Str) : List Section :=
  (match (parseMarkdownSections source).find? (fun s => decide (s.level = 1)) with
    | some s => s.children.filter structureChild
    | none => []) ++
  (if (match (parseMarkdownSections source).find? (fun s => decide (s.level = 1)) with
        | some s => s.heading
        | none => []) = [] then
      (parseMarkdownSections source).filter (fun s => decide (s.level = 2) && structureChild s)
    else [])

/-- A structure section with two standalone departments whose count is the
largest `int`. -/
def hugeCountsDoc : Str :=
  ("# T\n## Structure\n### A\n- **Count:** 9223372036854775807\n" ++
   "### B\n- **Count:** 9223372036854775807").toList

/-- The annotation a line of a body carries, if any: the line is trimmed, a
leading bullet "- " is removed, and the rest is matched against `metaRegex`; the
key is trimmed and lower-cased, the value trimmed. -/
def annotationOf (line : Str) : Option (Str × Str) :=
  (metaRegex (strings.TrimPrefix (strings.TrimSpace line) "- ".toList)).map
    (fun g => (strings.ToLower (strings.TrimSpace g.1), strings.TrimSpace g.2))

/-- The line `line` is the last line of `lines` that carries an annotation of the
key `k`, and the value of this annotation is `v`. -/
def lastAnnotated (lines : List Str) (k v : Str) : Prop :=
  ∃ (pre : List Str) (line : Str) (post : List Str), lines = pre ++ line :: post ∧
    annotationOf line = some (k, v) ∧ ∀ l ∈ post, ∀ v2, annotationOf l ≠ some (k, v2)

/-- No line of `lines` carries an annotation of the key `k`. -/
def notAnnotated (lines : List Str) (k : Str) : Prop :=
  ∀ l ∈ lines, ∀ v, annotationOf l ≠ some (k, v)

/-- The test of the bare-preset loop of `parseCulture` (line 220): the trimmed
line, lower-cased, begins with "preset:". -/
def isBarePreset (line : Str) : Bool :=
  strings.HasPrefix (strings.ToLower (strings.TrimSpace line)) "preset:".toList

/-- The local variable `allContent` of `parsePolicies` (lines 340-343): the body
of the section followed by the bodies of its children, each after a line feed. -/
def policyContent (sec : Section) : Str :=
  sec.children.foldl (fun acc child => acc ++ '\n' :: child.content) sec.content

/-- The text `run` is the first maximal run of ASCII digits of `v`: no digit
stands before it, it is a non-empty run of digits, and no digit follows it. -/
def firstDigitRun (v run : Str) : Prop :=
  ∃ pre post : Str, v = pre ++ run ++ post ∧ (∀ c ∈ pre, c.isDigit = false) ∧ run ≠ [] ∧
    (∀ c ∈ run, c.isDigit = true) ∧ (∀ c ∈ post.head?, c.isDigit = false)

/-- A policy section whose budget annotations stand under a sub-heading. -/
def budgetSection : Section :=
  Section.mk "Policies".toList 2 []
    [Section.mk "Budget".toList 3
      "- **Per-agent limit:** 500 credits/period\n- **Alert threshold:** 80%".toList []]

/-- A policy section with the same key in its own body, in two children and in
a grandchild. -/
def layeredPolicies : Section :=
  Section.mk "Policies".toList 2 "- **Alert threshold:** 70%".toList
    [Section.mk "Budget".toList 3 "- **Alert threshold:** 80%".toList
      [Section.mk "Detail".toList 4 "- **Per-agent limit:** 9".toList []],
     Section.mk "Later".toList 3 "- **Alert threshold:** 90%".toList []]

/-- The line index of a heading record moved one line down. -/
def shiftLine (h : headingInfo) : headingInfo := { h with lineIdx := h.lineIdx + 1 }

/-- A stack entry of `buildTree` seen from below a new first root: its path
gets the index 0 of this root in front. -/
def embedEntry (e : stackEntry) : stackEntry := ⟨0 :: e.sec, e.level⟩

/-- A state of the loop of `buildTree` seen from below a new first root `r`:
the roots become the nested sections of `r`, and the entry of `r` lies at the
bottom of the stack. -/
def embedState (r : Section) (st : List Section × List stackEntry) :
    List Section × List stackEntry :=
  ([r.setChildren st.1], st.2.map embedEntry ++ [⟨[0], r.level⟩])

/-- Every heading of the text has a level above 1. -/
def belowTitle (rest : Str) : Bool :=
  (flatSections (strings.SplitLines rest)
    (scanHeadings 0 false (strings.SplitLines rest))).all (fun s => decide (1 < s.level))

/-- The roles `Parse` returns for a document whose title line is followed by
the text `rest`: those of the last section of `rest` that goes to the structure
extractor. -/
def agentsOfBody (rest : Str) : List Agent :=
  match ((parseMarkdownSections rest).filter structureChild).getLast? with
  | some c => (parseStructure c).1
  | none => []

/-- The count annotation of the section parses as the integer `n`. -/
def countParsesTo (s : Section) (n : Int) : Prop :=
  ∃ c, metaGet? (extractMeta s.content) "count".toList = some c ∧
    strconv.Atoi (strings.TrimSpace c) = (n, true)

/-- A title whose structure section is a level-3 heading with a level-4 child. -/
def deepStructureDoc : Str := "# T\n### Structure\n#### Boss".toList

/-- A title whose structure section is a level-2 heading with a level-3 child. -/
def plainStructureDoc : Str := "# T\n## Structure\n### Boss".toList

/-- A standalone department with the count 0. -/
def countZeroDoc : Str := "# T\n## Structure\n### Devs\n- **Count:** 0".toList

end orgparser

/-! ## The init wizard (`packages/cli/internal/wizard/wizard.go`) -/

namespace wizard

/-- The type `Answers`. -/
structure Answers where
  TeamName : Str
  TemplateName : Str
  deriving DecidableEq, Repr

/-- The type `step` with its four constants. -/
inductive step where
  | stepTemplate
  | stepTeamName
  | stepConfirm
  | stepDone
  deriving DecidableEq, Repr

/-- The type `templateChoice`. -/
structure templateChoice where
  name : Str
  label : Str
  description : Str
  deriving DecidableEq, Repr

/-- The part of the library type `textinput.Model` the wizard reads and writes:
the text typed so far and the focus. -/
structure TextInput where
  value : Str
  focus : Bool
  deriving DecidableEq, Repr

/-- A `tea.Cmd` the wizard returns: `nil`, `tea.Quit`, the blink command of the
cursor, or the command the text input returned. -/
inductive Cmd where
  | nil
  | Quit
  | Blink
  | fromInput (tag : Nat)
  deriving DecidableEq, Repr

/-- A `tea.Msg`: a window size, a key (given by `msg.String()`), or any other
message. -/
inductive Msg where
  | WindowSizeMsg (Width : Int)
  | KeyMsg (string : Str)
  | other
  deriving DecidableEq, Repr

/-- The type `Model`. -/
structure Model where
  step : step
  templates : List templateChoice
  cursor : Int
  teamInput : TextInput
  answers : Answers
  cancelled : Bool
  width : Int
  deriving DecidableEq, Repr

/-- `Model.updateTemplate` (lines 149-166); `none` is the panic of the index
expression `m.templates[m.cursor]`. -/
def updateTemplate (m : Model) (key : Str) : Option (Model × Cmd) :=
  if key = "up".toList ∨ key = "k".toList then
    some (if m.cursor > 0 then { m with cursor := m.cursor - 1 } else m, Cmd.nil)
  else if key = "down".toList ∨ key = "j".toList then
    some (if m.cursor < (m.templates.length : Int) - 1 then { m with cursor := m.cursor + 1 }
      else m, Cmd.nil)
  else if key = "enter".toList then
    if 0 ≤ m.cursor then
      match m.templates[m.cursor.toNat]? with
      | some t =>
        some ({ m with
                answers := { m.answers with TemplateName := t.name }
                step := step.stepTeamName
                teamInput := { m.teamInput with focus := true } }, Cmd.Blink)
      | none => none
    else none
  else some (m, Cmd.nil)

/-- `Model.updateTeamName` (lines 168-186); `inputUpdate` is the library method
`textinput.Model.Update` on a key. -/
def updateTeamName (inputUpdate : TextInput → Str → TextInput × Cmd) (m : Model) (key : Str) :
    Option (Model × Cmd) :=
  if key = "enter".toList then
    let name := strings.TrimSpace m.teamInput.value
    let name := if name = [] then "My Agent Team".toList else name
    some ({ m with answers := { m.answers with TeamName := name }, step := step.stepConfirm },
      Cmd.nil)
  else if key = "esc".toList then
    some ({ m with step := step.stepTemplate }, Cmd.nil)
  else
    some ({ m with teamInput := (inputUpdate m.teamInput key).1 }, (inputUpdate m.teamInput key).2)

/-- `Model.updateConfirm` (lines 188-199). -/
def updateConfirm (m : Model) (key : Str) : Option (Model × Cmd) :=
  if key = "enter".toList ∨ key = "y".toList then
    some ({ m with step := step.stepDone }, Cmd.Quit)
  else if key = "n".toList ∨ key = "backspace".toList then
    some ({ m with step := step.stepTemplate, cursor := 0 }, Cmd.nil)
  else some (m, Cmd.nil)

/-- The second `switch` of `Model.Update` (lines 136-143) and the final
`return m, nil`. -/
def updateStep (inputUpdate : TextInput → Str → TextInput × Cmd) (m : Model) (key : Str) :
    Option (Model × Cmd) :=
  match m.step with
  | step.stepTemplate => updateTemplate m key
  | step.stepTeamName => updateTeamName inputUpdate m key
  | step.stepConfirm => updateConfirm m key
  | step.stepDone => some (m, Cmd.nil)

/-- `Model.Update` (lines 118-147). -/
def Update (inputUpdate : TextInput → Str → TextInput × Cmd) (m : Model) (msg : Msg) :
    Option (Model × Cmd) :=
  match msg with
  | Msg.WindowSizeMsg w => some ({ m with width := w }, Cmd.nil)
  | Msg.KeyMsg key =>
    if key = "ctrl+c".toList ∨ key = "q".toList then
      if m.step ≠ step.stepTeamName then some ({ m with cancelled := true }, Cmd.Quit)
      else updateStep inputUpdate m key
    else if key = "esc".toList then some ({ m with cancelled := true }, Cmd.Quit)
    else updateStep inputUpdate m key
  | Msg.other => some (m, Cmd.nil)

/-- The help line `Model.View` writes in each step (lines 228, 235 and 251). -/
def helpLine : step → Str
  | step.stepTemplate => "↑/↓ to navigate • enter to select • esc to cancel".toList
  | step.stepTeamName => "enter to confirm • esc to go back".toList
  | step.stepConfirm => "enter/y to confirm • n to start over • esc to cancel".toList
  | step.stepDone => []

/-- A model in the team-name step, as `updateTemplate` leaves it after the first
template was chosen. -/
def teamNameModel : Model :=
  { step := step.stepTeamName
    templates := [⟨"dev-shop".toList, "Dev Shop".toList, []⟩]
    cursor := 0
    teamInput := ⟨[], true⟩
    answers := ⟨[], "dev-shop".toList⟩
    cancelled := false
    width := 0 }

end wizard

/-! ## The built-in templates (`packages/cli/internal/templates/templates.go`) -/

namespace templates

/-- The type `Template`. -/
structure Template where
  Name : Str
  Label : Str
  Description : Str
  Content : Str
  deriving DecidableEq, Repr

/-- The template `assistant-team` (function `assistantTeam`). -/
def assistantTeam : Template :=
  { Name := "assistant-team".toList
    Label := "Personal Assistant Team".toList
    Description := "Chief of staff + specialists for a solo operator (research, content, engineering, security)".toList
    Content :=
    ("# \x7b\x7bTEAM_NAME\x7d\x7d\n\n## Identity\n\n" ++
     "An AI-powered operations team that handles content, research, engineering, and security autonomously. Built for a solo operator who needs a team, not just a tool.\n" ++
     "\n" ++
     "- **Mission:** Ship real output — content, code, operations — with minimal human intervention\n" ++
     "- **Vision:** 80%+ straight-through rate on all deliverables within 30 days\n\n" ++
     "### Values\n- Ship real output, not proof-of-concepts\n" ++
     "- Document every mistake — make it once, never twice\n" ++
     "- Straight-through rate is the metric that matters\n" ++
     "- Cheap models for mechanical tasks, expensive models for reasoning\n" ++
     "- Files over databases — transparency beats magic\n\n## Culture\n\npreset: agency\n" ++
     "- **Communication:** async-first, explicit handoffs\n" ++
     "- **Escalation:** immediate — too small to batch problems\n" ++
     "- **Progress updates:** on phase change\n- **Ack required:** yes\n\n## Structure\n\n" ++
     "### Oscar — Chief of Staff\n" ++
     "The coordinator. Manages priorities, delegates to specialists, reports to the human principal. Methodical, precise, bridges strategy and execution. Oscar doesn't do the work — Oscar makes sure the right agent does.\n" ++
     "\n- **Level:** 10\n- **Avatar:** 🎯\n- **Domain:** Operations\n" ++
     "- **Reports to:** Human Principal\n- **Trigger:** event-driven\n" ++
     "- **Wake on:** escalations, completions\n\n### Research & Intel\n\n" ++
     "#### Radar — Research Analyst\n" ++
     "Monitors the internet for relevant signals. Gathers intel, tracks competitors, surfaces trends. Curious, pattern-obsessed, slightly paranoid about missing signals. Delivers structured intel briefs, not raw dumps. Always answers \"so what?\"\n" ++
     "\n- **Level:** 7\n- **Avatar:** 🔭\n- **Domain:** Research\n- **Reports to:** Oscar\n" ++
     "\n### Content\n\n#### Muse — Creative Strategist\n" ++
     "Figures out what to say and how to say it. Develops angles, identifies audiences, structures narratives. Irreverent, pattern-obsessed, allergic to obvious takes.\n" ++
     "\n- **Level:** 7\n- **Avatar:** 💡\n- **Domain:** Content Strategy\n" ++
     "- **Reports to:** Oscar\n\n#### Ink — Content Writer\n" ++
     "Writes the actual words. Blog posts, documentation, social copy, launch materials. Rhythm-obsessive, concise, cares deeply about flow. Strong opinions on structure.\n" ++
     "\n- **Level:** 4\n- **Avatar:** ✍️\n- **Domain:** Writing\n- **Reports to:** Muse\n" ++
     "\n#### Lens — Visual Designer\n" ++
     "Handles images, graphics, video concepts, mockups. Thinks in visual systems, not individual assets. Reads the writer's draft and designs accordingly.\n" ++
     "\n- **Level:** 4\n- **Avatar:** 📸\n- **Domain:** Visual Design\n" ++
     "- **Reports to:** Muse\n\n### Engineering\n\n#### Forge — Engineer\n" ++
     "Ships code, manages deployments, fixes bugs, runs CI/CD. Test-first, documents everything. Ships clean PRs with context, not code drops.\n" ++
     "\n- **Level:** 7\n- **Avatar:** 🔧\n- **Domain:** Engineering\n" ++
     "- **Reports to:** Oscar\n\n### Security & Ops\n\n#### Shield — Security Auditor\n" ++
     "Audits for vulnerabilities, manages credentials, reviews access. Paranoid by design — that's the job. Every deploy needs Shield's sign-off.\n" ++
     "\n- **Level:** 7\n- **Avatar:** 🛡️\n- **Domain:** Security\n" ++
     "- **Reports to:** Oscar\n\n### Learning & Quality\n\n#### Guru — Mentor\n" ++
     "Helps the team learn from mistakes. Reviews post-mortems, documents lessons, updates process docs. Tracks straight-through rate.\n" ++
     "\n- **Level:** 7\n- **Avatar:** 📚\n- **Domain:** Quality\n- **Reports to:** Oscar\n" ++
     "\n## Policies\n\n### Budget\n- **Per-agent limit:** 500 credits/period\n" ++
     "- **Alert threshold:** 80%\n- **Overage behavior:** pause and escalate\n" ++
     "- **Period:** weekly\n\n### Permissions\n- Oscar can create and delegate any task\n" ++
     "- L7 specialists can break work into subtasks within their domain\n" ++
     "- All agents can escalate — nobody should be silently stuck\n" ++
     "- External communications require human approval\n\n### Quality\n" ++
     "- **Straight-through rate target:** 80%+ within 30 days\n" ++
     "- Every mistake gets documented, then process docs get updated\n\n## Playbooks\n\n" ++
     "### Content Pipeline\n1. Radar spots a trend or topic worth covering\n" ++
     "2. Radar creates a research brief with: signal, context, \"so what?\", suggested angle\n" ++
     "3. Oscar reviews — approves, adjusts, or rejects\n" ++
     "4. Muse develops the content strategy: audience, hook, structure, tone\n" ++
     "5. Ink writes the draft\n6. Lens creates supporting visuals\n" ++
     "7. Oscar reviews for quality and brand alignment\n8. Human approves → publish\n" ++
     "9. Guru logs the outcome: straight-through, minor edits, or rewrite\n\n" ++
     "### Engineering Pipeline\n1. Oscar or Human identifies a task\n" ++
     "2. Oscar creates an engineering brief\n3. Forge works in a branch\n" ++
     "4. Shield reviews security implications\n5. PR submitted → Oscar reviews\n" ++
     "6. Merge + deploy after staging validation\n\n### Board Meeting (MWF 8:00 AM)\n" ++
     "1. Oscar compiles status from all active work\n" ++
     "2. Format: Shipped / In Progress / Blocked / Next Priorities\n" ++
     "3. Sent to Human as a structured briefing\n4. Human replies if adjustments needed\n" ++
     "\n### Mistake Response\n" ++
     "1. Document in daily log: what happened, root cause, impact\n" ++
     "2. Guru creates a process fix\n3. Update relevant docs\n" ++
     "4. Never make the same mistake three times\n").toList }

/-- The template `content-agency` (function `contentAgency`). -/
def contentAgency : Template :=
  { Name := "content-agency".toList
    Label := "Content Agency".toList
    Description := "Content production pipeline with research, strategy, writing, and design".toList
    Content :=
    ("# \x7b\x7bTEAM_NAME\x7d\x7d\n\n## Identity\n\n" ++
     "A content production team that turns signals into published, polished output. Optimized for volume and quality.\n" ++
     "\n- **Mission:** Produce high-quality content at scale with consistent brand voice\n" ++
     "- **Vision:** Full pipeline from trend detection to published piece in under 24 hours\n" ++
     "\n### Values\n- Every piece serves a purpose\n" ++
     "- Research before writing, strategy before execution\n" ++
     "- Quality is measured, not assumed\n\n## Culture\n\npreset: agency\n" ++
     "- **Communication:** async-first, explicit handoffs via briefs\n" ++
     "- **Escalation:** immediate\n- **Progress updates:** on phase change\n" ++
     "- **Ack required:** yes\n\n## Structure\n\n### Editor — Editor in Chief\n" ++
     "Owns the content calendar, approves all briefs and final drafts. Sets editorial direction and maintains brand voice.\n" ++
     "\n- **Level:** 10\n- **Avatar:** 📋\n- **Domain:** Editorial\n" ++
     "- **Reports to:** Human Principal\n\n### Research\n\n#### Scout — Research Analyst\n" ++
     "Finds the stories. Monitors trends, competitors, news, social signals. Produces research briefs with clear \"so what?\" framing.\n" ++
     "\n- **Level:** 7\n- **Avatar:** 🔭\n- **Domain:** Research\n" ++
     "- **Reports to:** Editor\n\n### Strategy\n\n#### Strategist — Content Strategist\n" ++
     "Turns research into content plans. Defines audience, angle, structure, distribution channel.\n" ++
     "\n- **Level:** 7\n- **Avatar:** 🧠\n- **Domain:** Strategy\n" ++
     "- **Reports to:** Editor\n\n### Production\n\n#### Writer — Content Writer\n" ++
     "Executes against strategy briefs. Clean, engaging prose. Meets deadlines.\n\n" ++
     "- **Level:** 4\n- **Avatar:** ✍️\n- **Domain:** Writing\n" ++
     "- **Reports to:** Strategist\n- **Count:** 2\n\n#### Designer — Visual Designer\n" ++
     "Creates graphics, images, and layouts that complement the written content.\n\n" ++
     "- **Level:** 4\n- **Avatar:** 🎨\n- **Domain:** Design\n" ++
     "- **Reports to:** Strategist\n\n## Policies\n\n### Quality\n" ++
     "- **Straight-through rate target:** 80%+\n" ++
     "- All drafts reviewed by Editor before publish\n" ++
     "- Every published piece logged with quality rating\n\n## Playbooks\n\n" ++
     "### Content Pipeline\n1. Scout finds signal → research brief\n" ++
     "2. Editor reviews and approves angle\n" ++
     "3. Strategist creates content brief (audience, hook, structure)\n" ++
     "4. Writer drafts → Designer creates visuals\n5. Editor reviews final package\n" ++
     "6. Human approves → publish\n").toList }

/-- The template `dev-shop` (function `devShop`). -/
def devShop : Template :=
  { Name := "dev-shop".toList
    Label := "Dev Shop".toList
    Description := "Software development team with lead, frontend, backend, and QA".toList
    Content :=
    ("# \x7b\x7bTEAM_NAME\x7d\x7d\n\n## Identity\n\n" ++
     "A software development team that ships reliable code through clear process and quality gates.\n" ++
     "\n- **Mission:** Ship features fast without breaking things\n" ++
     "- **Vision:** Every PR reviewed, every deploy tested, every bug tracked\n\n" ++
     "### Values\n- Tests before code\n- PRs over direct commits\n" ++
     "- Ship small, ship often\n\n## Culture\n\npreset: startup\n" ++
     "- **Escalation:** immediate\n- **Progress updates:** on phase change\n" ++
     "- **Ack required:** yes\n\n## Structure\n\n### Tech Lead — Engineering Lead\n" ++
     "Triages technical work. Delegates to specialists. Reviews output. Owns architecture decisions.\n" ++
     "\n- **Level:** 9\n- **Avatar:** 💻\n- **Domain:** Engineering\n" ++
     "- **Reports to:** Human Principal\n\n### Backend\n\n" ++
     "#### Backend Dev — Backend Developer\n" ++
     "Owns API, database, and server infrastructure. Writes clean, tested code.\n\n" ++
     "- **Level:** 4\n- **Avatar:** ⚙️\n- **Domain:** Backend\n" ++
     "- **Reports to:** Tech Lead\n- **Count:** 2\n\n### Frontend\n\n" ++
     "#### Frontend Dev — Frontend Developer\n" ++
     "Builds and maintains the user interface. Focuses on UX and performance.\n\n" ++
     "- **Level:** 4\n- **Avatar:** 🎨\n- **Domain:** Frontend\n" ++
     "- **Reports to:** Tech Lead\n- **Count:** 2\n\n### Quality\n\n" ++
     "#### QA — QA Engineer\n" ++
     "Writes and runs tests. Reviews PRs for quality. Catches what developers miss.\n\n" ++
     "- **Level:** 4\n- **Avatar:** 🔍\n- **Domain:** Testing\n" ++
     "- **Reports to:** Tech Lead\n\n## Policies\n\n### Permissions\n" ++
     "- Tech Lead can create and assign tasks\n" ++
     "- All devs submit PRs — no direct commits to main\n" ++
     "- QA sign-off required before merge\n\n## Playbooks\n\n### Feature Development\n" ++
     "1. Tech Lead creates task with requirements and acceptance criteria\n" ++
     "2. Developer picks up task → works in branch\n3. PR submitted → QA reviews + tests\n" ++
     "4. Tech Lead approves → merge → deploy\n\n### Bug Fix\n" ++
     "1. Bug reported with reproduction steps\n2. Tech Lead triages priority\n" ++
     "3. Developer fixes in hotfix branch\n4. QA verifies fix → merge → deploy\n").toList }

/-- The template `research-lab` (function `researchLab`). -/
def researchLab : Template :=
  { Name := "research-lab".toList
    Label := "Research Lab".toList
    Description := "Research and analysis team with high autonomy and exploration budget".toList
    Content :=
    ("# \x7b\x7bTEAM_NAME\x7d\x7d\n\n## Identity\n\n" ++
     "A research team that explores questions deeply and produces rigorous analysis. Optimized for insight quality, not speed.\n" ++
     "\n- **Mission:** Surface insights that inform better decisions\n" ++
     "- **Vision:** Every analysis is reproducible, well-sourced, and actionable\n\n" ++
     "### Values\n- Depth over breadth\n- Sources over opinions\n" ++
     "- Reproducibility is non-negotiable\n\n## Culture\n\npreset: research\n" ++
     "- **Escalation:** delayed — let researchers explore before flagging blockers\n" ++
     "- **Progress updates:** on request\n- **Ack required:** yes\n\n## Structure\n\n" ++
     "### PI — Principal Investigator\n" ++
     "Sets research direction. Reviews findings. Ensures rigor and relevance.\n\n" ++
     "- **Level:** 10\n- **Avatar:** 🎓\n- **Domain:** Research Direction\n" ++
     "- **Reports to:** Human Principal\n\n### Analysis\n\n#### Analyst — Senior Analyst\n" ++
     "Designs research methodology. Runs complex analyses. Mentors juniors.\n\n" ++
     "- **Level:** 7\n- **Avatar:** 📊\n- **Domain:** Analysis\n- **Reports to:** PI\n" ++
     "- **Count:** 2\n\n### Collection\n\n#### Collector — Research Assistant\n" ++
     "Gathers data, runs searches, collects sources. Thorough and systematic.\n\n" ++
     "- **Level:** 4\n- **Avatar:** 🔎\n- **Domain:** Data Collection\n" ++
     "- **Reports to:** PI\n- **Count:** 2\n\n### Synthesis\n\n" ++
     "#### Synthesizer — Report Writer\n" ++
     "Turns raw analysis into readable reports with clear recommendations.\n\n" ++
     "- **Level:** 4\n- **Avatar:** 📝\n- **Domain:** Writing\n- **Reports to:** PI\n\n" ++
     "## Policies\n\n### Budget\n" ++
     "- **Per-agent limit:** 2000 credits/period — research needs room to explore\n" ++
     "- **Alert threshold:** 90%\n" ++
     "- **No hard stops** — flag but don't interrupt an analysis\n\n## Playbooks\n\n" ++
     "### Research Project\n1. PI defines research question and methodology\n" ++
     "2. Collectors gather relevant data and sources\n" ++
     "3. Analysts run analysis against methodology\n4. Synthesizer produces draft report\n" ++
     "5. PI reviews for rigor and relevance\n6. Human reviews → publish or iterate\n").toList }

/-- `Available`. -/
def Available : List Template := [assistantTeam, contentAgency, devShop, researchLab]

/-- `Render`. -/
def Render (t : Template) (teamName : Str) : Str :=
  strings.ReplaceFirst t.Content "\x7b\x7bTEAM_NAME\x7d\x7d".toList teamName

/-- The text of a template after its placeholder and the line feed that
follows it. -/
def bodyOf (t : Template) : Str := t.Content.drop 16

/-- A team name `Render` is given by the wizard: not empty, without line feed
and without white space at either end. -/
def validName (n : Str) : Prop := n ≠ [] ∧ '\n' ∉ n ∧ strings.TrimSpace n = n

end templates

/-! ## Lemmas on forests -/

namespace orgparser

theorem preorder_append (a b : List Section) :
    preorder (a ++ b) = preorder a ++ preorder b := by
  induction a with
  | nil => simp [preorder]
  | cons s ss ih => simp [preorder, ih]

theorem preorder_singleton (s : Section) : preorder [s] = preorderS s := by
  simp [preorder]

theorem preorderS_leaf (s : Section) (h : s.children = []) : preorderS s = [s.label] := by
  cases s with
  | mk hd l c cs =>
    simp only [Section.children] at h
    subst h
    simp [preorderS, preorder, Section.label, Section.heading, Section.level, Section.content]

theorem parents_append (par : Option Nat) (base : Nat) (a b : List Section) :
    parents par base (a ++ b) =
      parents par base a ++ parents par (base + (preorder a).length) b := by
  induction a generalizing base with
  | nil => simp [parents, preorder]
  | cons s ss ih => simp [parents, preorder, ih, Nat.add_assoc]

mutual
theorem parentsS_length (par : Option Nat) (base : Nat) :
    ∀ s : Section, (parentsS par base s).length = (preorderS s).length
  | .mk _ _ _ cs => by
    simp only [parentsS, preorderS, List.length_cons, parents_length (some base) (base + 1) cs]
theorem parents_length (par : Option Nat) (base : Nat) :
    ∀ f : List Section, (parents par base f).length = (preorder f).length
  | [] => by simp [parents, preorder]
  | s :: ss => by
    simp only [parents, preorder, List.length_append, parentsS_length par base s,
      parents_length par (base + (preorderS s).length) ss]
end

theorem childrenDeeper_append (a b : List Section) :
    childrenDeeper (a ++ b) = (childrenDeeper a && childrenDeeper b) := by
  induction a with
  | nil => simp [childrenDeeper]
  | cons s ss ih => simp [childrenDeeper, ih, Bool.and_assoc]

theorem preorder_plugUp (fs : List Frame) :
    ∀ sub : List Section, preorder (plugUp sub fs) = zPre fs ++ preorder sub := by
  induction fs with
  | nil => intro sub; simp [plugUp, zPre]
  | cons f fs ih =>
    intro sub
    simp [plugUp, zPre, ih, preorder, preorderS, preorder_append]

theorem parents_plugUp (par : Option Nat) (b : Nat) (fs : List Frame) :
    ∀ sub : List Section, parents par b (plugUp sub fs) =
      zPar par b fs ++ parents (zTopPar par b fs) (b + (zPre fs).length) sub := by
  induction fs with
  | nil => intro sub; simp [plugUp, zPar, zTopPar, zPre]
  | cons f fs ih =>
    intro sub
    simp only [plugUp, ih, zPar, zTopPar, zPre, parents, parentsS, parents_append,
      List.append_assoc, List.cons_append, List.length_append, List.length_cons,
      List.append_nil, List.nil_append]
    congr 4
    omega

theorem zTopPar_eq_chain (b : Nat) (fs : List Frame) :
    zTopPar none b fs = (zChain b fs).head?.map (fun x => x.1) := by
  cases fs <;> simp [zTopPar, zChain]

theorem childrenDeeper_plugUp (fs : List Frame) :
    ∀ sub : List Section, childrenDeeper (plugUp sub fs) =
      (zDeep fs && childrenDeeper sub && zSubOK sub fs) := by
  induction fs with
  | nil => intro sub; simp [plugUp, zDeep, zSubOK]
  | cons f fs ih =>
    intro sub
    rw [plugUp, ih]
    cases fs with
    | nil =>
      simp only [zDeep, zSubOK, childrenDeeper, childrenDeeperS, childrenDeeper_append,
        List.all_append, Bool.and_true, Bool.true_and]
      rw [Bool.eq_iff_iff]
      simp only [Bool.and_eq_true]
      tauto
    | cons g gs =>
      simp only [zDeep, zSubOK, childrenDeeper, childrenDeeperS, childrenDeeper_append,
        List.all_append, Bool.and_true, Bool.true_and, List.all_cons, List.all_nil,
        Section.level]
      rw [Bool.eq_iff_iff]
      simp only [Bool.and_eq_true]
      tauto

theorem getAt_append_right (done sub : List Section) (i : Nat) (q : List Nat) :
    getAt (done ++ sub) ((done.length + i) :: q) = getAt sub (i :: q) := by
  have h : (done ++ sub)[done.length + i]? = sub[i]? := by
    rw [List.getElem?_append_right (Nat.le_add_right _ _)]
    simp
  cases q with
  | nil => simp [getAt, h]
  | cons j p => simp [getAt, h]

theorem getAt_plugUp (done : List Section) (fs : List Frame) :
    ∀ (sub : List Section) (i : Nat) (q : List Nat),
      getAt (done ++ plugUp sub fs) (zPath done fs i q) = getAt sub (i :: q) := by
  induction fs with
  | nil => intro sub i q; simp [plugUp, zPath, getAt_append_right]
  | cons f fs ih =>
    intro sub i q
    rw [plugUp, zPath, ih]
    simp only [getAt, List.getElem?_cons_zero, Section.children]
    exact getAt_append_right f.kids sub i q

theorem updateNth_append_right (g : Section → Section) (done sub : List Section) (i : Nat) :
    updateNth g (done ++ sub) (done.length + i) = done ++ updateNth g sub i := by
  induction done with
  | nil => simp
  | cons d ds ih =>
    have : (d :: ds).length + i = (ds.length + i) + 1 := by simp; omega
    rw [this]
    simp [updateNth, ih]

theorem modifyAt_append_right (g : Section → Section) (done sub : List Section) (i : Nat)
    (q : List Nat) :
    modifyAt g (done ++ sub) ((done.length + i) :: q) = done ++ modifyAt g sub (i :: q) := by
  cases q with
  | nil => simp [modifyAt, updateNth_append_right]
  | cons j p => simp [modifyAt, updateNth_append_right]

theorem modifyAt_plugUp (g : Section → Section) (done : List Section) (fs : List Frame) :
    ∀ (sub : List Section) (i : Nat) (q : List Nat),
      modifyAt g (done ++ plugUp sub fs) (zPath done fs i q) =
        done ++ plugUp (modifyAt g sub (i :: q)) fs := by
  induction fs with
  | nil => intro sub i q; simp [plugUp, zPath, modifyAt_append_right]
  | cons f fs ih =>
    intro sub i q
    rw [plugUp, zPath, ih]
    simp only [modifyAt, updateNth, Section.setChildren, Section.children, Section.heading,
      Section.level, Section.content, plugUp]
    rw [modifyAt_append_right]

theorem zPath_append (done : List Section) (fs : List Frame) :
    ∀ (i : Nat) (q r : List Nat), zPath done fs i q ++ r = zPath done fs i (q ++ r) := by
  induction fs with
  | nil => intro i q r; simp [zPath]
  | cons f fs ih => intro i q r; simp [zPath, ih]

theorem zPop_stack (l : Int) (done : List Section) (fs : List Frame) :
    ∀ sub : List Section, zStack done (zPop l sub fs).2 =
      (zStack done fs).dropWhile (fun e => decide (e.level ≥ l)) := by
  induction fs with
  | nil => intro sub; simp [zPop, zStack]
  | cons f fs ih =>
    intro sub
    by_cases h : f.level ≥ l
    · simp [zPop, zStack, h, ih, List.dropWhile]
    · simp [zPop, zStack, h, List.dropWhile]

theorem zPop_chain (l : Int) (b : Nat) (fs : List Frame) :
    ∀ sub : List Section, zChain b (zPop l sub fs).2 =
      (zChain b fs).dropWhile (fun e => decide (e.2 ≥ l)) := by
  induction fs with
  | nil => intro sub; simp [zPop, zChain]
  | cons f fs ih =>
    intro sub
    by_cases h : f.level ≥ l
    · simp [zPop, zChain, h, ih, List.dropWhile]
    · simp [zPop, zChain, h, List.dropWhile]

theorem zPop_forest (l : Int) (fs : List Frame) :
    ∀ sub : List Section, plugUp (zPop l sub fs).1 (zPop l sub fs).2 = plugUp sub fs := by
  induction fs with
  | nil => intro sub; simp [zPop]
  | cons f fs ih =>
    intro sub
    by_cases h : f.level ≥ l
    · simp [zPop, h, ih, plugUp]
    · simp [zPop, h]

theorem zPop_top (l : Int) (fs : List Frame) :
    ∀ sub : List Section, ∀ f ∈ (zPop l sub fs).2.head?, f.level < l := by
  induction fs with
  | nil => intro sub; simp [zPop]
  | cons f fs ih =>
    intro sub
    by_cases h : f.level ≥ l
    · simpa [zPop, h] using ih _
    · have h2 : f.level < l := by omega
      simp [zPop, h, h2]

theorem Section.eta (s : Section) : Section.mk s.heading s.level s.content s.children = s := by
  cases s; rfl

theorem Section.heading_mk (h : Str) (l : Int) (c : Str) (cs : List Section) :
    (Section.mk h l c cs).heading = h := rfl

theorem Section.level_mk (h : Str) (l : Int) (c : Str) (cs : List Section) :
    (Section.mk h l c cs).level = l := rfl

theorem Section.content_mk (h : Str) (l : Int) (c : Str) (cs : List Section) :
    (Section.mk h l c cs).content = c := rfl

theorem Section.children_mk (h : Str) (l : Int) (c : Str) (cs : List Section) :
    (Section.mk h l c cs).children = cs := rfl

/-- The step of `buildTree` on a state given by frames: the heading is hung
under the frame left on top after popping, and the checks pass. -/
theorem buildTreeStep_frames (done : List Section) (fs : List Frame) (s : Section) :
    buildTreeStep (done ++ plugUp [] fs, zStack done fs) s =
      ((zPush s done (zPop s.level [] fs).1 (zPop s.level [] fs).2).1 ++
          plugUp [] (zPush s done (zPop s.level [] fs).1 (zPop s.level [] fs).2).2,
        zStack (zPush s done (zPop s.level [] fs).1 (zPop s.level [] fs).2).1
          (zPush s done (zPop s.level [] fs).1 (zPop s.level [] fs).2).2) ∧
    (zPush s done (zPop s.level [] fs).1 (zPop s.level [] fs).2).1 ++
        plugUp [] (zPush s done (zPop s.level [] fs).1 (zPop s.level [] fs).2).2 =
      done ++ plugUp ((zPop s.level [] fs).1 ++ [s]) (zPop s.level [] fs).2 ∧
    buildTreeStepChecked (done ++ plugUp [] fs, zStack done fs) s =
      some (buildTreeStep (done ++ plugUp [] fs, zStack done fs) s) := by
  have hst := zPop_stack s.level done fs []
  have hfo := zPop_forest s.level fs []
  generalize zPop s.level [] fs = r at hst hfo
  obtain ⟨sub, fs2⟩ := r
  simp only at hst hfo
  cases fs2 with
  | nil =>
    simp only [zStack] at hst
    simp only [plugUp] at hfo
    simp only [buildTreeStep, buildTreeStepChecked, ← hst, ← hfo, zPush, plugUp, zStack, zPath,
      List.append_nil, Section.eta, List.length_append, List.length_cons, List.length_nil]
    refine ⟨?_, ?_, ?_⟩
    · simp
    · simp
    · simp
  | cons f fs3 =>
    simp only [zStack] at hst
    simp only [plugUp] at hfo
    have hg := getAt_plugUp done fs3 [Section.mk f.heading f.level f.content (f.kids ++ sub)] 0 []
    have hm := modifyAt_plugUp (fun p => p.setChildren (p.children ++ [s])) done fs3
      [Section.mk f.heading f.level f.content (f.kids ++ sub)] 0 []
    have hg2 := getAt_plugUp done fs3
      [Section.mk f.heading f.level f.content (f.kids ++ sub ++ [s])] 0 []
    simp only [getAt, List.getElem?_cons_zero] at hg hg2
    simp only [modifyAt, updateNth, Section.setChildren, Section.children_mk, Section.heading_mk,
      Section.level_mk, Section.content_mk] at hm
    have hstep : buildTreeStep (done ++ plugUp [] fs, zStack done fs) s =
        (done ++ plugUp [Section.mk f.heading f.level f.content (f.kids ++ sub ++ [s])] fs3,
          ⟨zPath done fs3 0 [] ++ [(f.kids ++ sub ++ [s]).length - 1], s.level⟩ ::
            ⟨zPath done fs3 0 [], f.level⟩ :: zStack done fs3) := by
      simp only [buildTreeStep, ← hst, ← hfo, Section.setChildren]
      rw [hm]
      simp only [hg2, Section.children_mk]
    have hcheck : buildTreeStepChecked (done ++ plugUp [] fs, zStack done fs) s =
        some (done ++ plugUp [Section.mk f.heading f.level f.content (f.kids ++ sub ++ [s])] fs3,
          ⟨zPath done fs3 0 [] ++ [(f.kids ++ sub ++ [s]).length - 1], s.level⟩ ::
            ⟨zPath done fs3 0 [], f.level⟩ :: zStack done fs3) := by
      simp only [buildTreeStepChecked, ← hst, ← hfo, Section.setChildren]
      rw [hg]
      simp only []
      rw [hm]
      simp only [hg2, Section.children_mk]
      simp
    rw [hcheck, hstep]
    simp only [zPush, plugUp, zStack, zPath, List.append_nil, Section.eta, zPath_append,
      List.length_append, List.length_cons, List.length_nil, List.nil_append, Nat.add_zero,
      List.append_assoc]
    refine ⟨?_, ?_, ?_⟩
    · simp
    · simp
    · simp

theorem getD_append_left (L M : List Int) (j : Nat) (h : j < L.length) :
    (L ++ M).getD j 0 = L.getD j 0 := by
  simp [List.getD, List.getElem?_append_left h]

theorem prevLower_append (L M : List Int) (l : Int) :
    ∀ n, n ≤ L.length → prevLower (L ++ M) l n = prevLower L l n := by
  intro n
  induction n with
  | zero => intro _; rfl
  | succ n ih =>
    intro h
    simp only [prevLower, getD_append_left L M n (by omega), ih (by omega)]

theorem prevLower_mono (L : List Int) (l l2 : Int) (hl : l ≤ l2) :
    ∀ m, prevLower L l m = prevLower L l
      (match prevLower L l2 m with
        | none => 0
        | some p => p + 1) := by
  intro m
  induction m with
  | zero => simp [prevLower]
  | succ m ih =>
    by_cases h : L.getD m 0 < l2
    · simp only [prevLower, h, if_true]
    · have h2 : ¬ L.getD m 0 < l := by omega
      simp only [prevLower, h, h2, if_false]
      exact ih

theorem chainTop_eq (chain : List (Nat × Int)) :
    chainTop chain = (match chain.head?.map (fun x => x.1) with
      | none => 0
      | some p => p + 1) := by
  cases chain <;> simp [chainTop]

theorem prevLower_chain (L : List Int) (l : Int) :
    ∀ chain : List (Nat × Int), ChainOK L chain →
      prevLower L l (chainTop chain) =
        ((chain.dropWhile (fun e => decide (e.2 ≥ l))).head?).map (fun x => x.1) := by
  intro chain
  induction chain with
  | nil => intro _; simp [chainTop, prevLower]
  | cons e rest ih =>
    intro h
    obtain ⟨h1, h2, h3⟩ := h
    have hget : L.getD e.1 0 = e.2 := by simp [List.getD, h1]
    by_cases hc : e.2 ≥ l
    · have hnot : ¬ e.2 < l := by omega
      simp only [chainTop, prevLower, hget, hnot, if_false, List.dropWhile, hc, decide_True]
      rw [prevLower_mono L l e.2 hc e.1, h2, ← chainTop_eq]
      exact ih h3
    · have hlt : e.2 < l := by omega
      simp only [chainTop, prevLower, hget, hlt, if_true, List.dropWhile, hc, decide_False,
        List.head?_cons, Option.map_some']

theorem ChainOK_dropWhile (L : List Int) (p : Nat × Int → Bool) :
    ∀ chain : List (Nat × Int), ChainOK L chain → ChainOK L (chain.dropWhile p) := by
  intro chain
  induction chain with
  | nil => intro h; simpa using h
  | cons e rest ih =>
    intro h
    by_cases hp : p e = true
    · simpa [List.dropWhile, hp] using ih h.2.2
    · simpa [List.dropWhile, hp] using h

theorem ChainOK_append (L M : List Int) :
    ∀ chain : List (Nat × Int), ChainOK L chain → ChainOK (L ++ M) chain := by
  intro chain
  induction chain with
  | nil => intro _; trivial
  | cons e rest ih =>
    intro h
    obtain ⟨h1, h2, h3⟩ := h
    have hlt : e.1 < L.length := by
      by_contra hge
      rw [List.getElem?_eq_none (by omega)] at h1
      cases h1
    refine ⟨?_, ?_, ih h3⟩
    · rw [List.getElem?_append_left hlt]; exact h1
    · rw [prevLower_append L M e.2 e.1 (by omega)]; exact h2

theorem nearestLower_append (L M : List Int) (i : Nat) (h : i < L.length) :
    nearestLower (L ++ M) i = nearestLower L i := by
  simp only [nearestLower, getD_append_left L M i h, prevLower_append L M _ i (by omega)]

theorem zChain_zPush (s : Section) (done sub : List Section) (fs : List Frame) :
    zChain (preorder (zPush s done sub fs).1).length (zPush s done sub fs).2 =
      ((preorder done).length + (zPre fs).length + (preorder sub).length, s.level) ::
        zChain (preorder done).length fs := by
  cases fs with
  | nil => simp [zPush, zChain, zPre, preorder_append]
  | cons f fs => simp [zPush, zChain, zPre, preorder_append]; omega

theorem parents_leaf (par : Option Nat) (base : Nat) (s : Section) (h : s.children = []) :
    parents par base [s] = [par] := by
  cases s with
  | mk hd l c cs =>
    simp only [Section.children_mk] at h
    subst h
    simp [parents, parentsS]

theorem childrenDeeper_leaf (s : Section) (h : s.children = []) : childrenDeeper [s] = true := by
  cases s with
  | mk hd l c cs =>
    simp only [Section.children_mk] at h
    subst h
    simp [childrenDeeper, childrenDeeperS]

theorem zSubOK_append (sub : List Section) (s : Section) (fs : List Frame)
    (h : ∀ f ∈ fs.head?, f.level < s.level) (h2 : zSubOK sub fs = true) :
    zSubOK (sub ++ [s]) fs = true := by
  cases fs with
  | nil => rfl
  | cons f fs =>
    simp only [zSubOK, List.all_append, List.all_cons, List.all_nil, Bool.and_true,
      Bool.and_eq_true, decide_eq_true_eq] at h2 ⊢
    exact ⟨h2, h f (by simp)⟩

theorem BuildInv_step (p : List Section) (st : List Section × List stackEntry) (s : Section)
    (h : BuildInv p st) (hs : s.children = []) :
    BuildInv (p ++ [s]) (buildTreeStep st s) ∧
      buildTreeStepChecked st s = some (buildTreeStep st s) := by
  obtain ⟨done, fs, rfl, hpre, hpar, hdeep, hchain, htop⟩ := h
  obtain ⟨h1, h2, h3⟩ := buildTreeStep_frames done fs s
  have hF : done ++ plugUp [] fs =
      done ++ plugUp (zPop s.level [] fs).1 (zPop s.level [] fs).2 := by
    rw [zPop_forest]
  have hch := zPop_chain s.level (preorder done).length fs []
  have htp := zPop_top s.level fs []
  simp only [hF] at hpre hpar hdeep
  generalize zPop s.level [] fs = r at h1 h2 hpre hpar hdeep hch htp
  obtain ⟨sub, fs2⟩ := r
  simp only at h1 h2 hpre hpar hdeep hch htp
  have hlen : (preorder done).length + (zPre fs2).length + (preorder sub).length = p.length := by
    have := congrArg List.length hpre
    simpa [preorder_append, preorder_plugUp, Nat.add_assoc] using this
  have hnear : nearestLower (p.map Section.level ++ [s.level]) p.length =
      zTopPar none (preorder done).length fs2 := by
    have hg : (p.map Section.level ++ [s.level]).getD p.length 0 = s.level := by
      simp [List.getD]
    rw [nearestLower, hg, prevLower_append _ _ _ _ (by simp), ← htop,
      prevLower_chain _ _ _ hchain, ← hch, zTopPar_eq_chain]
  refine ⟨⟨_, _, h1, ?_, ?_, ?_, ?_, ?_⟩, h3⟩
  · rw [h1]
    simp only []
    rw [h2]
    simp only [preorder_append, preorder_plugUp, preorder_singleton, preorderS_leaf s hs,
      List.map_append, List.map_cons, List.map_nil] at hpre ⊢
    rw [← hpre]
    simp
  · rw [h1]
    simp only []
    rw [h2]
    simp only [parentIndex, parents_append, parents_plugUp, parents_leaf _ _ s hs,
      List.length_append, List.length_singleton, List.map_append, List.range_succ,
      List.map_cons, List.map_nil] at hpar ⊢
    rw [hnear]
    have hold : List.map (nearestLower (List.map Section.level p ++ [s.level]))
        (List.range p.length) =
        List.map (nearestLower (List.map Section.level p)) (List.range p.length) := by
      apply List.map_congr_left
      intro i hi
      exact nearestLower_append _ _ i (by simpa using hi)
    rw [hold, ← hpar]
    simp
  · rw [h1]
    simp only []
    rw [h2]
    simp only [childrenDeeper_append, childrenDeeper_plugUp, Bool.and_eq_true,
      childrenDeeper_leaf s hs] at hdeep ⊢
    refine ⟨hdeep.1, ⟨hdeep.2.1.1, hdeep.2.1.2, trivial⟩, ?_⟩
    exact zSubOK_append sub s fs2 htp hdeep.2.2
  · rw [zChain_zPush, hlen]
    refine ⟨?_, ?_, ?_⟩
    · simp
    · simp only [List.map_append, List.map_cons, List.map_nil]
      have hg : (p.map Section.level ++ [s.level]).getD p.length 0 = s.level := by
        simp [List.getD]
      have := hnear
      rw [nearestLower, hg, zTopPar_eq_chain] at this
      exact this
    · simp only [List.map_append, List.map_cons, List.map_nil]
      apply ChainOK_append
      rw [hch]
      exact ChainOK_dropWhile _ _ _ hchain
  · rw [zChain_zPush, hlen]
    simp [chainTop]

theorem BuildInv_nil : BuildInv [] ([], []) :=
  ⟨[], [], rfl, rfl, rfl, rfl, trivial, rfl⟩

theorem BuildInv_foldl (rest : List Section) (hrest : ∀ s ∈ rest, s.children = []) :
    ∀ (p : List Section) (st : List Section × List stackEntry), BuildInv p st →
      BuildInv (p ++ rest) (rest.foldl buildTreeStep st) ∧
        buildTreeLoopChecked st rest = some (rest.foldl buildTreeStep st) := by
  induction rest with
  | nil => intro p st h; simpa [buildTreeLoopChecked] using h
  | cons s rest ih =>
    intro p st h
    obtain ⟨h1, h2⟩ := BuildInv_step p st s h (hrest s (by simp))
    obtain ⟨h3, h4⟩ := ih (fun x hx => hrest x (by simp [hx])) (p ++ [s]) _ h1
    refine ⟨by simpa using h3, ?_⟩
    simp only [buildTreeLoopChecked, h2, List.foldl_cons]
    exact h4

theorem buildTree_inv (flat : List Section) (hflat : ∀ s ∈ flat, s.children = []) :
    BuildInv flat (flat.foldl buildTreeStep ([], [])) ∧
      buildTreeChecked flat = some (buildTree flat) := by
  obtain ⟨h1, h2⟩ := BuildInv_foldl flat hflat [] ([], []) BuildInv_nil
  refine ⟨by simpa using h1, ?_⟩
  simp [buildTreeChecked, buildTree, h2]

theorem prevLower_some_iff (L : List Int) (l : Int) (p : Nat) :
    ∀ n, prevLower L l n = some p ↔
      (p < n ∧ L.getD p 0 < l ∧ ∀ j, p < j → j < n → l ≤ L.getD j 0) := by
  intro n
  induction n with
  | zero => simp [prevLower]
  | succ n ih =>
    by_cases h : L.getD n 0 < l
    · simp only [prevLower, h, if_true, Option.some.injEq]
      constructor
      · rintro rfl
        exact ⟨by omega, h, fun j h1 h2 => by omega⟩
      · rintro ⟨h1, h2, h3⟩
        by_contra hne
        have := h3 n (by omega) (by omega)
        omega
    · simp only [prevLower, h, if_false, ih]
      constructor
      · rintro ⟨h1, h2, h3⟩
        refine ⟨by omega, h2, fun j hj1 hj2 => ?_⟩
        by_cases hjn : j = n
        · subst hjn; omega
        · exact h3 j hj1 (by omega)
      · rintro ⟨h1, h2, h3⟩
        have hpn : p ≠ n := by
          rintro rfl
          exact h h2
        exact ⟨by omega, h2, fun j hj1 hj2 => h3 j hj1 (by omega)⟩

theorem prevLower_none_iff (L : List Int) (l : Int) :
    ∀ n, prevLower L l n = none ↔ ∀ j, j < n → l ≤ L.getD j 0 := by
  intro n
  induction n with
  | zero => simp [prevLower]
  | succ n ih =>
    by_cases h : L.getD n 0 < l
    · simp only [prevLower, h, if_true]
      constructor
      · intro h0; cases h0
      · intro h0
        have := h0 n (by omega)
        omega
    · simp only [prevLower, h, if_false, ih]
      constructor
      · intro h0 j hj
        by_cases hjn : j = n
        · subst hjn; omega
        · exact h0 j (by omega)
      · intro h0 j hj
        exact h0 j (by omega)

theorem parentIndex_getElem (flat : List Section) (f : List Section)
    (h : parentIndex f = (List.range flat.length).map (nearestLower (flat.map Section.level)))
    (i : Nat) (r : Option Nat) :
    (parentIndex f)[i]? = some r ↔
      (i < flat.length ∧ nearestLower (flat.map Section.level) i = r) := by
  rw [h]
  by_cases hi : i < flat.length
  · simp [List.getElem?_map, List.getElem?_range hi, hi]
  · simp [List.getElem?_map, hi, List.getElem?_eq_none (l := List.range flat.length) (by simpa using hi)]

/-- C1 (tree nesting). For a flat list of headings, `buildTree` returns a forest
whose pre-order is the list itself; the parent of heading `i` is the position `p`
exactly when `p` is the nearest earlier heading of strictly lower level; heading
`i` is a root exactly when no earlier heading has a strictly lower level; and
every child has a level strictly above its node, whatever levels are skipped. -/
theorem buildTree_nesting (flat : List Section) (hflat : ∀ s ∈ flat, s.children = []) :
    preorder (buildTree flat) = flat.map Section.label ∧
    (∀ i p, (parentIndex (buildTree flat))[i]? = some (some p) ↔
      (i < flat.length ∧ p < i ∧
        (flat.map Section.level).getD p 0 < (flat.map Section.level).getD i 0 ∧
        ∀ j, p < j → j < i →
          (flat.map Section.level).getD i 0 ≤ (flat.map Section.level).getD j 0)) ∧
    (∀ i, (parentIndex (buildTree flat))[i]? = some none ↔
      (i < flat.length ∧
        ∀ j, j < i → (flat.map Section.level).getD i 0 ≤ (flat.map Section.level).getD j 0)) ∧
    childrenDeeper (buildTree flat) = true := by
  obtain ⟨⟨done, fs, hst, hpre, hpar, hdeep, _, _⟩, _⟩ := buildTree_inv flat hflat
  have hpar2 : parentIndex (buildTree flat) =
      (List.range flat.length).map (nearestLower (flat.map Section.level)) := hpar
  refine ⟨hpre, ?_, ?_, hdeep⟩
  · intro i p
    rw [parentIndex_getElem flat _ hpar2, nearestLower, prevLower_some_iff]
  · intro i
    rw [parentIndex_getElem flat _ hpar2, nearestLower, prevLower_none_iff]

/-- C1 at a level-2 heading directly followed by a level-4 heading: the second
becomes the child of the first. -/
theorem buildTree_nesting_witness :
    buildTree [Section.mk "A".toList 2 [] [], Section.mk "B".toList 4 [] []] =
      [Section.mk "A".toList 2 [] [Section.mk "B".toList 4 [] []]] ∧
    (parentIndex (buildTree [Section.mk "A".toList 2 [] [], Section.mk "B".toList 4 [] []]))[1]?
      = some (some 0) ∧
    childrenDeeper (buildTree [Section.mk "A".toList 2 [] [], Section.mk "B".toList 4 [] []])
      = true :=
  ⟨rfl, by decide,
    (buildTree_nesting [Section.mk "A".toList 2 [] [], Section.mk "B".toList 4 [] []]
      (by intro s hs; simp at hs; rcases hs with rfl | rfl <;> rfl)).2.2.2⟩

end orgparser

/-! ## Lemmas on the tokenizer -/

namespace orgparser

theorem fencesBefore_prefix (pre rest : List Str) :
    fencesBefore (pre ++ rest) pre.length = (pre.filter fenceText).length := by
  simp [fencesBefore, fenceText]
  rfl

theorem getD_at_prefix (pre : List Str) (line : Str) (rest : List Str) :
    (pre ++ line :: rest).getD pre.length [] = line := by
  rw [List.getD_eq_getElem?_getD, List.getElem?_append_right (Nat.le_refl _)]
  simp

theorem recognized_at (pre : List Str) (line : Str) (rest : List Str) :
    recognized (pre ++ line :: rest) pre.length =
      (decide ((pre.filter fenceText).length % 2 = 0) && !(fenceText line) &&
        (headingRegex (strings.TrimSpace line)).isSome) := by
  have hget := getD_at_prefix pre line rest
  simp only [recognized, isFenceLine, hget, fencesBefore_prefix, fenceText,
    List.length_append, List.length_cons]
  have : pre.length < pre.length + (rest.length + 1) := by omega
  simp [this]

theorem recognized_lt (lines : List Str) (k : Nat) (h : recognized lines k = true) :
    k < lines.length := by
  simp only [recognized, Bool.and_eq_true, decide_eq_true_eq] at h
  exact h.1.1.1

theorem HSeg_extend (lines : List Str) (i : Nat) (hs : List headingInfo)
    (h0 : recognized lines i = false) (h : HSeg lines (i + 1) hs) : HSeg lines i hs := by
  cases hs with
  | nil =>
    intro j hj
    by_cases hji : j = i
    · subst hji; exact h0
    · exact h j (by omega)
  | cons hd tl =>
    obtain ⟨h1, h2, h3, h4, h5⟩ := h
    refine ⟨by omega, h2, h3, ?_, h5⟩
    intro j hj1 hj2
    by_cases hji : j = i
    · subst hji; exact h0
    · exact h4 j (by omega) hj2

theorem scanHeadings_HSeg (rest : List Str) :
    ∀ pre : List Str, HSeg (pre ++ rest) pre.length
      (scanHeadings pre.length (decide ((pre.filter fenceText).length % 2 = 1)) rest) := by
  induction rest with
  | nil =>
    intro pre j hj
    by_contra hne
    have := recognized_lt _ _ (by simpa using hne)
    simp at this
    omega
  | cons line rest ih =>
    intro pre
    have hrec := recognized_at pre line rest
    have ih2 := ih (pre ++ [line])
    simp only [List.append_assoc, List.singleton_append, List.length_append,
      List.length_singleton, List.filter_append] at ih2
    by_cases hf : fenceText line = true
    · have hf2 : strings.HasPrefix (strings.TrimSpace line) "```".toList = true := hf
      simp only [scanHeadings, hf2, if_true]
      simp only [hf, Bool.not_true, Bool.and_false, Bool.false_and] at hrec
      apply HSeg_extend _ _ _ hrec
      have hpar : decide (((pre.filter fenceText).length +
          (List.filter fenceText [line]).length) % 2 = 1) =
          !decide ((pre.filter fenceText).length % 2 = 1) := by
        simp only [List.filter, hf, List.length_singleton]
        rcases Nat.mod_two_eq_zero_or_one (pre.filter fenceText).length with h0 | h0 <;>
          simp [Nat.add_mod, h0]
      rw [hpar] at ih2
      exact ih2
    · have hf2 : strings.HasPrefix (strings.TrimSpace line) "```".toList = false := by
        simpa [fenceText] using hf
      have hf3 : fenceText line = false := by simpa using hf
      have hpar : ((pre.filter fenceText).length +
          (List.filter fenceText [line]).length) = (pre.filter fenceText).length := by
        simp [List.filter, hf3]
      rw [hpar] at ih2
      simp only [scanHeadings, hf2]
      by_cases hb : (pre.filter fenceText).length % 2 = 1
      · simp only [hb, decide_True, if_true] at ih2 ⊢
        have h0 : ¬ (pre.filter fenceText).length % 2 = 0 := by omega
        simp only [h0, decide_False, Bool.false_and] at hrec
        simpa using HSeg_extend _ _ _ hrec ih2
      · simp only [hb, decide_False] at ih2 ⊢
        have h0 : (pre.filter fenceText).length % 2 = 0 := by omega
        simp only [h0, decide_True, hf3, Bool.not_false, Bool.true_and] at hrec
        cases hm : headingRegex (strings.TrimSpace line) with
        | none =>
          simp only [hm, Option.isSome_none] at hrec
          simpa using HSeg_extend _ _ _ hrec ih2
        | some m =>
          simp only [hm, Option.isSome_some] at hrec
          have hget := getD_at_prefix pre line rest
          refine ⟨Nat.le_refl _, hrec, ⟨m.1, ?_, rfl⟩, ?_, by simpa using ih2⟩
          · simp only [hget, hm]
          · intro j h1 h2
            simp only at h2
            omega

theorem scanHeadings_spec (lines : List Str) : HSeg lines 0 (scanHeadings 0 false lines) := by
  simpa using scanHeadings_HSeg lines []

theorem range'_split (s k n : Nat) (h1 : s ≤ k) (h2 : k < n) :
    List.range' s (n - s) = List.range' s (k - s) ++ k :: List.range' (k + 1) (n - (k + 1)) := by
  have e1 : n - s = ((n - (k + 1)) + 1) + (k - s) := by omega
  have e2 : s + (k - s) = k := by omega
  rw [e1, ← List.range'_append_1, List.range'_succ, e2]

theorem HSeg_lineIdx (lines : List Str) (hs : List headingInfo) :
    ∀ start, start ≤ lines.length → HSeg lines start hs →
      hs.map (fun h => h.lineIdx) =
        (List.range' start (lines.length - start)).filter (recognized lines) := by
  induction hs with
  | nil =>
    intro start _ h
    symm
    rw [List.map_nil, List.filter_eq_nil_iff]
    intro j hj
    have := h j (by simp at hj; omega)
    simp [this]
  | cons hd tl ih =>
    intro start hstart h
    obtain ⟨h1, h2, _, h4, h5⟩ := h
    have hlt := recognized_lt _ _ h2
    rw [range'_split start hd.lineIdx lines.length h1 hlt, List.filter_append,
      List.filter_cons, if_pos h2, ← ih (hd.lineIdx + 1) (by omega) h5]
    have : (List.range' start (hd.lineIdx - start)).filter (recognized lines) = [] := by
      rw [List.filter_eq_nil_iff]
      intro j hj
      have := h4 j (by simp at hj; omega) (by simp at hj; omega)
      simp [this]
    rw [this]
    simp

/-- The line indices recorded by the tokenizer are exactly the recognized lines,
in growing order. -/
theorem scanHeadings_lineIdx (lines : List Str) :
    (scanHeadings 0 false lines).map (fun h => h.lineIdx) =
      (List.range lines.length).filter (recognized lines) := by
  rw [HSeg_lineIdx lines _ 0 (Nat.zero_le _) (scanHeadings_spec lines), List.range_eq_range']
  simp

theorem flatSections_leaf (lines : List Str) (hs : List headingInfo) :
    ∀ s ∈ flatSections lines hs, s.children = [] := by
  induction hs with
  | nil => intro s h; simp [flatSections] at h
  | cons hd tl ih =>
    intro s h
    simp only [flatSections, List.mem_cons] at h
    rcases h with rfl | h
    · rfl
    · exact ih s h

theorem flatSections_length (lines : List Str) (hs : List headingInfo) :
    (flatSections lines hs).length = hs.length := by
  induction hs with
  | nil => rfl
  | cons hd tl ih => simp [flatSections, ih]

theorem flatSections_checked (lines : List Str) (hs : List headingInfo) :
    ∀ start, HSeg lines start hs →
      flatSectionsChecked lines hs = some (flatSections lines hs) := by
  induction hs with
  | nil => intro _ _; rfl
  | cons hd tl ih =>
    intro start h
    obtain ⟨_, h2, _, _, h5⟩ := h
    have hlt := recognized_lt _ _ h2
    cases tl with
    | nil =>
      have hb : hd.lineIdx + 1 ≤ lines.length ∧ lines.length ≤ lines.length :=
        ⟨by omega, Nat.le_refl _⟩
      simp only [flatSectionsChecked, flatSections, hb, and_self, if_true]
    | cons t ts =>
      have := recognized_lt _ _ h5.2.1
      have hb : hd.lineIdx + 1 ≤ t.lineIdx ∧ t.lineIdx ≤ lines.length :=
        ⟨h5.1, by omega⟩
      have ih2 := ih _ h5
      simp only [flatSectionsChecked, flatSections, hb, and_self, if_true] at ih2 ⊢
      simp only [ih2]

theorem parseMarkdownSections_preorder (source : Str) :
    preorder (parseMarkdownSections source) =
      (flatSections (strings.SplitLines source)
        (scanHeadings 0 false (strings.SplitLines source))).map Section.label := by
  simp only [parseMarkdownSections]
  split
  · rename_i h
    rw [List.length_eq_zero] at h
    rw [h]
    rfl
  · exact (buildTree_inv _ (flatSections_leaf _ _)).1.choose_spec.choose_spec.2.1

theorem parseMarkdownSections_checked (source : Str) :
    parseMarkdownSectionsChecked source = some (parseMarkdownSections source) := by
  simp only [parseMarkdownSectionsChecked, parseMarkdownSections]
  split
  · rfl
  · rw [flatSections_checked _ _ 0 (scanHeadings_spec _)]
    exact (buildTree_inv _ (flatSections_leaf _ _)).2

theorem HSeg_titles (lines : List Str) (hs : List headingInfo) :
    ∀ start, HSeg lines start hs →
      hs.map (fun h => (h.heading, h.level)) =
        hs.map (fun h => headingOfLine (lines.getD h.lineIdx [])) := by
  induction hs with
  | nil => intro _ _; rfl
  | cons hd tl ih =>
    intro start h
    obtain ⟨_, _, ⟨hashes, h3, h3b⟩, _, h5⟩ := h
    simp only [List.map_cons, ih _ h5, headingOfLine, h3, h3b]

theorem flatSections_titles (lines : List Str) (hs : List headingInfo) :
    (flatSections lines hs).map (fun s => (s.heading, s.level)) =
      hs.map (fun h => (h.heading, h.level)) := by
  induction hs with
  | nil => rfl
  | cons hd tl ih => simp [flatSections, ih, Section.heading_mk, Section.level_mk]

theorem preorder_titles (source : Str) :
    (preorder (parseMarkdownSections source)).map (fun l => (l.1, l.2.1)) =
      ((List.range (strings.SplitLines source).length).filter
        (recognized (strings.SplitLines source))).map
        (fun k => headingOfLine ((strings.SplitLines source).getD k [])) := by
  have h1 := parseMarkdownSections_preorder source
  have h2 := scanHeadings_lineIdx (strings.SplitLines source)
  have h3 := HSeg_titles _ _ 0 (scanHeadings_spec (strings.SplitLines source))
  have h4 := flatSections_titles (strings.SplitLines source)
    (scanHeadings 0 false (strings.SplitLines source))
  rw [h1, ← h2, List.map_map, List.map_map]
  have : ((fun l : Label => (l.1, l.2.1)) ∘ Section.label) =
      (fun s : Section => (s.heading, s.level)) := rfl
  rw [this, h4, h3]
  rfl

/-- C2 (order and completeness). The pre-order of the forest returned by
`parseMarkdownSections` lists the recognized heading lines, each once and in
document order, with the title and level their lines give; it is the list of the
sections the tokenizer recorded, bodies included, so that nesting loses or
repeats no heading. -/
theorem parseMarkdownSections_complete (source : Str) :
    (preorder (parseMarkdownSections source)).map (fun l => (l.1, l.2.1)) =
      ((List.range (strings.SplitLines source).length).filter
        (recognized (strings.SplitLines source))).map
        (fun k => headingOfLine ((strings.SplitLines source).getD k [])) ∧
    preorder (parseMarkdownSections source) =
      (flatSections (strings.SplitLines source)
        (scanHeadings 0 false (strings.SplitLines source))).map Section.label ∧
    (preorder (parseMarkdownSections source)).length =
      ((List.range (strings.SplitLines source).length).filter
        (recognized (strings.SplitLines source))).length := by
  have h1 := parseMarkdownSections_preorder source
  have h2 := scanHeadings_lineIdx (strings.SplitLines source)
  refine ⟨preorder_titles source, h1, ?_⟩
  rw [h1, ← h2]
  simp [flatSections_length]

theorem flatSections_body (lines : List Str) (hs : List headingInfo) :
    ∀ start, HSeg lines start hs → ∀ (i : Nat) (s : Section),
      (flatSections lines hs)[i]? = some s →
      ∃ k k2, (hs.map (fun h => h.lineIdx))[i]? = some k ∧ k < k2 ∧ k2 ≤ lines.length ∧
        (k2 = lines.length ∨ recognized lines k2 = true) ∧
        (∀ j, k < j → j < k2 → recognized lines j = false) ∧
        s.content = strings.JoinLines ((lines.take k2).drop (k + 1)) := by
  induction hs with
  | nil => intro _ _ i s h; simp [flatSections] at h
  | cons hd tl ih =>
    intro start h i s hi
    obtain ⟨_, h2, _, _, h5⟩ := h
    have hlt := recognized_lt _ _ h2
    cases i with
    | zero =>
      simp only [flatSections, List.getElem?_cons_zero, Option.some.injEq] at hi
      subst hi
      cases tl with
      | nil =>
        exact ⟨hd.lineIdx, lines.length, by simp, hlt, Nat.le_refl _, Or.inl rfl,
          fun j hj1 _ => h5 j (by omega), rfl⟩
      | cons t ts =>
        obtain ⟨g1, g2, _, g4, _⟩ := h5
        have := recognized_lt _ _ g2
        exact ⟨hd.lineIdx, t.lineIdx, by simp, by omega, by omega, Or.inr g2,
          fun j hj1 hj2 => g4 j (by omega) hj2, rfl⟩
    | succ i =>
      simp only [flatSections, List.getElem?_cons_succ] at hi
      obtain ⟨k, k2, e1, e2⟩ := ih _ h5 i s hi
      exact ⟨k, k2, by simpa using e1, e2⟩

/-- C3 (section body). The body of the node at pre-order position `i` is made of
the lines strictly between the line `k` of the `i`-th recognized heading and the
line `k2` of the next recognized heading (the end of the document when there is
none), joined by line feeds; no line in between is a recognized heading. -/
theorem parseMarkdownSections_body (source : Str) (i : Nat) (lab : Label)
    (h : (preorder (parseMarkdownSections source))[i]? = some lab) :
    ∃ k k2,
      ((List.range (strings.SplitLines source).length).filter
        (recognized (strings.SplitLines source)))[i]? = some k ∧
      k < k2 ∧ k2 ≤ (strings.SplitLines source).length ∧
      (k2 = (strings.SplitLines source).length ∨
        recognized (strings.SplitLines source) k2 = true) ∧
      (∀ j, k < j → j < k2 → recognized (strings.SplitLines source) j = false) ∧
      lab.2.2 = strings.JoinLines (((strings.SplitLines source).take k2).drop (k + 1)) := by
  rw [parseMarkdownSections_preorder, List.getElem?_map] at h
  cases hs : (flatSections (strings.SplitLines source)
      (scanHeadings 0 false (strings.SplitLines source)))[i]? with
  | none => simp [hs] at h
  | some s =>
    simp only [hs, Option.map_some', Option.some.injEq] at h
    subst h
    have := flatSections_body _ _ 0 (scanHeadings_spec (strings.SplitLines source)) i s hs
    rw [scanHeadings_lineIdx] at this
    exact this

/-- C3 on a document with two headings: the body of the first is the two lines
before the second heading. -/
theorem parseMarkdownSections_body_witness :
    (preorder (parseMarkdownSections "# A\nx\ny\n## B\nz".toList))[0]? =
      some ("A".toList, 1, "x\ny".toList) ∧
    ∃ k k2,
      ((List.range (strings.SplitLines "# A\nx\ny\n## B\nz".toList).length).filter
        (recognized (strings.SplitLines "# A\nx\ny\n## B\nz".toList)))[0]? = some k ∧
      k < k2 ∧ k2 ≤ (strings.SplitLines "# A\nx\ny\n## B\nz".toList).length ∧
      (k2 = (strings.SplitLines "# A\nx\ny\n## B\nz".toList).length ∨
        recognized (strings.SplitLines "# A\nx\ny\n## B\nz".toList) k2 = true) ∧
      (∀ j, k < j → j < k2 →
        recognized (strings.SplitLines "# A\nx\ny\n## B\nz".toList) j = false) ∧
      ("A".toList, (1 : Int), "x\ny".toList).2.2 =
        strings.JoinLines (((strings.SplitLines "# A\nx\ny\n## B\nz".toList).take k2).drop (k + 1)) :=
  ⟨by decide, parseMarkdownSections_body "# A\nx\ny\n## B\nz".toList 0
    ("A".toList, 1, "x\ny".toList) (by decide)⟩

theorem headingRegex_hash (t : Str) (m : Str × Str) (h : headingRegex t = some m) :
    strings.HasPrefix t "#".toList = true := by
  cases t with
  | nil => simp [headingRegex] at h
  | cons c cs =>
    by_cases hc : c = '#'
    · subst hc
      simp [strings.HasPrefix, List.isPrefixOf]
    · have : (c == '#') = false := by simpa using hc
      simp [headingRegex, List.takeWhile, this] at h

/-- C4 (fenced code). A line after an odd number of fence lines, and a fence line
itself, is never recorded as a heading; and a document whose lines with a
trimmed text starting with `#` all lie after an odd number of fence lines gives
the empty tree. -/
theorem fenced_never_heading (source : Str) :
    (∀ k, (fencesBefore (strings.SplitLines source) k % 2 = 1 ∨
          isFenceLine (strings.SplitLines source) k = true) →
      k ∉ (scanHeadings 0 false (strings.SplitLines source)).map (fun h => h.lineIdx)) ∧
    ((∀ k, k < (strings.SplitLines source).length →
        strings.HasPrefix (strings.TrimSpace ((strings.SplitLines source).getD k []))
          "#".toList = true →
        fencesBefore (strings.SplitLines source) k % 2 = 1) →
      parseMarkdownSections source = []) := by
  constructor
  · intro k hk hmem
    rw [scanHeadings_lineIdx, List.mem_filter] at hmem
    have hr := hmem.2
    simp only [recognized, Bool.and_eq_true, decide_eq_true_eq, Bool.not_eq_true'] at hr
    rcases hk with hk | hk
    · omega
    · rw [hr.1.2] at hk
      cases hk
  · intro hall
    have hnil : (scanHeadings 0 false (strings.SplitLines source)).map (fun h => h.lineIdx) = [] := by
      rw [scanHeadings_lineIdx, List.filter_eq_nil_iff]
      intro k hk hr
      have hr2 := hr
      simp only [recognized, Bool.and_eq_true, decide_eq_true_eq, Bool.not_eq_true'] at hr2
      obtain ⟨⟨⟨h1, h2⟩, _⟩, h4⟩ := hr2
      obtain ⟨m, hm⟩ := Option.isSome_iff_exists.mp h4
      have := hall k h1 (headingRegex_hash _ _ hm)
      omega
    have hnil2 : scanHeadings 0 false (strings.SplitLines source) = [] := by
      simpa using hnil
    simp [parseMarkdownSections, hnil2]

/-- C4 on a document whose only line starting with `#` is inside a fence: the
line is not recorded and the tree is empty. -/
theorem fenced_never_heading_witness :
    (2 ∉ (scanHeadings 0 false
        (strings.SplitLines "intro\n```\n# not a heading\n```\nend".toList)).map
          (fun h => h.lineIdx)) ∧
    parseMarkdownSections "intro\n```\n# not a heading\n```\nend".toList = [] :=
  ⟨(fenced_never_heading "intro\n```\n# not a heading\n```\nend".toList).1 2
      (Or.inl (by decide)),
    (fenced_never_heading "intro\n```\n# not a heading\n```\nend".toList).2 (by decide)⟩

end orgparser

/-! ## Lemmas on `Parse` -/

namespace orgparser

theorem unicode_ToLower_colon (c : Char) (h : unicode.ToLower c = ':') : c = ':' := by
  unfold unicode.ToLower at h
  split at h
  · rename_i hc
    obtain ⟨h1, h2⟩ := hc
    exfalso
    generalize c.toNat = n at h h1 h2
    interval_cases n <;> exact absurd h (by decide)
  · split at h
    · exact absurd h (by decide)
    · split at h
      · exact absurd h (by decide)
      · exact h

theorem colon_of_preset (line : Str)
    (h : strings.HasPrefix (strings.ToLower line) "preset:".toList = true) : ':' ∈ line := by
  have hp : "preset:".toList <+: line.map unicode.ToLower := by
    simpa [strings.HasPrefix, strings.ToLower] using h
  have hm : ':' ∈ line.map unicode.ToLower := hp.subset (by decide)
  obtain ⟨c, hc, hcl⟩ := List.mem_map.mp hm
  rw [unicode_ToLower_colon c hcl] at hc
  exact hc

theorem barePresetLine_checked (preset line : Str) :
    barePresetLineChecked preset line = some (barePresetLine preset line) := by
  simp only [barePresetLineChecked, barePresetLine]
  split
  · rename_i h
    have hc := colon_of_preset _ h
    simp [strings.SplitColon2, hc]
  · rfl

theorem barePresetLoop_checked (lines : List Str) :
    ∀ preset : Str,
      barePresetLoopChecked preset lines = some (lines.foldl barePresetLine preset) := by
  induction lines with
  | nil => intro _; rfl
  | cons l ls ih =>
    intro preset
    simp only [barePresetLoopChecked, barePresetLine_checked, List.foldl_cons, ih]

theorem parseCulture_checked (sec : Section) :
    parseCultureChecked sec = some (parseCulture sec) := by
  simp only [parseCultureChecked, parseCulture]
  split
  · simp only [barePresetLoop_checked]
  · rfl

theorem loopChecked_total {σ α : Type} (step2 : σ → α → Option σ) (step : σ → α → σ)
    (h : ∀ st a, step2 st a = some (step st a)) (l : List α) :
    ∀ st : σ, loopChecked step2 st l = some (l.foldl step st) := by
  induction l with
  | nil => intro _; rfl
  | cons a rest ih =>
    intro st
    simp only [loopChecked, h, List.foldl_cons, ih]

theorem dispatchChild_errors (st : ParsedOrg × List Str) (h2 : Section) :
    (dispatchChild st h2).2 = st.2 ∧ (dispatchChild st h2).1.Name = st.1.Name := by
  simp only [dispatchChild]
  split
  · exact ⟨rfl, rfl⟩
  · split
    · exact ⟨by simp [parseStructure], rfl⟩
    · split <;> exact ⟨rfl, rfl⟩

theorem dispatchRoot_errors (st : ParsedOrg × List Str) (s : Section) :
    (dispatchRoot st s).2 = st.2 ∧ (dispatchRoot st s).1.Name = st.1.Name := by
  simp only [dispatchRoot]
  split
  · split
    · exact ⟨rfl, rfl⟩
    · split
      · exact ⟨by simp [parseStructure], rfl⟩
      · exact ⟨rfl, rfl⟩
  · exact ⟨rfl, rfl⟩

theorem foldl_dispatchChild_errors (l : List Section) :
    ∀ st : ParsedOrg × List Str,
      (l.foldl dispatchChild st).2 = st.2 ∧ (l.foldl dispatchChild st).1.Name = st.1.Name := by
  induction l with
  | nil => intro st; exact ⟨rfl, rfl⟩
  | cons a rest ih =>
    intro st
    have h1 := dispatchChild_errors st a
    have h2 := ih (dispatchChild st a)
    exact ⟨by rw [List.foldl_cons, h2.1, h1.1], by rw [List.foldl_cons, h2.2, h1.2]⟩

theorem foldl_dispatchRoot_errors (l : List Section) :
    ∀ st : ParsedOrg × List Str,
      (l.foldl dispatchRoot st).2 = st.2 ∧ (l.foldl dispatchRoot st).1.Name = st.1.Name := by
  induction l with
  | nil => intro st; exact ⟨rfl, rfl⟩
  | cons a rest ih =>
    intro st
    have h1 := dispatchRoot_errors st a
    have h2 := ih (dispatchRoot st a)
    exact ⟨by rw [List.foldl_cons, h2.1, h1.1], by rw [List.foldl_cons, h2.2, h1.2]⟩

theorem finishParse_errors (sections : List Section) (st : ParsedOrg × List Str)
    (h : st.2 = []) :
    (finishParse sections st).2 =
        (if (finishParse sections st).1.Agents = [] then [noAgentsError] else []) ∧
      (finishParse sections st).1.Name = st.1.Name := by
  have hr := foldl_dispatchRoot_errors sections st
  simp only [finishParse]
  by_cases hN : st.1.Name = []
  · simp only [hN, if_true]
    by_cases hA : (List.foldl dispatchRoot st sections).1.Agents.length = 0
    · simp only [hA, if_true]
      rw [List.length_eq_zero] at hA
      simp [hA, hr.1, h, hr.2, hN]
    · simp only [hA, if_false]
      rw [List.length_eq_zero] at hA
      simp [hA, hr.1, h, hr.2, hN]
  · simp only [hN, if_false]
    by_cases hA : st.1.Agents.length = 0
    · simp only [hA, if_true]
      rw [List.length_eq_zero] at hA
      simp [hA, h]
    · simp only [hA, if_false]
      rw [List.length_eq_zero] at hA
      simp [hA, h]

theorem Parse_errors_name (source : Str) :
    (Parse source).2 = (if (Parse source).1.Agents = [] then [noAgentsError] else []) ∧
    (Parse source).1.Name =
      (match (parseMarkdownSections source).find? (fun s => decide (s.level = 1)) with
        | some s => s.heading
        | none => []) := by
  cases hf : List.find? (fun s => decide (s.level = 1)) (parseMarkdownSections source) with
  | none =>
    have := finishParse_errors (parseMarkdownSections source) (emptyOrg, []) rfl
    simp only [Parse, hf]
    exact ⟨this.1, this.2⟩
  | some s =>
    have h0 := foldl_dispatchChild_errors s.children ({ emptyOrg with Name := s.heading }, [])
    have := finishParse_errors (parseMarkdownSections source) _ h0.1
    simp only [Parse, hf]
    exact ⟨this.1, by rw [this.2, h0.2]⟩

/-- C6 (validation). The error list returned by `Parse` is the one-element list
holding "No agents found in Structure section" when the returned role sequence
is empty and the empty list otherwise; no other error string occurs in it. -/
theorem Parse_errors (source : Str) :
    (Parse source).2 =
      (if (Parse source).1.Agents = [] then ["No agents found in Structure section".toList]
       else []) ∧
    ((Parse source).2 = [] ∨
      (Parse source).2 = ["No agents found in Structure section".toList]) := by
  have h := (Parse_errors_name source).1
  refine ⟨h, ?_⟩
  rw [h]
  split
  · exact Or.inr rfl
  · exact Or.inl rfl

/-- C7 (no headings). When no line of the input is a recognized heading, `Parse`
returns no role, the empty name and exactly the error "No agents found in
Structure section". -/
theorem Parse_no_headings (source : Str)
    (h : (List.range (strings.SplitLines source).length).filter
      (recognized (strings.SplitLines source)) = []) :
    (Parse source).1.Agents = [] ∧ (Parse source).1.Name = [] ∧
      (Parse source).2 = ["No agents found in Structure section".toList] := by
  have hnil : scanHeadings 0 false (strings.SplitLines source) = [] := by
    have := scanHeadings_lineIdx (strings.SplitLines source)
    rw [h] at this
    simpa using this
  have hs : parseMarkdownSections source = [] := by
    simp [parseMarkdownSections, hnil]
  simp only [Parse, hs]
  exact ⟨rfl, rfl, rfl⟩

/-- C7 on the empty input and on a text without heading lines. -/
theorem Parse_no_headings_witness :
    ((Parse []).1.Agents = [] ∧ (Parse []).1.Name = [] ∧
      (Parse []).2 = ["No agents found in Structure section".toList]) ∧
    (Parse "just text\n#no space".toList).2 =
      ["No agents found in Structure section".toList] :=
  ⟨Parse_no_headings [] (by decide),
    (Parse_no_headings "just text\n#no space".toList (by decide)).2.2⟩

mutual
theorem deeperS_levels : ∀ s : Section, childrenDeeperS s = true →
    ∀ x ∈ preorder s.children, s.level < x.2.1
  | .mk hd l c cs => by
    intro h x hx
    simp only [childrenDeeperS, Bool.and_eq_true, List.all_eq_true, decide_eq_true_eq] at h
    exact deeper_levels l cs h.2 h.1 x hx
theorem deeper_levels (l : Int) : ∀ cs : List Section, childrenDeeper cs = true →
    (∀ c ∈ cs, l < c.level) → ∀ x ∈ preorder cs, l < x.2.1
  | [] => by
    intro _ _ x hx
    simp [preorder] at hx
  | .mk hd l2 c cs2 :: ss => by
    intro h hl x hx
    simp only [childrenDeeper, Bool.and_eq_true] at h
    simp only [preorder, preorderS, List.mem_append, List.mem_cons] at hx
    have hl2 : l < l2 := hl (.mk hd l2 c cs2) (by simp)
    rcases hx with (rfl | hx) | hx
    · exact hl2
    · have := deeperS_levels (.mk hd l2 c cs2) h.1 x hx
      simp only [Section.level_mk] at this
      omega
    · exact deeper_levels l ss h.2 (fun c hc => hl c (by simp [hc])) x hx
end

theorem find_level_one (f : List Section) (hd : childrenDeeper f = true)
    (hl : ∀ x ∈ preorder f, (1 : Int) ≤ x.2.1) :
    (f.find? (fun s => decide (s.level = 1))).map Section.label =
      (preorder f).find? (fun x => decide (x.2.1 = 1)) := by
  induction f with
  | nil => rfl
  | cons s ss ih =>
    simp only [childrenDeeper, Bool.and_eq_true] at hd
    have hl2 : ∀ x ∈ preorder ss, (1 : Int) ≤ x.2.1 := by
      intro x hx
      exact hl x (by simp [preorder, hx])
    cases s with
    | mk h l c cs =>
      by_cases h1 : l = 1
      · subst h1
        simp [List.find?, preorder, preorderS, Section.level_mk, Section.label,
          Section.heading_mk, Section.content_mk]
      · have hs1 : (1 : Int) ≤ l := hl (h, l, c) (by simp [preorder, preorderS])
        have hsub : ∀ x ∈ preorder cs, ¬ (decide (x.2.1 = 1) = true) := by
          intro x hx
          have := deeperS_levels (.mk h l c cs) hd.1 x hx
          simp only [Section.level_mk] at this
          simp only [decide_eq_true_eq]
          omega
        have hnone : (preorder cs).find? (fun x => decide (x.2.1 = 1)) = none :=
          List.find?_eq_none.mpr hsub
        have ih2 := ih hd.2 hl2
        simp only [preorder, preorderS, List.cons_append, List.find?_cons, Section.level_mk, h1,
          decide_False, List.find?_append, hnone, Option.none_or]
        exact ih2

theorem headingRegex_groups (t : Str) (m : Str × Str) (h : headingRegex t = some m) :
    1 ≤ m.1.length ∧ m.1.length ≤ 6 ∧ m.2 ≠ [] := by
  simp only [headingRegex] at h
  split at h
  · cases h
  · rename_i hc
    simp only [not_or, Nat.not_lt] at hc
    split at h
    · rename_i ht
      split at h
      · cases h
      · simp only [Option.some.injEq] at h
        subst h
        exact ⟨hc.1, hc.2.1, ht⟩
    · split at h
      · cases h
      · split at h
        · cases h
        · simp only [Option.some.injEq] at h
          subst h
          exact ⟨hc.1, hc.2.1, by simp⟩

theorem headingOfLine_level (lines : List Str) (k : Nat) (h : recognized lines k = true) :
    (1 : Int) ≤ (headingOfLine (lines.getD k [])).2 := by
  simp only [recognized, Bool.and_eq_true] at h
  obtain ⟨m, hm⟩ := Option.isSome_iff_exists.mp h.2
  have hm2 : headingRegex (strings.TrimSpace (lines.getD k [])) = some m := hm
  have := (headingRegex_groups _ _ hm2).1
  simp only [headingOfLine, hm2]
  omega

theorem find_first_sorted (g : Nat → Str × Int) (ks : List Nat)
    (hs : List.Pairwise (· < ·) ks) (k : Nat) (hk : k ∈ ks) (h1 : (g k).2 = 1)
    (hfirst : ∀ j, j < k → j ∈ ks → (g j).2 ≠ 1) :
    (ks.map g).find? (fun x => decide (x.2 = 1)) = some (g k) := by
  induction ks with
  | nil => simp at hk
  | cons a rest ih =>
    rw [List.pairwise_cons] at hs
    simp only [List.mem_cons] at hk
    rcases hk with rfl | hk
    · simp [List.find?, h1]
    · have hak : a < k := hs.1 k hk
      have hne := hfirst a hak (by simp)
      simp only [List.map_cons, List.find?, hne, decide_False]
      exact ih hs.2 hk (fun j hj hm => hfirst j hj (by simp [hm]))

theorem Parse_name_first (source : Str) (k : Nat)
    (hk : recognized (strings.SplitLines source) k = true)
    (h1 : (headingOfLine ((strings.SplitLines source).getD k [])).2 = 1)
    (hfirst : ∀ j, j < k → recognized (strings.SplitLines source) j = true →
      (headingOfLine ((strings.SplitLines source).getD j [])).2 ≠ 1) :
    (Parse source).1.Name = (headingOfLine ((strings.SplitLines source).getD k [])).1 := by
  have hc := preorder_titles source
  have hflat := flatSections_leaf (strings.SplitLines source)
    (scanHeadings 0 false (strings.SplitLines source))
  have hdeep : childrenDeeper (parseMarkdownSections source) = true := by
    simp only [parseMarkdownSections]
    split
    · rfl
    · obtain ⟨⟨_, _, _, _, _, hd, _, _⟩, _⟩ := buildTree_inv _ hflat
      exact hd
  have hmem : ∀ x ∈ (preorder (parseMarkdownSections source)).map (fun l => (l.1, l.2.1)),
      (1 : Int) ≤ x.2 := by
    rw [hc]
    intro x hx
    obtain ⟨j, hj, rfl⟩ := List.mem_map.mp hx
    exact headingOfLine_level _ j (List.mem_filter.mp hj).2
  have hl : ∀ x ∈ preorder (parseMarkdownSections source), (1 : Int) ≤ x.2.1 := by
    intro x hx
    exact hmem (x.1, x.2.1) (List.mem_map.mpr ⟨x, hx, rfl⟩)
  have hfind := find_level_one _ hdeep hl
  have hsorted : List.Pairwise (· < ·)
      ((List.range (strings.SplitLines source).length).filter
        (recognized (strings.SplitLines source))) :=
    (List.pairwise_lt_range _).filter _
  have hkm : k ∈ (List.range (strings.SplitLines source).length).filter
      (recognized (strings.SplitLines source)) :=
    List.mem_filter.mpr ⟨List.mem_range.mpr (recognized_lt _ _ hk), hk⟩
  have hff := find_first_sorted
    (fun k => headingOfLine ((strings.SplitLines source).getD k [])) _ hsorted k hkm h1
    (fun j hj hm => hfirst j hj (List.mem_filter.mp hm).2)
  rw [← hc, List.find?_map] at hff
  have hcomp : ((fun x : Str × Int => decide (x.2 = 1)) ∘ fun l : Label => (l.1, l.2.1)) =
      (fun x : Label => decide (x.2.1 = 1)) := rfl
  rw [hcomp, ← hfind] at hff
  rw [(Parse_errors_name source).2]
  cases hs : List.find? (fun s => decide (s.level = 1)) (parseMarkdownSections source) with
  | none => simp [hs] at hff
  | some s =>
    simp only [hs, Option.map_some', Option.some.injEq] at hff
    have := congrArg Prod.fst hff
    simpa [Section.label] using this

theorem dropWhile_fixed_head (p : Char → Bool) (c : Char) (rest : Str)
    (h : (c :: rest).dropWhile p = c :: rest) : p c = false := by
  by_cases hp : p c = true
  · exfalso
    rw [List.dropWhile_cons_of_pos hp] at h
    have := (List.dropWhile_sublist p (l := rest)).length_le
    rw [h] at this
    simp at this
  · simpa using hp

theorem TrimSpace_fixed (t : Str) (h : strings.TrimSpace t = t) :
    t.dropWhile unicode.IsSpace = t ∧ t.reverse.dropWhile unicode.IsSpace = t.reverse := by
  have h1 := (List.dropWhile_sublist unicode.IsSpace (l := t))
  have h2 := (List.dropWhile_sublist unicode.IsSpace
    (l := (t.dropWhile unicode.IsSpace).reverse))
  have hlen : t.length = ((t.dropWhile unicode.IsSpace).reverse.dropWhile unicode.IsSpace).length := by
    have := congrArg List.length h
    simp only [strings.TrimSpace, List.length_reverse] at this
    exact this.symm
  have hl2 := h2.length_le
  have hl1 := h1.length_le
  simp only [List.length_reverse] at hl2
  have e1 : t.dropWhile unicode.IsSpace = t := h1.eq_of_length (by omega)
  rw [e1] at h2 hlen
  exact ⟨e1, h2.eq_of_length (by simp; omega)⟩

theorem isS_IsSpace (c : Char) (h : unicode.IsSpace c = false) : regexp.isS c = false := by
  simp only [unicode.IsSpace, regexp.isS] at h ⊢
  simp only [Bool.or_eq_false_iff, Bool.and_eq_false_iff, decide_eq_false_iff_not,
    beq_eq_false_iff_ne, ne_eq] at h ⊢
  omega

/-- The heading line `# T` gives the title `T` and the level 1 when `T` is not
empty, has no white space at either end and holds no line feed. -/
theorem headingOfLine_title (t : Str) (h0 : t ≠ []) (h1 : strings.TrimSpace t = t)
    (h2 : '\n' ∉ t) : headingOfLine ('#' :: ' ' :: t) = (t, 1) := by
  obtain ⟨e1, e2⟩ := TrimSpace_fixed t h1
  cases t with
  | nil => exact absurd rfl h0
  | cons c rest =>
    have hc := dropWhile_fixed_head _ c rest e1
    have hrev : ('#' :: ' ' :: c :: rest).reverse.dropWhile unicode.IsSpace =
        ('#' :: ' ' :: c :: rest).reverse := by
      have hne : (c :: rest).reverse ≠ [] := by simp
      obtain ⟨d, more, hd⟩ := List.exists_cons_of_ne_nil hne
      rw [hd] at e2
      have hdsp := dropWhile_fixed_head _ d more e2
      have : ('#' :: ' ' :: c :: rest).reverse = d :: (more ++ [' ', '#']) := by
        have : ('#' :: ' ' :: c :: rest).reverse = (c :: rest).reverse ++ [' ', '#'] := by
          simp
        rw [this, hd]
        rfl
      rw [this, List.dropWhile_cons_of_neg (by simp [hdsp])]
    have htrim : strings.TrimSpace ('#' :: ' ' :: c :: rest) = '#' :: ' ' :: c :: rest := by
      have hh : ('#' :: ' ' :: c :: rest).dropWhile unicode.IsSpace = '#' :: ' ' :: c :: rest := by
        rw [List.dropWhile_cons_of_neg (by decide)]
      simp only [strings.TrimSpace, hh, hrev, List.reverse_reverse]
    have hs := isS_IsSpace c hc
    have hcs : (c == '#') = false ∨ (c == '#') = true := by
      cases (c == '#') <;> simp
    have hsp : (' ' == '#') = false := by decide
    have hsS : regexp.isS ' ' = true := by decide
    simp only [headingOfLine, htrim, headingRegex, List.takeWhile, List.dropWhile, hsp, hsS, hs,
      beq_self_eq_true]
    simp [h2]

/-- C8 (organization name). When line `k` is the first recognized heading of
level 1, the name returned by `Parse` is the title of that line; and the title
of a heading line `# T` is `T` itself when `T` is not empty and has no white
space at either end. -/
theorem Parse_name (source : Str) :
    (∀ k, recognized (strings.SplitLines source) k = true →
      (headingOfLine ((strings.SplitLines source).getD k [])).2 = 1 →
      (∀ j, j < k → recognized (strings.SplitLines source) j = true →
        (headingOfLine ((strings.SplitLines source).getD j [])).2 ≠ 1) →
      (Parse source).1.Name = (headingOfLine ((strings.SplitLines source).getD k [])).1) ∧
    (∀ t : Str, t ≠ [] → strings.TrimSpace t = t → '\n' ∉ t →
      headingOfLine ('#' :: ' ' :: t) = (t, 1)) :=
  ⟨Parse_name_first source, headingOfLine_title⟩

/-- C8 on the test document: its first line `# Test Org` is the first level-1
heading, and the name is "Test Org". -/
theorem Parse_name_witness :
    (Parse testOrg).1.Name = (headingOfLine ((strings.SplitLines testOrg).getD 0 [])).1 ∧
    headingOfLine ('#' :: ' ' :: "Test Org".toList) = ("Test Org".toList, 1) ∧
    (Parse testOrg).1.Name = "Test Org".toList :=
  ⟨(Parse_name testOrg).1 0 (by decide) (by decide) (by decide),
    (Parse_name testOrg).2 "Test Org".toList (by decide) (by decide) (by decide),
    by decide⟩

/-- C9 (fallback mode), the code at the failing input: a root level-2 "Policies"
section of a document without level-1 heading is not dispatched, the policies
stay at their zero value and the name is empty, while the same section under a
level-1 title gives the limit 500 and the threshold 80. -/
theorem fallback_skips_policies :
    (Parse policiesAtRoot).1.Policies = ⟨0, 0, []⟩ ∧
    (Parse policiesAtRoot).1.Name = [] ∧
    (Parse policiesUnderTitle).1.Policies = ⟨500, 80, []⟩ ∧
    parseMarkdownSections policiesAtRoot =
      [Section.mk "Policies".toList 2
        "- **Per-agent limit:** 500 credits/period\n- **Alert threshold:** 80%".toList []] ∧
    parseMarkdownSections policiesUnderTitle =
      [Section.mk "Acme".toList 1 []
        [Section.mk "Policies".toList 2
          "- **Per-agent limit:** 500 credits/period\n- **Alert threshold:** 80%".toList []]] :=
  ⟨by decide, by decide, by decide, rfl, rfl⟩

/-- C10 as stated fails: the child "Police" of the title holds "polic" and neither
"culture" nor "structure", yet `Parse` does not dispatch it; the policies stay at
zero while `parsePolicies` of the child gives the limit 500. -/
theorem police_not_dispatched :
    parseMarkdownSections policeDoc =
      [Section.mk "T".toList 1 []
        [Section.mk "Police".toList 2 "- **Per-agent limit:** 500".toList []]] ∧
    strings.Contains (strings.ToLower "Police".toList) "polic".toList = true ∧
    strings.Contains (strings.ToLower "Police".toList) "culture".toList = false ∧
    strings.Contains (strings.ToLower "Police".toList) "structure".toList = false ∧
    (Parse policeDoc).1.Policies ≠
      parsePolicies (Section.mk "Police".toList 2 "- **Per-agent limit:** 500".toList []) ∧
    (Parse policeDoc).1.Policies.PerAgentBudget = 0 ∧
    (parsePolicies
      (Section.mk "Police".toList 2 "- **Per-agent limit:** 500".toList [])).PerAgentBudget = 500 :=
  ⟨rfl, by decide, by decide, by decide, by decide, by decide, by decide⟩

theorem dispatchChild_policies (st : ParsedOrg × List Str) (c : Section) :
    (dispatchChild st c).1.Policies =
      if policyChild c = true then parsePolicies c else st.1.Policies := by
  cases h1 : strings.Contains (strings.ToLower c.heading) "culture".toList <;>
  cases h2 : strings.Contains (strings.ToLower c.heading) "structure".toList <;>
  cases h3 : strings.Contains (strings.ToLower c.heading) "policies".toList <;>
  cases h4 : strings.Contains (strings.ToLower c.heading) "policy".toList <;>
  simp only [dispatchChild, policyChild, h1, h2, h3, h4] <;> rfl

theorem dispatchRoot_policies (st : ParsedOrg × List Str) (s : Section) :
    (dispatchRoot st s).1.Policies = st.1.Policies := by
  simp only [dispatchRoot]
  split
  · split
    · rfl
    · split <;> rfl
  · rfl

theorem foldl_dispatchRoot_policies (l : List Section) :
    ∀ st : ParsedOrg × List Str, (l.foldl dispatchRoot st).1.Policies = st.1.Policies := by
  induction l with
  | nil => intro _; rfl
  | cons a rest ih =>
    intro st
    rw [List.foldl_cons, ih, dispatchRoot_policies]

theorem finishParse_policies (sections : List Section) (st : ParsedOrg × List Str) :
    (finishParse sections st).1.Policies = st.1.Policies := by
  simp only [finishParse]
  split <;> split <;> simp [foldl_dispatchRoot_policies]

theorem foldl_dispatchChild_policies (l : List Section) :
    ∀ st : ParsedOrg × List Str,
      (l.foldl dispatchChild st).1.Policies =
        (match (l.filter policyChild).getLast? with
          | some c => parsePolicies c
          | none => st.1.Policies) := by
  induction l with
  | nil => intro _; rfl
  | cons a rest ih =>
    intro st
    rw [List.foldl_cons, ih, dispatchChild_policies]
    by_cases ha : policyChild a = true
    · simp only [List.filter_cons, ha, if_true]
      cases hr : (rest.filter policyChild) with
      | nil => simp
      | cons b more =>
        simp only [List.getLast?_cons_cons]
        have hl : (b :: more).getLast? = some ((b :: more).getLast (by simp)) :=
          List.getLast?_eq_getLast _ _
        rw [hl]
    · simp only [List.filter_cons, ha, if_false]
      simp

/-- C10 as amended. When the title section is `s` and `c` is the last child of `s`
whose lower-cased title holds "policy" or "policies" and neither "culture" nor
"structure", the policies returned by `Parse` are `parsePolicies c`. -/
theorem Parse_policy_dispatch (source : Str) (s c : Section)
    (hs : (parseMarkdownSections source).find? (fun s => decide (s.level = 1)) = some s)
    (hc : (s.children.filter policyChild).getLast? = some c) :
    (Parse source).1.Policies = parsePolicies c := by
  simp only [Parse, hs, finishParse_policies, foldl_dispatchChild_policies, hc]

/-- C10 as amended, on a title with the child "Policies". -/
theorem Parse_policy_dispatch_witness :
    (Parse policiesUnderTitle).1.Policies =
      parsePolicies (Section.mk "Policies".toList 2
        "- **Per-agent limit:** 500 credits/period\n- **Alert threshold:** 80%".toList []) :=
  Parse_policy_dispatch policiesUnderTitle
    (Section.mk "Acme".toList 1 []
      [Section.mk "Policies".toList 2
        "- **Per-agent limit:** 500 credits/period\n- **Alert threshold:** 80%".toList []])
    (Section.mk "Policies".toList 2
      "- **Per-agent limit:** 500 credits/period\n- **Alert threshold:** 80%".toList [])
    rfl rfl

end orgparser

/-! ## Lemmas on the structure extractor -/

namespace orgparser

theorem subRoleStep_eq (domain : Str) (st : List Agent × Str) (ri : Nat) (sub : Section)
    (h : sub.level = 4) :
    subRoleStep domain st ri sub =
      (st.1 ++ subRoleAgents domain (subParent st.2 ri sub) sub,
        if ri = 0 ∧ 0 < countOf (extractMeta sub.content) then
          makeID (agentNameOf (nameFromHeading sub.heading) (countOf (extractMeta sub.content)) 0)
        else st.2) := by
  simp only [subRoleStep, h, ne_eq, not_true_eq_false, if_false]
  rfl

theorem subRoleStep_skip (domain : Str) (st : List Agent × Str) (ri : Nat) (sub : Section)
    (h : sub.level ≠ 4) : subRoleStep domain st ri sub = st := by
  simp only [subRoleStep, h, ne_eq, not_false_eq_true, if_true]

theorem deptStep_standalone (agents : List Agent) (dept : Section) (h : standaloneDept dept) :
    deptStep agents dept = agents ++ standaloneAgents dept := by
  obtain ⟨h1, h2⟩ := h
  have h3 : inferLevel dept.heading (extractMeta dept.content) ≥ 10 ∨
      dept.children.length = 0 := by
    rcases h2 with h2 | h2
    · exact Or.inl h2
    · exact Or.inr (by simp [h2])
  simp only [deptStep, h1, ne_eq, not_true_eq_false, if_false, h3, if_true]

theorem deptStep_subRoles (agents : List Agent) (dept : Section) (h1 : dept.level = 3)
    (h2 : inferLevel dept.heading (extractMeta dept.content) < 10) (h3 : dept.children ≠ []) :
    deptStep agents dept =
      (subRoleLoop
        (if metaGet (extractMeta dept.content) "domain".toList = [] then
          nameFromHeading dept.heading
         else metaGet (extractMeta dept.content) "domain".toList)
        (agents, []) 0 dept.children).1 := by
  have h4 : ¬ (inferLevel dept.heading (extractMeta dept.content) ≥ 10 ∨
      dept.children.length = 0) := by
    rw [List.length_eq_zero]
    rintro (h | h)
    · omega
    · exact h3 h
  simp only [deptStep, h1, ne_eq, not_true_eq_false, if_false, h4]

theorem deptStep_skip (agents : List Agent) (dept : Section) (h : dept.level ≠ 3) :
    deptStep agents dept = agents := by
  simp only [deptStep, h, ne_eq, not_false_eq_true, if_true]

theorem subRoleLoop_mem (domain : Str) (l : List Section) :
    ∀ (st : List Agent × Str) (ri : Nat) (a : Agent),
      a ∈ (subRoleLoop domain st ri l).1 →
      a ∈ st.1 ∨ ∃ sub ∈ l, sub.level = 4 ∧ ∃ p, a ∈ subRoleAgents domain p sub := by
  induction l with
  | nil => intro st ri a h; exact Or.inl h
  | cons s rest ih =>
    intro st ri a h
    simp only [subRoleLoop] at h
    rcases ih _ _ a h with h1 | ⟨sub, hs, hl, p, hp⟩
    · by_cases h4 : s.level = 4
      · rw [subRoleStep_eq _ _ _ _ h4] at h1
        simp only [List.mem_append] at h1
        rcases h1 with h1 | h1
        · exact Or.inl h1
        · exact Or.inr ⟨s, by simp, h4, _, h1⟩
      · rw [subRoleStep_skip _ _ _ _ h4] at h1
        exact Or.inl h1
    · exact Or.inr ⟨sub, by simp [hs], hl, p, hp⟩

/-- Where a record of `deptStep` comes from: it was there before, or the
standalone branch made it for the department, or the sub-role branch made it for
a level-4 child of the department. -/
theorem deptStep_mem (agents : List Agent) (dept : Section) (a : Agent)
    (h : a ∈ deptStep agents dept) :
    a ∈ agents ∨ (dept.level = 3 ∧ (a ∈ standaloneAgents dept ∨
      ∃ sub ∈ dept.children, sub.level = 4 ∧ ∃ d p, a ∈ subRoleAgents d p sub)) := by
  by_cases h3 : dept.level = 3
  · by_cases hb : inferLevel dept.heading (extractMeta dept.content) ≥ 10 ∨ dept.children = []
    · rw [deptStep_standalone _ _ ⟨h3, hb⟩, List.mem_append] at h
      rcases h with h | h
      · exact Or.inl h
      · exact Or.inr ⟨h3, Or.inl h⟩
    · simp only [not_or] at hb
      rw [deptStep_subRoles _ _ h3 (by omega) hb.2] at h
      rcases subRoleLoop_mem _ _ _ _ a h with h | ⟨sub, hs, hl, p, hp⟩
      · exact Or.inl h
      · exact Or.inr ⟨h3, Or.inr ⟨sub, hs, hl, _, p, hp⟩⟩
  · rw [deptStep_skip _ _ h3] at h
    exact Or.inl h

theorem foldl_deptStep_mem (l : List Section) :
    ∀ (agents : List Agent) (a : Agent), a ∈ l.foldl deptStep agents →
      a ∈ agents ∨ ∃ dept ∈ l, dept.level = 3 ∧ (a ∈ standaloneAgents dept ∨
        ∃ sub ∈ dept.children, sub.level = 4 ∧ ∃ d p, a ∈ subRoleAgents d p sub) := by
  induction l with
  | nil => intro agents a h; exact Or.inl h
  | cons s rest ih =>
    intro agents a h
    rw [List.foldl_cons] at h
    rcases ih _ a h with h1 | ⟨dept, hd, hrest⟩
    · rcases deptStep_mem _ _ a h1 with h2 | h2
      · exact Or.inl h2
      · exact Or.inr ⟨s, by simp, h2⟩
    · exact Or.inr ⟨dept, by simp [hd], hrest⟩

/-- Every record of `parseStructure` was made for a level-3 child of the section
by the standalone branch or for a level-4 child of such a child by the sub-role
branch. -/
theorem parseStructure_mem (sec : Section) (a : Agent) (h : a ∈ (parseStructure sec).1) :
    ∃ dept ∈ sec.children, dept.level = 3 ∧ (a ∈ standaloneAgents dept ∨
      ∃ sub ∈ dept.children, sub.level = 4 ∧ ∃ d p, a ∈ subRoleAgents d p sub) := by
  rcases foldl_deptStep_mem _ _ a h with h1 | h1
  · simp at h1
  · exact h1

theorem dispatchChild_agents (st : ParsedOrg × List Str) (c : Section) :
    (dispatchChild st c).1.Agents =
        (if structureChild c = true then (parseStructure c).1 else st.1.Agents) ∧
      (dispatchChild st c).1.Culture =
        (if cultureChild c = true then parseCulture c else st.1.Culture) := by
  cases h1 : strings.Contains (strings.ToLower c.heading) "culture".toList <;>
  cases h2 : strings.Contains (strings.ToLower c.heading) "structure".toList <;>
  cases h3 : strings.Contains (strings.ToLower c.heading) "policies".toList <;>
  cases h4 : strings.Contains (strings.ToLower c.heading) "policy".toList <;>
  simp only [dispatchChild, structureChild, cultureChild, h1, h2, h3, h4] <;> exact ⟨rfl, rfl⟩

theorem dispatchRoot_agents (st : ParsedOrg × List Str) (s : Section) :
    (dispatchRoot st s).1.Agents = st.1.Agents ∨
      (dispatchRoot st s).1.Agents = (parseStructure s).1 := by
  simp only [dispatchRoot]
  split
  · split
    · exact Or.inl rfl
    · split
      · exact Or.inr rfl
      · exact Or.inl rfl
  · exact Or.inl rfl

theorem foldl_dispatchChild_agents (l : List Section) :
    ∀ st : ParsedOrg × List Str,
      (l.foldl dispatchChild st).1.Agents =
        (match (l.filter structureChild).getLast? with
          | some c => (parseStructure c).1
          | none => st.1.Agents) ∧
      (l.foldl dispatchChild st).1.Culture =
        (match (l.filter cultureChild).getLast? with
          | some c => parseCulture c
          | none => st.1.Culture) := by
  induction l with
  | nil => intro _; exact ⟨rfl, rfl⟩
  | cons a rest ih =>
    intro st
    rw [List.foldl_cons]
    obtain ⟨i1, i2⟩ := ih (dispatchChild st a)
    obtain ⟨d1, d2⟩ := dispatchChild_agents st a
    rw [i1, i2, d1, d2]
    constructor
    · by_cases ha : structureChild a = true
      · simp only [List.filter_cons, ha, if_true]
        cases hr : (rest.filter structureChild) with
        | nil => simp
        | cons b more =>
          simp only [List.getLast?_cons_cons]
          have hl : (b :: more).getLast? = some ((b :: more).getLast (by simp)) :=
            List.getLast?_eq_getLast _ _
          rw [hl]
      · simp only [List.filter_cons, ha, if_false]
        simp
    · by_cases ha : cultureChild a = true
      · simp only [List.filter_cons, ha, if_true]
        cases hr : (rest.filter cultureChild) with
        | nil => simp
        | cons b more =>
          simp only [List.getLast?_cons_cons]
          have hl : (b :: more).getLast? = some ((b :: more).getLast (by simp)) :=
            List.getLast?_eq_getLast _ _
          rw [hl]
      · simp only [List.filter_cons, ha, if_false]
        simp

theorem finishParse_named (sections : List Section) (st : ParsedOrg × List Str)
    (h : st.1.Name ≠ []) : (finishParse sections st).1 = st.1 := by
  simp only [finishParse, h, if_false]
  split <;> rfl

theorem root_label_mem (f : List Section) (s : Section) (h : s ∈ f) :
    s.label ∈ preorder f := by
  induction f with
  | nil => simp at h
  | cons t rest ih =>
    simp only [List.mem_cons] at h
    simp only [preorder, List.mem_append]
    rcases h with rfl | h
    · left
      cases s with
      | mk hd l c cs => simp [preorderS, Section.label, Section.heading_mk, Section.level_mk,
          Section.content_mk]
    · exact Or.inr (ih h)

theorem headingOfLine_title_ne (lines : List Str) (k : Nat) (h : recognized lines k = true) :
    (headingOfLine (lines.getD k [])).1 ≠ [] := by
  simp only [recognized, Bool.and_eq_true] at h
  obtain ⟨m, hm⟩ := Option.isSome_iff_exists.mp h.2
  have hm2 : headingRegex (strings.TrimSpace (lines.getD k [])) = some m := hm
  have := (headingRegex_groups _ _ hm2).2.2
  simp only [headingOfLine, hm2]
  exact this

/-- A section of the tree has a title that is not empty. -/
theorem parseMarkdownSections_heading (source : Str) (s : Section)
    (h : s ∈ parseMarkdownSections source) : s.heading ≠ [] := by
  have h1 := root_label_mem _ s h
  have h2 : (s.label.1, s.label.2.1) ∈
      (preorder (parseMarkdownSections source)).map (fun l => (l.1, l.2.1)) :=
    List.mem_map.mpr ⟨s.label, h1, rfl⟩
  rw [preorder_titles] at h2
  obtain ⟨k, hk, he⟩ := List.mem_map.mp h2
  have h3 := headingOfLine_title_ne _ k (List.mem_filter.mp hk).2
  have h4 : (headingOfLine ((strings.SplitLines source).getD k [])).1 = s.heading := by
    rw [he]
    rfl
  rw [h4] at h3
  exact h3

/-- C11 as stated fails: the title has two children with "structure" in the
title, the last of them, "Culture and Structure", goes to the culture extractor,
and the roles returned are those of the first, not those of the last. -/
theorem structure_title_with_culture :
    parseMarkdownSections cultureStructureDoc =
      [Section.mk "T".toList 1 []
        [Section.mk "Structure".toList 2 [] [Section.mk "Boss".toList 3 [] []],
         Section.mk "Culture and Structure".toList 2 [] [Section.mk "Other".toList 3 [] []]]] ∧
    strings.Contains (strings.ToLower "Structure".toList) "structure".toList = true ∧
    strings.Contains (strings.ToLower "Culture and Structure".toList) "structure".toList = true ∧
    (Parse cultureStructureDoc).1.Agents ≠
      (parseStructure
        (Section.mk "Culture and Structure".toList 2 [] [Section.mk "Other".toList 3 [] []])).1 ∧
    (Parse cultureStructureDoc).1.Agents.map (fun a => a.Name) = ["Boss".toList] ∧
    (parseStructure
      (Section.mk "Culture and Structure".toList 2 [] [Section.mk "Other".toList 3 [] []])).1.map
        (fun a => a.Name) = ["Other".toList] :=
  ⟨rfl, by decide, by decide, by decide, by decide, by decide⟩

/-- C11 as amended. When the title section is `s`, the roles returned by `Parse`
are those of the last child of `s` whose lower-cased title holds "structure" and
not "culture", whatever earlier such children gave and even when the last gives
none; and the culture is that of the last child whose title holds "culture". -/
theorem Parse_duplicates (source : Str) (s : Section)
    (hs : (parseMarkdownSections source).find? (fun s => decide (s.level = 1)) = some s) :
    (∀ c, (s.children.filter structureChild).getLast? = some c →
      (Parse source).1.Agents = (parseStructure c).1) ∧
    (∀ c, (s.children.filter cultureChild).getLast? = some c →
      (Parse source).1.Culture = parseCulture c) := by
  have hne : s.heading ≠ [] :=
    parseMarkdownSections_heading source s (List.mem_of_find?_eq_some hs)
  have hn := (foldl_dispatchChild_errors s.children ({ emptyOrg with Name := s.heading }, [])).2
  have hf := foldl_dispatchChild_agents s.children ({ emptyOrg with Name := s.heading }, [])
  have hfin := finishParse_named (parseMarkdownSections source)
    (s.children.foldl dispatchChild ({ emptyOrg with Name := s.heading }, []))
    (by rw [hn]; exact hne)
  constructor
  · intro c hc
    simp only [Parse, hs, hfin, hf.1, hc]
  · intro c hc
    simp only [Parse, hs, hfin, hf.2, hc]

/-- C11 as amended, on a title with two structure sections and two culture
sections: the roles are those of "Team Structure" and the preset is "two". -/
theorem Parse_duplicates_witness :
    (Parse duplicatesDoc).1.Agents =
      (parseStructure
        (Section.mk "Team Structure".toList 2 [] [Section.mk "Other".toList 3 [] []])).1 ∧
    (Parse duplicatesDoc).1.Culture =
      parseCulture (Section.mk "Our Culture".toList 2 "- **Preset:** two".toList []) ∧
    (Parse duplicatesDoc).1.Agents.map (fun a => a.Name) = ["Other".toList] ∧
    (Parse duplicatesDoc).1.Culture.Preset = "two".toList :=
  ⟨(Parse_duplicates duplicatesDoc
      (Section.mk "T".toList 1 []
        [Section.mk "Culture".toList 2 "- **Preset:** one".toList [],
         Section.mk "Structure".toList 2 [] [Section.mk "Boss".toList 3 [] []],
         Section.mk "Team Structure".toList 2 [] [Section.mk "Other".toList 3 [] []],
         Section.mk "Our Culture".toList 2 "- **Preset:** two".toList []]) rfl).1 _ rfl,
    (Parse_duplicates duplicatesDoc
      (Section.mk "T".toList 1 []
        [Section.mk "Culture".toList 2 "- **Preset:** one".toList [],
         Section.mk "Structure".toList 2 [] [Section.mk "Boss".toList 3 [] []],
         Section.mk "Team Structure".toList 2 [] [Section.mk "Other".toList 3 [] []],
         Section.mk "Our Culture".toList 2 "- **Preset:** two".toList []]) rfl).2 _ rfl,
    by decide, by decide⟩

/-- C15 (concrete scenario). `Parse` of the seven-line document returns the name
"Acme", no error, and exactly the two roles "Boss" (level 10, role "executive",
no parent) and "Dev" (level 4, role "worker", parent id "boss"), in this order. -/
theorem Parse_scenario :
    scenarioDoc = ("# Acme\n## Structure\n### Boss — CEO\n- **Level:** 10\n### Eng\n" ++
      "#### Dev — Developer\n- **Reports to:** Boss").toList ∧
    (strings.SplitLines scenarioDoc).length = 7 ∧
    (Parse scenarioDoc).1.Name = "Acme".toList ∧
    (Parse scenarioDoc).2 = [] ∧
    (Parse scenarioDoc).1.Agents.map (fun a => (a.Name, a.Level, a.Role, a.ParentID)) =
      [("Boss".toList, 10, "executive".toList, []),
       ("Dev".toList, 4, "worker".toList, "boss".toList)] ∧
    makeID "Boss".toList = "boss".toList :=
  ⟨rfl, by decide, by decide, by decide, by decide, by decide⟩

/-- C14 (implicit department lead), the code at the failing input: the first
nested section of the department is a level-5 heading, which is skipped, so the
sub-role A at index 1 is not recorded as lead and the later sub-role B, which has
no reports-to annotation, gets the empty parent id instead of the id "a" of A;
the same happens when the first sub-role has the count 0. -/
theorem lead_lost_after_skipped_section :
    parseMarkdownSections leadSkippedDoc =
      [Section.mk "T".toList 1 []
        [Section.mk "Structure".toList 2 []
          [Section.mk "Eng".toList 3 []
            [Section.mk "Note".toList 5 [] [], Section.mk "A".toList 4 [] [],
             Section.mk "B".toList 4 [] []]]]] ∧
    (Parse leadSkippedDoc).1.Agents.map (fun a => (a.Name, a.ID, a.ParentID)) =
      [("A".toList, "a".toList, []), ("B".toList, "b".toList, [])] ∧
    (Parse countZeroLeadDoc).1.Agents.map (fun a => (a.Name, a.ID, a.ParentID)) =
      [("A".toList, "a".toList, []), ("B".toList, "b".toList, [])] :=
  ⟨rfl, by decide, by decide⟩

end orgparser

/-! ## Lemmas on names and slugs -/

namespace orgparser

theorem digitChar_value (k : Nat) (h : k < 10) :
    (Nat.digitChar k).toNat - 48 = k ∧ (Nat.digitChar k).isDigit = true := by
  interval_cases k <;> exact ⟨by decide, by decide⟩

theorem toDigitsCore_value (fuel : Nat) :
    ∀ (n : Nat) (acc : Str), n < fuel →
      (Nat.toDigitsCore 10 fuel n acc).foldl (fun a c => 10 * a + (c.toNat - 48)) 0 =
        acc.foldl (fun a c => 10 * a + (c.toNat - 48)) n := by
  induction fuel with
  | zero => intro n acc h; omega
  | succ fuel ih =>
    intro n acc h
    have hd := (digitChar_value (n % 10) (Nat.mod_lt _ (by decide))).1
    by_cases h0 : n / 10 = 0
    · simp only [Nat.toDigitsCore, h0, if_true, List.foldl_cons, hd, Nat.mul_zero, Nat.zero_add]
      have : n % 10 = n := Nat.mod_eq_of_lt (by omega)
      rw [this]
    · simp only [Nat.toDigitsCore, h0, if_false]
      rw [ih (n / 10) (Nat.digitChar (n % 10) :: acc) (by omega), List.foldl_cons, hd]
      have : 10 * (n / 10) + n % 10 = n := Nat.div_add_mod n 10
      rw [this]

/-- Reading the decimal form of a number gives the number back. -/
theorem digitsValue_decimal (n : Nat) : strconv.digitsValue (decimal n) = n := by
  simp only [strconv.digitsValue, decimal, Nat.toDigits]
  rw [toDigitsCore_value (n + 1) n [] (by omega)]
  rfl

theorem decimal_injective (i j : Nat) (h : decimal i = decimal j) : i = j := by
  have := congrArg strconv.digitsValue h
  rwa [digitsValue_decimal, digitsValue_decimal] at this

theorem toDigitsCore_digits (fuel : Nat) :
    ∀ (n : Nat) (acc : Str), (∀ c ∈ acc, c.isDigit = true) →
      ∀ c ∈ Nat.toDigitsCore 10 fuel n acc, c.isDigit = true := by
  induction fuel with
  | zero => intro n acc h c hc; exact h c hc
  | succ fuel ih =>
    intro n acc h c hc
    have hd := (digitChar_value (n % 10) (Nat.mod_lt _ (by decide))).2
    have hacc : ∀ c ∈ Nat.digitChar (n % 10) :: acc, c.isDigit = true := by
      intro x hx
      simp only [List.mem_cons] at hx
      rcases hx with rfl | hx
      · exact hd
      · exact h x hx
    simp only [Nat.toDigitsCore] at hc
    split at hc
    · exact hacc c hc
    · exact ih _ _ hacc c hc

theorem toDigitsCore_ne_nil (fuel n : Nat) (acc : Str) (h : acc ≠ []) :
    Nat.toDigitsCore 10 fuel n acc ≠ [] := by
  induction fuel generalizing n acc with
  | zero => exact h
  | succ fuel ih =>
    simp only [Nat.toDigitsCore]
    split
    · simp
    · exact ih _ _ (by simp)

theorem decimal_digits (n : Nat) : (∀ c ∈ decimal n, c.isDigit = true) ∧ decimal n ≠ [] := by
  constructor
  · exact toDigitsCore_digits _ _ _ (by simp)
  · simp only [decimal, Nat.toDigits, Nat.toDigitsCore]
    split
    · simp
    · exact toDigitsCore_ne_nil _ _ _ (by simp)

theorem isDigit_range (c : Char) (h : c.isDigit = true) : 48 ≤ c.toNat ∧ c.toNat ≤ 57 := by
  simp only [Char.isDigit, Bool.and_eq_true, decide_eq_true_eq] at h
  exact ⟨h.1, h.2⟩

theorem unicode_ToLower_digit (c : Char) (h : c.isDigit = true) : unicode.ToLower c = c := by
  have hr := isDigit_range c h
  unfold unicode.ToLower
  have h1 : ¬ (65 ≤ c.toNat ∧ c.toNat ≤ 90) := by omega
  have h2 : ¬ c.toNat = 0x130 := by omega
  have h3 : ¬ c.toNat = 0x212A := by omega
  simp only [h1, h2, h3, if_false]

theorem ToLower_digits (ds : Str) (h : ∀ c ∈ ds, c.isDigit = true) : strings.ToLower ds = ds := by
  induction ds with
  | nil => rfl
  | cons c cs ih =>
    simp only [strings.ToLower, List.map_cons] at ih ⊢
    rw [unicode_ToLower_digit c (h c (by simp)), ih (fun x hx => h x (by simp [hx]))]

theorem replaceRuns_alnum (ds : Str) (h : ∀ c ∈ ds, isLowerAlnum c = true) :
    ∀ b, replaceRuns b ds = ds := by
  induction ds with
  | nil => intro b; rfl
  | cons c cs ih =>
    intro b
    simp only [replaceRuns, h c (by simp), if_true, ih (fun x hx => h x (by simp [hx]))]

theorem replaceRuns_append (x : Str) (c : Char) (ds : Str) (hc : isLowerAlnum c = false)
    (h : ∀ d ∈ ds, isLowerAlnum d = true) :
    ∀ b, replaceRuns b (x ++ c :: ds) = replaceRuns b (x ++ [c]) ++ ds := by
  induction x with
  | nil =>
    intro b
    cases b <;>
      simp [replaceRuns, hc, replaceRuns_alnum ds h]
  | cons y ys ih =>
    intro b
    simp only [List.cons_append, replaceRuns, List.append_eq]
    split
    · rw [ih]; rfl
    · split
      · rw [ih]
      · rw [ih]; rfl

theorem TrimDash_append (r ds : Str) (hne : ds ≠ []) (h : ∀ d ∈ ds, d.isDigit = true) :
    strings.TrimDash (r ++ ds) = r.dropWhile (fun c => c == '-') ++ ds := by
  have hnd : ∀ d ∈ ds, (d == '-') = false := by
    intro d hd
    have := isDigit_range d (h d hd)
    have hne2 : d ≠ '-' := by
      rintro rfl
      exact absurd this (by decide)
    simpa using hne2
  obtain ⟨d0, rest, hds⟩ := List.exists_cons_of_ne_nil hne
  have hfront : (r ++ ds).dropWhile (fun c => c == '-') =
      r.dropWhile (fun c => c == '-') ++ ds := by
    rw [List.dropWhile_append]
    split
    · rename_i he
      rw [List.isEmpty_iff] at he
      rw [he, hds, List.dropWhile_cons_of_neg (by simp [hnd d0 (by simp [hds])])]
      rfl
    · rfl
  have hrevne : ds.reverse ≠ [] := by simpa using hne
  obtain ⟨e0, more, hrev⟩ := List.exists_cons_of_ne_nil hrevne
  have he0 : e0 ∈ ds := by
    have : e0 ∈ ds.reverse := by rw [hrev]; simp
    simpa using this
  simp only [strings.TrimDash, hfront, List.reverse_append, hrev, List.cons_append]
  rw [List.dropWhile_cons_of_neg (by simp [hnd e0 he0])]
  have : e0 :: (more ++ (r.dropWhile (fun c => c == '-')).reverse) =
      (r.dropWhile (fun c => c == '-') ++ ds).reverse := by
    rw [List.reverse_append, hrev]
    rfl
  rw [this, List.reverse_reverse]

/-- The slug of a name followed by a blank and a decimal number: a text that
depends on the name alone, followed by the number. -/
theorem makeID_suffixed (name : Str) (n : Nat) :
    makeID (name ++ ' ' :: decimal n) =
      (replaceRuns false (strings.ToLower name ++ [' '])).dropWhile (fun c => c == '-') ++
        decimal n := by
  obtain ⟨hd, hne⟩ := decimal_digits n
  have hal : ∀ d ∈ decimal n, isLowerAlnum d = true := by
    intro d h
    simp [isLowerAlnum, hd d h]
  have hlow : strings.ToLower (name ++ ' ' :: decimal n) =
      strings.ToLower name ++ ' ' :: decimal n := by
    have h1 := ToLower_digits (decimal n) hd
    simp only [strings.ToLower, List.map_append, List.map_cons] at h1 ⊢
    rw [h1]
    rfl
  rw [makeID, hlow, replaceRuns_append _ ' ' _ (by decide) hal, TrimDash_append _ _ hne hd]

theorem makeID_suffixed_injective (name : Str) (i j : Nat)
    (h : makeID (name ++ ' ' :: decimal i) = makeID (name ++ ' ' :: decimal j)) : i = j := by
  rw [makeID_suffixed, makeID_suffixed] at h
  exact decimal_injective _ _ (List.append_cancel_left h)

end orgparser

/-! ## Theorems on the structure extractor -/

namespace orgparser

theorem Expanded_map (name : Str) (n : Int) (h : 1 < n) (f : Nat → Agent)
    (hN : ∀ i, (f i).Name = agentNameOf name n i)
    (hI : ∀ i, (f i).ID = makeID (agentNameOf name n i)) :
    Expanded name n.toNat ((List.range n.toNat).map f) := by
  have hname : ∀ i, agentNameOf name n i = name ++ ' ' :: decimal (i + 1) := by
    intro i
    simp only [agentNameOf, gt_iff_lt, h, if_true]
  refine ⟨?_, ?_, ?_⟩
  · rw [List.map_map]
    apply List.map_congr_left
    intro i _
    simp only [Function.comp, hN, hname]
  · intro a ha
    obtain ⟨i, _, rfl⟩ := List.mem_map.mp ha
    rw [hI, hN]
  · rw [List.map_map]
    apply List.Nodup.map_on _ (List.nodup_range _)
    intro i _ j _ hij
    simp only [Function.comp, hI, hname] at hij
    have := makeID_suffixed_injective name (i + 1) (j + 1) hij
    omega

theorem countOf_parsed (m : Meta) (c : Str) (n : Int)
    (hc : metaGet? m "count".toList = some c)
    (hn : strconv.Atoi (strings.TrimSpace c) = (n, true)) : countOf m = n := by
  simp only [countOf, hc, hn, if_true]

theorem countOf_absent (m : Meta) (hc : metaGet? m "count".toList = none) : countOf m = 1 := by
  simp only [countOf, hc]

theorem standaloneAgents_expanded (s : Section) (n : Int) (h : 1 < n)
    (hc : countOf (extractMeta s.content) = n) :
    ((standaloneAgents s).length : Int) = n ∧
      Expanded (nameFromHeading s.heading) n.toNat (standaloneAgents s) := by
  constructor
  · simp only [standaloneAgents, hc, List.length_map, List.length_range]
    omega
  · have := Expanded_map (nameFromHeading s.heading) n h
      (fun i =>
        { ID := makeID (agentNameOf (nameFromHeading s.heading) n i)
          Name := agentNameOf (nameFromHeading s.heading) n i
          Role := inferRole s.heading
          Level := inferLevel s.heading (extractMeta s.content)
          Domain := if metaGet (extractMeta s.content) "domain".toList = [] then
              nameFromHeading s.heading
            else metaGet (extractMeta s.content) "domain".toList
          Avatar := metaGet (extractMeta s.content) "avatar".toList
          ParentID := []
          ReportsTo := metaGet (extractMeta s.content) "reports to".toList
          Count := 1 })
      (fun _ => rfl) (fun _ => rfl)
    simpa only [standaloneAgents, hc] using this

theorem subRoleAgents_expanded (domain parentID : Str) (s : Section) (n : Int) (h : 1 < n)
    (hc : countOf (extractMeta s.content) = n) :
    ((subRoleAgents domain parentID s).length : Int) = n ∧
      Expanded (nameFromHeading s.heading) n.toNat (subRoleAgents domain parentID s) := by
  constructor
  · simp only [subRoleAgents, hc, List.length_map, List.length_range]
    omega
  · have := Expanded_map (nameFromHeading s.heading) n h
      (fun i =>
        { ID := makeID (agentNameOf (nameFromHeading s.heading) n i)
          Name := agentNameOf (nameFromHeading s.heading) n i
          Role := inferRole s.heading
          Level := inferLevel s.heading (extractMeta s.content)
          Domain := if metaGet (extractMeta s.content) "domain".toList = [] then domain
            else metaGet (extractMeta s.content) "domain".toList
          Avatar := metaGet (extractMeta s.content) "avatar".toList
          ParentID := parentID
          ReportsTo := metaGet (extractMeta s.content) "reports to".toList
          Count := 1 })
      (fun _ => rfl) (fun _ => rfl)
    simpa only [subRoleAgents, hc] using this

theorem agentNameOf_one (name : Str) (i : Nat) : agentNameOf name 1 i = name := by
  simp [agentNameOf]

theorem standaloneAgents_single (s : Section) (hc : countOf (extractMeta s.content) = 1) :
    ∃ a, standaloneAgents s = [a] ∧ a.Name = nameFromHeading s.heading ∧
      a.ID = makeID a.Name := by
  have hl : standaloneAgents s = (List.range 1).map (fun i =>
      ({ ID := makeID (agentNameOf (nameFromHeading s.heading) 1 i)
         Name := agentNameOf (nameFromHeading s.heading) 1 i
         Role := inferRole s.heading
         Level := inferLevel s.heading (extractMeta s.content)
         Domain := if metaGet (extractMeta s.content) "domain".toList = [] then
             nameFromHeading s.heading
           else metaGet (extractMeta s.content) "domain".toList
         Avatar := metaGet (extractMeta s.content) "avatar".toList
         ParentID := []
         ReportsTo := metaGet (extractMeta s.content) "reports to".toList
         Count := 1 } : Agent)) := by
    simp only [standaloneAgents, hc]
    rfl
  rw [hl]
  exact ⟨_, rfl, agentNameOf_one _ 0, rfl⟩

theorem subRoleAgents_single (domain parentID : Str) (s : Section)
    (hc : countOf (extractMeta s.content) = 1) :
    ∃ a, subRoleAgents domain parentID s = [a] ∧ a.Name = nameFromHeading s.heading ∧
      a.ID = makeID a.Name ∧ a.ParentID = parentID := by
  have hl : subRoleAgents domain parentID s = (List.range 1).map (fun i =>
      ({ ID := makeID (agentNameOf (nameFromHeading s.heading) 1 i)
         Name := agentNameOf (nameFromHeading s.heading) 1 i
         Role := inferRole s.heading
         Level := inferLevel s.heading (extractMeta s.content)
         Domain := if metaGet (extractMeta s.content) "domain".toList = [] then domain
           else metaGet (extractMeta s.content) "domain".toList
         Avatar := metaGet (extractMeta s.content) "avatar".toList
         ParentID := parentID
         ReportsTo := metaGet (extractMeta s.content) "reports to".toList
         Count := 1 } : Agent)) := by
    simp only [subRoleAgents, hc]
    rfl
  rw [hl]
  exact ⟨_, rfl, agentNameOf_one _ 0, rfl, rfl⟩

/-- C12 as stated fails: the department "Eng" has a count annotation that parses
to 3, but it has a sub-role, so the sub-role branch processes it and its count is
not read; `Parse` returns the single record "A" and no record "Eng 1". -/
theorem counted_department_with_subrole :
    parseMarkdownSections countedDeptDoc =
      [Section.mk "T".toList 1 []
        [Section.mk "Structure".toList 2 []
          [Section.mk "Eng".toList 3 "- **Count:** 3".toList
            [Section.mk "A".toList 4 [] []]]]] ∧
    nameFromHeading "Eng".toList = "Eng".toList ∧
    metaGet? (extractMeta "- **Count:** 3".toList) "count".toList = some "3".toList ∧
    strconv.Atoi (strings.TrimSpace "3".toList) = (3, true) ∧
    (Parse countedDeptDoc).1.Agents.map (fun a => a.Name) = ["A".toList] ∧
    (parseStructure
      (Section.mk "Structure".toList 2 []
        [Section.mk "Eng".toList 3 "- **Count:** 3".toList
          [Section.mk "A".toList 4 [] []]])).1.map (fun a => a.Name) = ["A".toList] :=
  ⟨rfl, by decide, by decide, by decide, by decide, by decide⟩

/-- C12 as amended. For a section named N whose count annotation parses to an
integer `n > 1`: when it is a department processed by the standalone branch, or a
level-4 sub-section processed by the sub-role branch, the step of
`parseStructure` appends exactly `n` records, named "N 1", ..., "N n" in this
order, each id being the slug of its name and the ids pairwise distinct; with no
count annotation it appends exactly one record, named N. -/
theorem count_expansion (s : Section) :
    (∀ (c : Str) (n : Int), metaGet? (extractMeta s.content) "count".toList = some c →
      strconv.Atoi (strings.TrimSpace c) = (n, true) → 1 < n →
      (standaloneDept s → ∀ agents, ∃ recs, deptStep agents s = agents ++ recs ∧
        (recs.length : Int) = n ∧ Expanded (nameFromHeading s.heading) n.toNat recs) ∧
      (s.level = 4 → ∀ domain st ri, ∃ recs, (subRoleStep domain st ri s).1 = st.1 ++ recs ∧
        (recs.length : Int) = n ∧ Expanded (nameFromHeading s.heading) n.toNat recs)) ∧
    (metaGet? (extractMeta s.content) "count".toList = none →
      (standaloneDept s → ∀ agents, ∃ a, deptStep agents s = agents ++ [a] ∧
        a.Name = nameFromHeading s.heading ∧ a.ID = makeID a.Name) ∧
      (s.level = 4 → ∀ domain st ri, ∃ a, (subRoleStep domain st ri s).1 = st.1 ++ [a] ∧
        a.Name = nameFromHeading s.heading ∧ a.ID = makeID a.Name)) := by
  constructor
  · intro c n hc hn h1
    have hcount := countOf_parsed _ c n hc hn
    constructor
    · intro hs agents
      obtain ⟨e1, e2⟩ := standaloneAgents_expanded s n h1 hcount
      exact ⟨_, deptStep_standalone agents s hs, e1, e2⟩
    · intro h4 domain st ri
      obtain ⟨e1, e2⟩ := subRoleAgents_expanded domain (subParent st.2 ri s) s n h1 hcount
      exact ⟨_, by rw [subRoleStep_eq _ _ _ _ h4], e1, e2⟩
  · intro hc
    have hcount := countOf_absent _ hc
    constructor
    · intro hs agents
      obtain ⟨a, e1, e2, e3⟩ := standaloneAgents_single s hcount
      exact ⟨a, by rw [deptStep_standalone agents s hs, e1], e2, e3⟩
    · intro h4 domain st ri
      obtain ⟨a, e1, e2, e3, _⟩ := subRoleAgents_single domain (subParent st.2 ri s) s hcount
      exact ⟨a, by rw [subRoleStep_eq _ _ _ _ h4, e1], e2, e3⟩

/-- C12 as amended, on a standalone department with the count 3: three records
"Devs 1", "Devs 2", "Devs 3" with the ids "devs-1", "devs-2", "devs-3". -/
theorem count_expansion_witness :
    (∃ recs, deptStep [] (Section.mk "Devs".toList 3 "- **Count:** 3".toList []) = [] ++ recs ∧
      (recs.length : Int) = 3 ∧ Expanded (nameFromHeading "Devs".toList) (3 : Int).toNat recs) ∧
    (Parse countThreeDoc).1.Agents.map (fun a => (a.Name, a.ID)) =
      [("Devs 1".toList, "devs-1".toList), ("Devs 2".toList, "devs-2".toList),
       ("Devs 3".toList, "devs-3".toList)] :=
  ⟨((count_expansion (Section.mk "Devs".toList 3 "- **Count:** 3".toList [])).1
      "3".toList 3 (by decide) (by decide) (by decide)).1 ⟨rfl, Or.inr rfl⟩ [],
    by decide⟩

theorem standaloneAgents_mem (s : Section) (a : Agent) (h : a ∈ standaloneAgents s) :
    ∃ i, a.Name = agentNameOf (nameFromHeading s.heading) (countOf (extractMeta s.content)) i ∧
      a.ID = makeID a.Name ∧ a.Role = inferRole s.heading ∧
      a.Level = inferLevel s.heading (extractMeta s.content) ∧ a.ParentID = [] ∧
      a.ReportsTo = metaGet (extractMeta s.content) "reports to".toList := by
  simp only [standaloneAgents] at h
  obtain ⟨i, _, rfl⟩ := List.mem_map.mp h
  exact ⟨i, rfl, rfl, rfl, rfl, rfl, rfl⟩

theorem subRoleAgents_mem (domain parentID : Str) (s : Section) (a : Agent)
    (h : a ∈ subRoleAgents domain parentID s) :
    ∃ i, a.Name = agentNameOf (nameFromHeading s.heading) (countOf (extractMeta s.content)) i ∧
      a.ID = makeID a.Name ∧ a.Role = inferRole s.heading ∧
      a.Level = inferLevel s.heading (extractMeta s.content) ∧ a.ParentID = parentID ∧
      a.ReportsTo = metaGet (extractMeta s.content) "reports to".toList := by
  simp only [subRoleAgents] at h
  obtain ⟨i, _, rfl⟩ := List.mem_map.mp h
  exact ⟨i, rfl, rfl, rfl, rfl, rfl, rfl⟩

theorem standaloneAgents_children (h : Str) (l : Int) (c : Str) (cs cs2 : List Section) :
    standaloneAgents (Section.mk h l c cs) = standaloneAgents (Section.mk h l c cs2) := rfl

/-- C16 (standalone branch). For a level-3 child of the structure section whose
rank is at least 10 or that has no nested section, the step of `parseStructure`
appends the records of the standalone branch; each carries the department's own
name, with the suffix of its index when the count is above 1, has an empty
parent id and the department's reports-to annotation; and when the rank is at
least 10 the records are the same whatever sections are nested in it. -/
theorem standalone_branch (dept : Section) (agents : List Agent) (h : standaloneDept dept) :
    deptStep agents dept = agents ++ standaloneAgents dept ∧
    (∀ a ∈ standaloneAgents dept,
      (∃ i, a.Name =
        (if countOf (extractMeta dept.content) > 1 then
          nameFromHeading dept.heading ++ ' ' :: decimal (i + 1)
         else nameFromHeading dept.heading)) ∧
      a.ParentID = [] ∧
      a.ReportsTo = metaGet (extractMeta dept.content) "reports to".toList) ∧
    (inferLevel dept.heading (extractMeta dept.content) ≥ 10 →
      ∀ cs : List Section,
        deptStep agents (Section.mk dept.heading dept.level dept.content cs) =
          agents ++ standaloneAgents dept) := by
  refine ⟨deptStep_standalone agents dept h, ?_, ?_⟩
  · intro a ha
    obtain ⟨i, h1, _, _, _, h5, h6⟩ := standaloneAgents_mem dept a ha
    exact ⟨⟨i, h1⟩, h5, h6⟩
  · intro hr cs
    have hs : standaloneDept (Section.mk dept.heading dept.level dept.content cs) :=
      ⟨h.1, Or.inl hr⟩
    rw [deptStep_standalone agents _ hs]
    cases dept with
    | mk hd l c cs0 => rfl

/-- C16 on the chief of the scenario with a nested section added: one record
"Boss" without parent, and the nested section gives no record. -/
theorem standalone_branch_witness :
    deptStep [] (Section.mk "Boss — CEO".toList 3 "- **Level:** 10".toList
        [Section.mk "Aide".toList 4 [] []]) =
      [] ++ standaloneAgents (Section.mk "Boss — CEO".toList 3 "- **Level:** 10".toList
        [Section.mk "Aide".toList 4 [] []]) ∧
    (standaloneAgents (Section.mk "Boss — CEO".toList 3 "- **Level:** 10".toList
        [Section.mk "Aide".toList 4 [] []])).map (fun a => (a.Name, a.ParentID)) =
      [("Boss".toList, [])] :=
  ⟨(standalone_branch (Section.mk "Boss — CEO".toList 3 "- **Level:** 10".toList
      [Section.mk "Aide".toList 4 [] []]) [] ⟨rfl, Or.inl (by decide)⟩).1, by decide⟩

theorem metaGet_of_none (m : Meta) (k : Str) (h : metaGet? m k = none) : metaGet m k = [] := by
  simp [metaGet, h]

theorem metaGet_of_some (m : Meta) (k v : Str) (h : metaGet? m k = some v) :
    metaGet m k = v := by
  simp [metaGet, h]

/-- C13 (parent resolution, three sub-roles). For a level-3 department of rank
below 10 whose nested sections are the level-4 sections A, B and C in this order,
none with a count annotation, A and B without reports-to annotation and C with
the reports-to annotation naming A, the step of `parseStructure` appends three
records for A, B and C: A has no parent, and the parent id of B and of C is the
id of A. -/
theorem three_subroles (agents : List Agent) (heading content : Str) (A B C : Section)
    (hrank : inferLevel heading (extractMeta content) < 10)
    (hA : A.level = 4) (hB : B.level = 4) (hC : C.level = 4)
    (cA : metaGet? (extractMeta A.content) "count".toList = none)
    (cB : metaGet? (extractMeta B.content) "count".toList = none)
    (cC : metaGet? (extractMeta C.content) "count".toList = none)
    (rA : metaGet? (extractMeta A.content) "reports to".toList = none)
    (rB : metaGet? (extractMeta B.content) "reports to".toList = none)
    (rC : metaGet? (extractMeta C.content) "reports to".toList =
      some (nameFromHeading A.heading)) :
    ∃ ra rb rc : Agent,
      deptStep agents (Section.mk heading 3 content [A, B, C]) = agents ++ [ra, rb, rc] ∧
      ra.Name = nameFromHeading A.heading ∧ rb.Name = nameFromHeading B.heading ∧
      rc.Name = nameFromHeading C.heading ∧
      ra.ParentID = [] ∧ rb.ParentID = ra.ID ∧ rc.ParentID = ra.ID := by
  have kA := countOf_absent _ cA
  have kB := countOf_absent _ cB
  have kC := countOf_absent _ cC
  have mA := metaGet_of_none _ _ rA
  have mB := metaGet_of_none _ _ rB
  have mC := metaGet_of_some _ _ _ rC
  have hstep := deptStep_subRoles agents (Section.mk heading 3 content [A, B, C]) rfl
    (by simpa only [Section.heading_mk, Section.content_mk] using hrank)
    (by simp [Section.children_mk])
  simp only [Section.children_mk, subRoleLoop, subRoleStep_eq _ _ _ _ hA,
    subRoleStep_eq _ _ _ _ hB, subRoleStep_eq _ _ _ _ hC, kA, kB, kC] at hstep
  have pA : subParent [] 0 A = [] := by
    simp only [subParent, mA, ne_eq, not_true_eq_false, if_false, if_true]
  obtain ⟨ra, ea, na, ia, para⟩ := subRoleAgents_single
    (if metaGet (extractMeta (Section.mk heading 3 content [A, B, C]).content) "domain".toList = []
      then nameFromHeading (Section.mk heading 3 content [A, B, C]).heading
      else metaGet (extractMeta (Section.mk heading 3 content [A, B, C]).content) "domain".toList)
    (subParent [] 0 A) A kA
  have hlead : makeID (agentNameOf (nameFromHeading A.heading) 1 0) = ra.ID := by
    rw [agentNameOf_one, ia, na]
  have pB : subParent ra.ID 1 B = ra.ID := by
    simp only [subParent, mB, ne_eq, not_true_eq_false, if_false, Nat.one_ne_zero]
  have pC : subParent ra.ID 2 C = ra.ID := by
    simp only [subParent, mC]
    by_cases hn : nameFromHeading A.heading = []
    · simp [hn]
    · simp only [ne_eq, hn, not_false_eq_true, if_true]
      rw [ia, na]
  simp only [Nat.zero_add, true_and, Nat.lt_one_iff, zero_lt_one, and_self, if_true,
    Nat.one_ne_zero, false_and, if_false, hlead, pB, pC, OfNat.ofNat_ne_zero,
    Nat.reduceAdd] at hstep
  obtain ⟨rb, eb, nb, _, ib⟩ := subRoleAgents_single
    (if metaGet (extractMeta (Section.mk heading 3 content [A, B, C]).content) "domain".toList = []
      then nameFromHeading (Section.mk heading 3 content [A, B, C]).heading
      else metaGet (extractMeta (Section.mk heading 3 content [A, B, C]).content) "domain".toList)
    ra.ID B kB
  obtain ⟨rc, ec, nc, _, ic⟩ := subRoleAgents_single
    (if metaGet (extractMeta (Section.mk heading 3 content [A, B, C]).content) "domain".toList = []
      then nameFromHeading (Section.mk heading 3 content [A, B, C]).heading
      else metaGet (extractMeta (Section.mk heading 3 content [A, B, C]).content) "domain".toList)
    ra.ID C kC
  rw [ea, eb, ec] at hstep
  refine ⟨ra, rb, rc, ?_, na, nb, nc, ?_, ib, ic⟩
  · rw [hstep]
    simp
  · rw [para, pA]

/-- C13 on the department "Eng" with the sub-roles A, B and C, where C reports to
A: the parent ids are empty, "a" and "a". -/
theorem three_subroles_witness :
    (∃ ra rb rc : Agent,
      deptStep [] (Section.mk "Eng".toList 3 []
        [Section.mk "A".toList 4 [] [], Section.mk "B".toList 4 [] [],
         Section.mk "C".toList 4 "- **Reports to:** A".toList []]) = [] ++ [ra, rb, rc] ∧
      ra.Name = nameFromHeading (Section.mk "A".toList 4 [] []).heading ∧
      rb.Name = nameFromHeading (Section.mk "B".toList 4 [] []).heading ∧
      rc.Name =
        nameFromHeading (Section.mk "C".toList 4 "- **Reports to:** A".toList []).heading ∧
      ra.ParentID = [] ∧ rb.ParentID = ra.ID ∧ rc.ParentID = ra.ID) ∧
    (Parse threeSubRolesDoc).1.Agents.map (fun a => (a.Name, a.ID, a.ParentID)) =
      [("A".toList, "a".toList, []), ("B".toList, "b".toList, "a".toList),
       ("C".toList, "c".toList, "a".toList)] :=
  ⟨three_subroles [] "Eng".toList [] (Section.mk "A".toList 4 [] [])
      (Section.mk "B".toList 4 [] []) (Section.mk "C".toList 4 "- **Reports to:** A".toList [])
      (by decide) rfl rfl rfl (by decide) (by decide) (by decide) (by decide) (by decide)
      (by decide),
    by decide⟩

theorem dispatchChild_from (st : ParsedOrg × List Str) (c : Section) (h : AgentsFrom st) :
    AgentsFrom (dispatchChild st c) := by
  unfold AgentsFrom
  rw [(dispatchChild_agents st c).1]
  split
  · exact Or.inr ⟨c, rfl⟩
  · exact h

theorem dispatchRoot_from (st : ParsedOrg × List Str) (s : Section) (h : AgentsFrom st) :
    AgentsFrom (dispatchRoot st s) := by
  unfold AgentsFrom
  rcases dispatchRoot_agents st s with h1 | h1
  · rw [h1]; exact h
  · exact Or.inr ⟨s, h1⟩

theorem foldl_from (step : ParsedOrg × List Str → Section → ParsedOrg × List Str)
    (hstep : ∀ st c, AgentsFrom st → AgentsFrom (step st c)) (l : List Section) :
    ∀ st, AgentsFrom st → AgentsFrom (l.foldl step st) := by
  induction l with
  | nil => intro st h; exact h
  | cons a rest ih => intro st h; exact ih _ (hstep st a h)

theorem finishParse_from (sections : List Section) (st : ParsedOrg × List Str)
    (h : AgentsFrom st) : AgentsFrom (finishParse sections st) := by
  have h2 : AgentsFrom (if st.1.Name = [] then sections.foldl dispatchRoot st else st) := by
    split
    · exact foldl_from dispatchRoot dispatchRoot_from sections st h
    · exact h
  have h3 : ∀ st2 : ParsedOrg × List Str, AgentsFrom st2 →
      AgentsFrom
        (if st2.1.Agents.length = 0 then (st2.1, st2.2 ++ [noAgentsError]) else st2) := by
    intro st2 hst2
    split
    · exact hst2
    · exact hst2
  exact h3 _ h2

/-- The roles `Parse` returns are none or those `parseStructure` extracted from a
section. -/
theorem Parse_from (source : Str) : AgentsFrom (Parse source) := by
  simp only [Parse]
  apply finishParse_from
  split
  · exact foldl_from dispatchChild dispatchChild_from _ _ (Or.inl rfl)
  · exact Or.inl rfl

/-- C20 (id is the slug of the display name). Every role record in the sequence
returned by `Parse` has `ID = makeID Name`. -/
theorem Parse_id_is_slug (source : Str) (a : Agent) (h : a ∈ (Parse source).1.Agents) :
    a.ID = makeID a.Name := by
  rcases Parse_from source with h0 | ⟨sec, hsec⟩
  · rw [h0] at h
    simp at h
  · rw [hsec] at h
    obtain ⟨dept, _, _, hd | ⟨sub, _, _, d, p, hp⟩⟩ := parseStructure_mem sec a h
    · obtain ⟨_, _, h2, _⟩ := standaloneAgents_mem dept a hd
      exact h2
    · obtain ⟨_, _, h2, _⟩ := subRoleAgents_mem d p sub a hp
      exact h2

/-- C20 on the test document: its three records, one of the standalone branch
and two of the sub-role branch, have the slug of their name as id. -/
theorem Parse_id_is_slug_witness :
    (Parse testOrg).1.Agents.map (fun a => (a.ID, a.Name)) =
      [("boss".toList, "Boss".toList), ("lead".toList, "Lead".toList),
       ("worker".toList, "Worker".toList)] ∧
    ∀ a ∈ (Parse testOrg).1.Agents, a.ID = makeID a.Name :=
  ⟨by decide, fun a h => Parse_id_is_slug testOrg a h⟩

theorem inferLevel_explicit (h : Str) (m : Meta) (v : Str) (n : Int)
    (hv : metaGet? m "level".toList = some v)
    (hn : strconv.Atoi (strings.TrimSpace v) = (n, true)) : inferLevel h m = n := by
  simp only [inferLevel, hv, hn, if_true]

/-- C19 (explicit level overrides the rank only). Every record of
`parseStructure` was made for a section `s`, a child of the structure section or a
child of such a child, whose name it carries; its role is `inferRole` of the
heading of `s`, whatever the annotations of `s` are, and its level is `inferLevel`
of the heading and the annotations of `s`, which is `n` whenever the level
annotation parses as the integer `n`, whatever keywords the heading holds. -/
theorem level_and_role (sec : Section) :
    (∀ a ∈ (parseStructure sec).1, ∃ s : Section,
      (s ∈ sec.children ∨ ∃ d ∈ sec.children, s ∈ d.children) ∧
      (∃ i, a.Name =
        agentNameOf (nameFromHeading s.heading) (countOf (extractMeta s.content)) i) ∧
      a.Role = inferRole s.heading ∧
      a.Level = inferLevel s.heading (extractMeta s.content) ∧
      ∀ (v : Str) (n : Int), metaGet? (extractMeta s.content) "level".toList = some v →
        strconv.Atoi (strings.TrimSpace v) = (n, true) → a.Level = n) ∧
    (∀ (h : Str) (m : Meta) (v : Str) (n : Int), metaGet? m "level".toList = some v →
      strconv.Atoi (strings.TrimSpace v) = (n, true) → inferLevel h m = n) := by
  refine ⟨?_, inferLevel_explicit⟩
  intro a ha
  obtain ⟨dept, hdept, _, hd | ⟨sub, hsub, _, d, p, hp⟩⟩ := parseStructure_mem sec a ha
  · obtain ⟨i, h1, _, h3, h4, _⟩ := standaloneAgents_mem dept a hd
    exact ⟨dept, Or.inl hdept, ⟨i, h1⟩, h3, h4,
      fun v n hv hn => by rw [h4]; exact inferLevel_explicit _ _ v n hv hn⟩
  · obtain ⟨i, h1, _, h3, h4, _⟩ := subRoleAgents_mem d p sub a hp
    exact ⟨sub, Or.inr ⟨dept, hdept, hsub⟩, ⟨i, h1⟩, h3, h4,
      fun v n hv hn => by rw [h4]; exact inferLevel_explicit _ _ v n hv hn⟩

/-- C19 on the heading "Boss — CEO" with the level annotation 3: the level is 3
and the role is "executive". -/
theorem level_and_role_witness :
    inferLevel "Boss — CEO".toList (extractMeta "- **Level:** 3".toList) = 3 ∧
    inferRole "Boss — CEO".toList = "executive".toList ∧
    (Parse levelThreeDoc).1.Agents.map (fun a => (a.Name, a.Level, a.Role)) =
      [("Boss".toList, 3, "executive".toList)] ∧
    ∃ s : Section,
      (s ∈ (Section.mk "Structure".toList 2 []
          [Section.mk "Boss — CEO".toList 3 "- **Level:** 3".toList []]).children ∨
        ∃ d ∈ (Section.mk "Structure".toList 2 []
          [Section.mk "Boss — CEO".toList 3 "- **Level:** 3".toList []]).children,
          s ∈ d.children) ∧
      (∃ i, (⟨"boss".toList, "Boss".toList, "executive".toList, 3, "Boss".toList, [], [], [],
          1⟩ : Agent).Name =
        agentNameOf (nameFromHeading s.heading) (countOf (extractMeta s.content)) i) ∧
      (⟨"boss".toList, "Boss".toList, "executive".toList, 3, "Boss".toList, [], [], [],
          1⟩ : Agent).Role = inferRole s.heading ∧
      (⟨"boss".toList, "Boss".toList, "executive".toList, 3, "Boss".toList, [], [], [],
          1⟩ : Agent).Level = inferLevel s.heading (extractMeta s.content) ∧
      ∀ (v : Str) (n : Int), metaGet? (extractMeta s.content) "level".toList = some v →
        strconv.Atoi (strings.TrimSpace v) = (n, true) →
        (⟨"boss".toList, "Boss".toList, "executive".toList, 3, "Boss".toList, [], [], [],
          1⟩ : Agent).Level = n :=
  ⟨(level_and_role (Section.mk [] 0 [] [])).2 "Boss — CEO".toList
      (extractMeta "- **Level:** 3".toList) "3".toList 3 (by decide) (by decide),
    by decide, by decide,
    (level_and_role (Section.mk "Structure".toList 2 []
      [Section.mk "Boss — CEO".toList 3 "- **Level:** 3".toList []])).1 _ (by decide)⟩

end orgparser

/-! ## Theorems on the rank and role classifier -/

namespace orgparser

theorem boundaryBefore_cons (prevW : Bool) (c : Char) (pre : Str) :
    boundaryBefore prevW (c :: pre) ↔ boundaryBefore (regexp.isW c) pre := by
  cases pre with
  | nil => simp [boundaryBefore]
  | cons d rest =>
    have hl : (d :: rest).getLast? = some ((d :: rest).getLast (by simp)) :=
      List.getLast?_eq_getLast _ _
    simp only [boundaryBefore, List.getLast?_cons_cons, hl]

theorem boundaryAfter_iff (post : Str) :
    (!((post.head?.map regexp.isW).getD false)) = true ↔
      ∀ c ∈ post.head?, regexp.isW c = false := by
  cases post with
  | nil => simp
  | cons c cs => simp

/-- `wordMatch` finds exactly the occurrences of a keyword with no word
character right before and right after. -/
theorem wordMatch_iff (kws : List Str) (hne : ∀ k ∈ kws, k ≠ []) :
    ∀ (s : Str) (prevW : Bool), wordMatch kws prevW s = true ↔
      ∃ k ∈ kws, ∃ pre post : Str, s = pre ++ k ++ post ∧ boundaryBefore prevW pre ∧
        (∀ c ∈ post.head?, regexp.isW c = false) := by
  intro s
  induction s with
  | nil =>
    intro prevW
    simp only [wordMatch, Bool.false_eq_true, false_iff, not_exists, not_and]
    intro k hk pre post he
    have := hne k hk
    have h2 := congrArg List.length he
    simp only [List.length_nil, List.length_append] at h2
    have : k.length = 0 := by omega
    exact absurd (List.length_eq_zero.mp this) (hne k hk)
  | cons c cs ih =>
    intro prevW
    simp only [wordMatch, Bool.or_eq_true, Bool.and_eq_true, List.any_eq_true, ih]
    constructor
    · rintro (⟨hp, k, hk, hpre, hpost⟩ | ⟨k, hk, pre, post, he, hb, ha⟩)
      · have hpre2 : k <+: c :: cs := by
          simpa [strings.HasPrefix] using hpre
        refine ⟨k, hk, [], (c :: cs).drop k.length, ?_, ?_, ?_⟩
        · simp only [List.nil_append]
          exact (List.prefix_iff_eq_append.mp hpre2).symm
        · simpa [boundaryBefore] using hp
        · exact (boundaryAfter_iff _).mp hpost
      · refine ⟨k, hk, c :: pre, post, ?_, ?_, ha⟩
        · rw [he]; simp
        · exact (boundaryBefore_cons prevW c pre).mpr hb
    · rintro ⟨k, hk, pre, post, he, hb, ha⟩
      cases pre with
      | nil =>
        left
        simp only [List.nil_append] at he
        refine ⟨by simpa [boundaryBefore] using hb, k, hk, ?_, ?_⟩
        · simp [strings.HasPrefix, he]
        · rw [boundaryAfter_iff]
          have : (c :: cs).drop k.length = post := by
            rw [he]; simp
          rw [this]
          exact ha
      | cons d rest =>
        right
        simp only [List.cons_append, List.cons.injEq] at he
        obtain ⟨rfl, he2⟩ := he
        exact ⟨k, hk, rest, post, by rw [he2], (boundaryBefore_cons prevW c rest).mp hb, ha⟩

theorem wordMatch_hasWord (kws l : List Str) (hne : ∀ k ∈ kws, k ≠ [])
    (hl : ∀ k, k ∈ kws ↔ k ∈ l) (s : Str) :
    wordMatch kws false s = true ↔ hasWord l s := by
  rw [wordMatch_iff kws hne]
  constructor
  · rintro ⟨k, hk, pre, post, he, hb, ha⟩
    refine ⟨k, (hl k).mp hk, pre, post, he, ?_, ha⟩
    intro c hc
    simp only [Option.mem_def] at hc
    simpa [boundaryBefore, hc] using hb
  · rintro ⟨k, hk, pre, post, he, hb, ha⟩
    refine ⟨k, (hl k).mpr hk, pre, post, he, ?_, ha⟩
    cases hlast : pre.getLast? with
    | none => simp [boundaryBefore, hlast]
    | some c => simpa [boundaryBefore, hlast] using hb c (by simp [hlast])

theorem wm_executive (s : Str) :
    wordMatch kwExecutive false s = true ↔
      hasWord ["ceo".toList, "cto".toList, "coo".toList, "owner".toList, "chief".toList] s :=
  wordMatch_hasWord _ _ (by decide) (by intro k; simp only [kwExecutive, List.mem_cons,
    List.mem_singleton, List.mem_nil_iff, or_false]; tauto) s

theorem wm_director (s : Str) :
    wordMatch kwDirector false s = true ↔
      hasWord ["vp".toList, "director".toList, "head".toList] s :=
  wordMatch_hasWord _ _ (by decide) (by intro k; rfl) s

theorem wm_leadLevel (s : Str) :
    wordMatch kwLeadLevel false s = true ↔
      hasWord ["lead".toList, "manager".toList, "architect".toList, "strategist".toList] s :=
  wordMatch_hasWord _ _ (by decide) (by intro k; rfl) s

theorem wm_leadRole (s : Str) :
    wordMatch kwLeadRole false s = true ↔ hasWord ["lead".toList, "manager".toList] s :=
  wordMatch_hasWord _ _ (by decide) (by intro k; rfl) s

theorem wm_senior (s : Str) :
    wordMatch kwSenior false s = true ↔ hasWord ["senior".toList, "principal".toList] s :=
  wordMatch_hasWord _ _ (by decide) (by intro k; rfl) s

theorem wm_intern (s : Str) :
    wordMatch kwIntern false s = true ↔
      hasWord ["junior".toList, "intern".toList, "assistant".toList] s :=
  wordMatch_hasWord _ _ (by decide) (by intro k; rfl) s

theorem inferLevel_classified (h : Str) (m : Meta) (hm : noExplicitLevel m) :
    inferLevel h m =
      (if wordMatch kwExecutive false (strings.ToLower h) then 10
       else if wordMatch kwDirector false (strings.ToLower h) then 9
       else if wordMatch kwLeadLevel false (strings.ToLower h) then 7
       else if wordMatch kwSenior false (strings.ToLower h) then 6
       else if wordMatch kwIntern false (strings.ToLower h) then 1
       else 4) := by
  simp only [inferLevel]
  cases hv : metaGet? m "level".toList with
  | none => rfl
  | some v =>
    have := hm v hv
    simp only [this, Bool.false_eq_true, if_false]

/-- C17 (rank table). For a metadata map without a level entry that parses as an
integer, `inferLevel` returns 10 if the lower-cased heading holds one of ceo,
cto, coo, owner, chief as a whole word; otherwise 9 for vp, director, head;
otherwise 7 for lead, manager, architect, strategist; otherwise 6 for senior,
principal; otherwise 1 for junior, intern, assistant; otherwise 4. -/
theorem inferLevel_table (h : Str) (m : Meta) (hm : noExplicitLevel m) :
    (hasWord ["ceo".toList, "cto".toList, "coo".toList, "owner".toList, "chief".toList]
        (strings.ToLower h) → inferLevel h m = 10) ∧
    (¬ hasWord ["ceo".toList, "cto".toList, "coo".toList, "owner".toList, "chief".toList]
        (strings.ToLower h) →
      (hasWord ["vp".toList, "director".toList, "head".toList] (strings.ToLower h) →
        inferLevel h m = 9) ∧
      (¬ hasWord ["vp".toList, "director".toList, "head".toList] (strings.ToLower h) →
        (hasWord ["lead".toList, "manager".toList, "architect".toList, "strategist".toList]
            (strings.ToLower h) → inferLevel h m = 7) ∧
        (¬ hasWord ["lead".toList, "manager".toList, "architect".toList, "strategist".toList]
            (strings.ToLower h) →
          (hasWord ["senior".toList, "principal".toList] (strings.ToLower h) →
            inferLevel h m = 6) ∧
          (¬ hasWord ["senior".toList, "principal".toList] (strings.ToLower h) →
            (hasWord ["junior".toList, "intern".toList, "assistant".toList]
                (strings.ToLower h) → inferLevel h m = 1) ∧
            (¬ hasWord ["junior".toList, "intern".toList, "assistant".toList]
                (strings.ToLower h) → inferLevel h m = 4))))) := by
  rw [inferLevel_classified h m hm, ← wm_executive, ← wm_director, ← wm_leadLevel, ← wm_senior,
    ← wm_intern]
  cases wordMatch kwExecutive false (strings.ToLower h) <;>
  cases wordMatch kwDirector false (strings.ToLower h) <;>
  cases wordMatch kwLeadLevel false (strings.ToLower h) <;>
  cases wordMatch kwSenior false (strings.ToLower h) <;>
  cases wordMatch kwIntern false (strings.ToLower h) <;>
  simp

/-- C17 on the headings "Chief of Staff" (a whole word of the first tier) and
"Headline Writer" (no keyword as a whole word, although "head" and "lead" occur
in it). -/
theorem inferLevel_table_witness :
    inferLevel "Chief of Staff".toList [] = 10 ∧ inferLevel "Headline Writer".toList [] = 4 :=
  ⟨(inferLevel_table "Chief of Staff".toList [] (by intro v hv; cases hv)).1
      ⟨"chief".toList, by decide, [], " of staff".toList, by decide, by simp, by simp [regexp.isW]⟩,
    by decide⟩

theorem inferRole_classified (h : Str) :
    inferRole h =
      (if wordMatch kwExecutive false (strings.ToLower h) then "executive".toList
       else if wordMatch kwDirector false (strings.ToLower h) then "director".toList
       else if wordMatch kwLeadRole false (strings.ToLower h) then "lead".toList
       else if wordMatch kwSenior false (strings.ToLower h) then "senior".toList
       else if wordMatch kwIntern false (strings.ToLower h) then "intern".toList
       else "worker".toList) := rfl

/-- C18 as stated fails: "Senior Architect" holds "architect" as a whole word,
none of the keywords of rank 10 and 9, and neither "lead" nor "manager", so its
classified rank is 7; yet `inferRole` does not fall through to the default: it
returns "senior". -/
theorem senior_architect_role :
    inferLevel "Senior Architect".toList [] = 7 ∧
    wholeWordIn "architect".toList (strings.ToLower "Senior Architect".toList) ∧
    wordMatch kwExecutive false (strings.ToLower "Senior Architect".toList) = false ∧
    wordMatch kwDirector false (strings.ToLower "Senior Architect".toList) = false ∧
    strings.Contains (strings.ToLower "Senior Architect".toList) "lead".toList = false ∧
    strings.Contains (strings.ToLower "Senior Architect".toList) "manager".toList = false ∧
    inferRole "Senior Architect".toList = "senior".toList ∧
    inferRole "Senior Architect".toList ≠ "worker".toList :=
  ⟨by decide, ⟨"senior ".toList, [], by decide, by simp [regexp.isW], by simp⟩, by decide,
    by decide, by decide, by decide, by decide, by decide⟩

/-- C18 as amended. For a heading without explicit level whose lower-cased text
holds "architect" or "strategist" as a whole word, none of the keywords of rank
10 and 9, and neither "lead" nor "manager", the classified rank is 7 and
`inferRole` returns "senior" if the text holds senior or principal as a whole
word, otherwise "intern" if it holds junior, intern or assistant, and falls
through to the default "worker" only otherwise. -/
theorem architect_role (h : Str) (m : Meta) (hm : noExplicitLevel m)
    (h1 : ¬ hasWord ["ceo".toList, "cto".toList, "coo".toList, "owner".toList, "chief".toList]
      (strings.ToLower h))
    (h2 : ¬ hasWord ["vp".toList, "director".toList, "head".toList] (strings.ToLower h))
    (h3 : hasWord ["architect".toList, "strategist".toList] (strings.ToLower h))
    (h4 : ¬ hasWord ["lead".toList, "manager".toList] (strings.ToLower h)) :
    inferLevel h m = 7 ∧
    (hasWord ["senior".toList, "principal".toList] (strings.ToLower h) →
      inferRole h = "senior".toList) ∧
    (¬ hasWord ["senior".toList, "principal".toList] (strings.ToLower h) →
      (hasWord ["junior".toList, "intern".toList, "assistant".toList] (strings.ToLower h) →
        inferRole h = "intern".toList) ∧
      (¬ hasWord ["junior".toList, "intern".toList, "assistant".toList] (strings.ToLower h) →
        inferRole h = "worker".toList)) := by
  have h3b : hasWord ["lead".toList, "manager".toList, "architect".toList, "strategist".toList]
      (strings.ToLower h) := by
    obtain ⟨k, hk, hw⟩ := h3
    refine ⟨k, ?_, hw⟩
    simp only [List.mem_cons, List.mem_singleton, List.mem_nil_iff, or_false] at hk ⊢
    tauto
  rw [← wm_executive] at h1
  rw [← wm_director] at h2
  rw [← wm_leadLevel] at h3b
  rw [← wm_leadRole] at h4
  rw [inferLevel_classified h m hm, inferRole_classified, ← wm_senior, ← wm_intern]
  simp only [h1, h2, h3b, h4, if_true, if_false, Bool.false_eq_true]
  cases wordMatch kwSenior false (strings.ToLower h) <;>
  cases wordMatch kwIntern false (strings.ToLower h) <;>
  simp

/-- C18 as amended, on the heading "Solutions Architect": rank 7 and the role
"worker". -/
theorem architect_role_witness :
    inferLevel "Solutions Architect".toList [] = 7 ∧
    inferRole "Solutions Architect".toList = "worker".toList :=
  ⟨(architect_role "Solutions Architect".toList [] (by intro v hv; cases hv)
      ((wm_executive _).not.mp (by decide)) ((wm_director _).not.mp (by decide))
      ⟨"architect".toList, by decide, "solutions ".toList, [], by decide,
        by simp [regexp.isW], by simp⟩
      ((wm_leadRole _).not.mp (by decide))).1,
    ((architect_role "Solutions Architect".toList [] (by intro v hv; cases hv)
      ((wm_executive _).not.mp (by decide)) ((wm_director _).not.mp (by decide))
      ⟨"architect".toList, by decide, "solutions ".toList, [], by decide,
        by simp [regexp.isW], by simp⟩
      ((wm_leadRole _).not.mp (by decide))).2.2
        ((wm_senior _).not.mp (by decide))).2 ((wm_intern _).not.mp (by decide))⟩

end orgparser

/-! ## Theorems on rank and role pairs -/

namespace orgparser

theorem leadRole_leadLevel (s : Str) (h : wordMatch kwLeadRole false s = true) :
    wordMatch kwLeadLevel false s = true := by
  rw [wm_leadRole] at h
  rw [wm_leadLevel]
  obtain ⟨k, hk, hw⟩ := h
  refine ⟨k, ?_, hw⟩
  simp only [List.mem_cons, List.mem_singleton, List.mem_nil_iff, or_false] at hk ⊢
  tauto

theorem rank_role_table :
    ∀ b1 b2 b3 b4 b5 b6 : Bool, (b4 = true → b3 = true) →
      (((if b1 = true then (10 : Int) else if b2 = true then 9 else if b3 = true then 7
          else if b5 = true then 6 else if b6 = true then 1 else 4),
        (if b1 = true then "executive".toList else if b2 = true then "director".toList
          else if b4 = true then "lead".toList else if b5 = true then "senior".toList
          else if b6 = true then "intern".toList else "worker".toList)) ∈
        [((10 : Int), "executive".toList), (9, "director".toList), (7, "lead".toList),
         (7, "senior".toList), (7, "intern".toList), (7, "worker".toList),
         (6, "senior".toList), (1, "intern".toList), (4, "worker".toList)]) ∧
      (((if b1 = true then "executive".toList else if b2 = true then "director".toList
          else if b4 = true then "lead".toList else if b5 = true then "senior".toList
          else if b6 = true then "intern".toList else "worker".toList) = "executive".toList) ↔
        (if b1 = true then (10 : Int) else if b2 = true then 9 else if b3 = true then 7
          else if b5 = true then 6 else if b6 = true then 1 else 4) = 10) ∧
      (((if b1 = true then "executive".toList else if b2 = true then "director".toList
          else if b4 = true then "lead".toList else if b5 = true then "senior".toList
          else if b6 = true then "intern".toList else "worker".toList) = "director".toList) ↔
        (if b1 = true then (10 : Int) else if b2 = true then 9 else if b3 = true then 7
          else if b5 = true then 6 else if b6 = true then 1 else 4) = 9) := by
  decide

/-- C29 (rank and role tag agree outside rank 7). For every heading `h` and every
annotation map with no explicit level (the empty map is one), the pair of
`inferLevel` and `inferRole` is one of (10, executive), (9, director), (7, lead),
(7, senior), (7, intern), (7, worker), (6, senior), (1, intern), (4, worker); the
role is "executive" exactly when the rank is 10 and "director" exactly when it
is 9. -/
theorem rank_role_pairs (h : Str) (m : Meta) (hm : noExplicitLevel m) :
    (inferLevel h m, inferRole h) ∈
      [((10 : Int), "executive".toList), (9, "director".toList), (7, "lead".toList),
       (7, "senior".toList), (7, "intern".toList), (7, "worker".toList),
       (6, "senior".toList), (1, "intern".toList), (4, "worker".toList)] ∧
    (inferRole h = "executive".toList ↔ inferLevel h m = 10) ∧
    (inferRole h = "director".toList ↔ inferLevel h m = 9) := by
  rw [inferLevel_classified h m hm, inferRole_classified]
  exact rank_role_table _ _ _ _ _ _ (leadRole_leadLevel (strings.ToLower h))

/-- C29 at the heading "Junior Architect" with the empty map: the pair is
(7, intern). -/
theorem rank_role_pairs_witness :
    noExplicitLevel [] ∧
    inferLevel "Junior Architect".toList [] = 7 ∧
    inferRole "Junior Architect".toList = "intern".toList ∧
    ((inferLevel "Junior Architect".toList [], inferRole "Junior Architect".toList) ∈
      [((10 : Int), "executive".toList), (9, "director".toList), (7, "lead".toList),
       (7, "senior".toList), (7, "intern".toList), (7, "worker".toList),
       (6, "senior".toList), (1, "intern".toList), (4, "worker".toList)]) :=
  ⟨fun v hv => by simp [metaGet?] at hv, by decide, by decide,
   (rank_role_pairs "Junior Architect".toList [] (fun v hv => by simp [metaGet?] at hv)).1⟩

end orgparser

/-! ## Theorems on counts and on the depth of departments -/

namespace orgparser

theorem countOf_countParsesTo (s : Section) (n : Int) (h : countParsesTo s n) :
    countOf (extractMeta s.content) = n := by
  obtain ⟨c, hc, hn⟩ := h
  exact countOf_parsed _ c n hc hn

theorem standaloneAgents_nonpos (s : Section) (h : countOf (extractMeta s.content) ≤ 0) :
    standaloneAgents s = [] := by
  have h0 : (countOf (extractMeta s.content)).toNat = 0 := by omega
  simp only [standaloneAgents, h0, List.range_zero, List.map_nil]

theorem subRoleAgents_nonpos (domain parentID : Str) (s : Section)
    (h : countOf (extractMeta s.content) ≤ 0) : subRoleAgents domain parentID s = [] := by
  have h0 : (countOf (extractMeta s.content)).toNat = 0 := by omega
  simp only [subRoleAgents, h0, List.range_zero, List.map_nil]

theorem subRoleStep_nonpos (domain : Str) (st : List Agent × Str) (ri : Nat) (sub : Section)
    (h : countOf (extractMeta sub.content) ≤ 0) : subRoleStep domain st ri sub = st := by
  by_cases h4 : sub.level = 4
  · rw [subRoleStep_eq _ _ _ _ h4, subRoleAgents_nonpos _ _ _ h]
    have h1 : ¬ (ri = 0 ∧ 0 < countOf (extractMeta sub.content)) := by
      rintro ⟨_, h2⟩
      omega
    simp only [h1, if_false, List.append_nil]
  · exact subRoleStep_skip _ _ _ _ h4

theorem subRoleLoop_noLead (domain : Str) (l : List Section) :
    ∀ (st : List Agent × Str) (ri : Nat), st.2 = [] → 1 ≤ ri →
      ∃ made, subRoleLoop domain st ri l = (st.1 ++ made, []) ∧
        ∀ a ∈ made, a.ReportsTo = [] → a.ParentID = [] := by
  induction l with
  | nil =>
    intro st ri h2 _
    refine ⟨[], ?_, by simp⟩
    simp only [subRoleLoop, List.append_nil, ← h2]
  | cons s rest ih =>
    intro st ri h2 hri
    simp only [subRoleLoop]
    by_cases h4 : s.level = 4
    · have hne : ¬ (ri = 0 ∧ 0 < countOf (extractMeta s.content)) := by
        rintro ⟨h0, _⟩
        omega
      rw [subRoleStep_eq _ _ _ _ h4]
      simp only [hne, if_false]
      obtain ⟨made, he, hm⟩ := ih (st.1 ++ subRoleAgents domain (subParent st.2 ri s) s, st.2)
        (ri + 1) h2 (by omega)
      refine ⟨subRoleAgents domain (subParent st.2 ri s) s ++ made, ?_, ?_⟩
      · rw [he, List.append_assoc]
      · intro a ha hr
        rcases List.mem_append.mp ha with h | h
        · obtain ⟨i, _, _, _, _, hp, hrt⟩ := subRoleAgents_mem _ _ _ _ h
          rw [hp]
          rw [hrt] at hr
          have h0 : ri ≠ 0 := by omega
          simp only [subParent, hr, ne_eq, not_true_eq_false, if_false, h0, h2]
        · exact hm a h hr
    · rw [subRoleStep_skip _ _ _ _ h4]
      exact ih st (ri + 1) h2 (by omega)

/-- C30 (a non-positive count erases the role). Let the count annotation parse
as an integer `n ≤ 0`. A standalone department with this count leaves the role
sequence of `parseStructure` as it was, and so does a nested section with this
count, which also leaves the recorded lead as it was; `parseStructure` never
returns an error; whenever the role sequence `Parse` returns is empty, its error
list is exactly "No agents found in Structure section"; and when the first
nested section of a department has this count, every record the department adds
that has no reports-to annotation has the empty parent id. -/
theorem nonpositive_count (n : Int) (hn : n ≤ 0) :
    (∀ (agents : List Agent) (dept : Section), standaloneDept dept → countParsesTo dept n →
      deptStep agents dept = agents) ∧
    (∀ (domain : Str) (st : List Agent × Str) (ri : Nat) (sub : Section), countParsesTo sub n →
      subRoleStep domain st ri sub = st) ∧
    (∀ sec : Section, (parseStructure sec).2 = []) ∧
    (∀ source : Str, (Parse source).1.Agents = [] → (Parse source).2 = [noAgentsError]) ∧
    (∀ (agents : List Agent) (dept z : Section) (rest : List Section),
      dept.level = 3 → inferLevel dept.heading (extractMeta dept.content) < 10 →
      dept.children = z :: rest → countParsesTo z n →
      ∃ made, deptStep agents dept = agents ++ made ∧
        ∀ a ∈ made, a.ReportsTo = [] → a.ParentID = []) := by
  refine ⟨?_, ?_, fun _ => rfl, ?_, ?_⟩
  · intro agents dept hs hc
    rw [deptStep_standalone _ _ hs, standaloneAgents_nonpos, List.append_nil]
    rw [countOf_countParsesTo _ _ hc]
    exact hn
  · intro domain st ri sub hc
    apply subRoleStep_nonpos
    rw [countOf_countParsesTo _ _ hc]
    exact hn
  · intro source h
    rw [(Parse_errors_name source).1, if_pos h]
  · intro agents dept z rest h3 hl hch hc
    rw [deptStep_subRoles _ _ h3 hl (by rw [hch]; exact List.cons_ne_nil _ _), hch]
    simp only [subRoleLoop]
    rw [subRoleStep_nonpos _ _ _ _ (by rw [countOf_countParsesTo _ _ hc]; exact hn)]
    obtain ⟨made, he, hm⟩ := subRoleLoop_noLead
      (if metaGet (extractMeta dept.content) "domain".toList = [] then
          nameFromHeading dept.heading
        else metaGet (extractMeta dept.content) "domain".toList) rest (agents, []) (0 + 1) rfl
      (by omega)
    exact ⟨made, by rw [he], hm⟩

/-- C30 at the count 0: the standalone department "Devs" with the count 0 adds
no record, the document that holds only this department parses with no role and
the single error, and in the department whose first sub-role Z has the count 0
the sub-roles A and B get the empty parent id. -/
theorem nonpositive_count_witness :
    (0 : Int) ≤ 0 ∧
    deptStep [] (Section.mk "Devs".toList 3 "- **Count:** 0".toList []) = [] ∧
    subRoleStep [] ([], "x".toList) 1 (Section.mk "Z".toList 4 "- **Count:** 0".toList []) =
      ([], "x".toList) ∧
    (Parse countZeroDoc).1.Agents = [] ∧
    (Parse countZeroDoc).2 = [noAgentsError] ∧
    (∃ made,
      deptStep []
        (Section.mk "Eng".toList 3 []
          [Section.mk "Z".toList 4 "- **Count:** 0".toList [], Section.mk "A".toList 4 [] [],
           Section.mk "B".toList 4 [] []]) = [] ++ made ∧
      ∀ a ∈ made, a.ReportsTo = [] → a.ParentID = []) :=
  ⟨by decide,
   (nonpositive_count 0 (by decide)).1 [] _ ⟨rfl, Or.inr rfl⟩ ⟨"0".toList, by decide, by decide⟩,
   (nonpositive_count 0 (by decide)).2.1 [] _ 1 _ ⟨"0".toList, by decide, by decide⟩,
   by decide,
   (nonpositive_count 0 (by decide)).2.2.2.1 countZeroDoc (by decide),
   (nonpositive_count 0 (by decide)).2.2.2.2 [] _ _ _ rfl (by decide) rfl
     ⟨"0".toList, by decide, by decide⟩⟩

theorem subRoleLoop_append (domain : Str) (l : List Section) :
    ∀ (st : List Agent × Str) (ri : Nat),
      subRoleLoop domain st ri l =
        (st.1 ++ (subRoleLoop domain ([], st.2) ri l).1,
         (subRoleLoop domain ([], st.2) ri l).2) := by
  induction l with
  | nil => intro st ri; simp only [subRoleLoop, List.append_nil]
  | cons s rest ih =>
    intro st ri
    simp only [subRoleLoop]
    by_cases h4 : s.level = 4
    · rw [subRoleStep_eq _ _ _ _ h4, subRoleStep_eq _ _ _ _ h4, ih]
      conv_rhs => rw [ih]
      simp only [List.nil_append, List.append_assoc]
    · rw [subRoleStep_skip _ _ _ _ h4, subRoleStep_skip _ _ _ _ h4]
      exact ih st (ri + 1)

theorem deptStep_append (agents : List Agent) (dept : Section) :
    deptStep agents dept = agents ++ deptStep [] dept := by
  by_cases h3 : dept.level = 3
  · by_cases hb : inferLevel dept.heading (extractMeta dept.content) ≥ 10 ∨ dept.children = []
    · rw [deptStep_standalone _ _ ⟨h3, hb⟩, deptStep_standalone _ _ ⟨h3, hb⟩, List.nil_append]
    · simp only [not_or] at hb
      rw [deptStep_subRoles _ _ h3 (by omega) hb.2, deptStep_subRoles _ _ h3 (by omega) hb.2,
        subRoleLoop_append]
  · rw [deptStep_skip _ _ h3, deptStep_skip _ _ h3, List.append_nil]

theorem foldl_deptStep_eq (l : List Section) :
    ∀ agents : List Agent,
      l.foldl deptStep agents =
        agents ++ ((l.filter (fun d => decide (d.level = 3))).map (deptStep [])).flatten := by
  induction l with
  | nil => intro agents; simp
  | cons d rest ih =>
    intro agents
    rw [List.foldl_cons, ih]
    by_cases h3 : d.level = 3
    · rw [List.filter_cons_of_pos (by simpa using h3), List.map_cons, List.flatten_cons,
        deptStep_append agents d, List.append_assoc]
    · rw [List.filter_cons_of_neg (by simpa using h3), deptStep_skip _ _ h3]

/-- C28 as stated fails: in "# T / ### Structure / #### Boss" the structure
heading is a level-3 child of the title and "Boss" is its level-4 child, one
level below it; `Parse` dispatches the structure section, yet "Boss" yields no
role and the only error is reported. -/
theorem structure_at_level_three :
    parseMarkdownSections deepStructureDoc =
      [Section.mk "T".toList 1 []
        [Section.mk "Structure".toList 3 [] [Section.mk "Boss".toList 4 [] []]]] ∧
    (Parse deepStructureDoc).1.Agents = [] ∧
    (Parse deepStructureDoc).2 = [noAgentsError] :=
  ⟨rfl, by decide, by decide⟩

/-- C28, amended (the depth of a department is absolute). The roles of a
structure section are the roles of its immediate children of level exactly 3, in
document order, each processed as a department on its own; the heading and the
level of the structure section itself are not read; a child of another level
contributes nothing, and inside a department a nested section of a level other
than 4 contributes nothing. -/
theorem departments_at_level_three (sec : Section) :
    (parseStructure sec).1 =
      ((sec.children.filter (fun d => decide (d.level = 3))).map (deptStep [])).flatten ∧
    (∀ (h : Str) (l : Int) (c : Str),
      parseStructure (Section.mk h l c sec.children) = parseStructure sec) ∧
    (∀ (agents : List Agent) (d : Section), d.level ≠ 3 → deptStep agents d = agents) ∧
    (∀ (domain : Str) (st : List Agent × Str) (ri : Nat) (sub : Section), sub.level ≠ 4 →
      subRoleStep domain st ri sub = st) := by
  refine ⟨?_, ?_, deptStep_skip, subRoleStep_skip⟩
  · simp only [parseStructure]
    rw [foldl_deptStep_eq, List.nil_append]
  · intro h l c
    simp only [parseStructure, Section.children_mk]

/-- C28, amended, at the two documents: with the structure heading at level 2
the level-3 child "Boss" yields a role; with the structure heading at level 3 its
level-4 child "Boss" is no department and yields none. -/
theorem departments_at_level_three_witness :
    ((parseStructure (Section.mk "Structure".toList 2 [] [Section.mk "Boss".toList 3 [] []])).1.map
        (fun a => a.Name) = ["Boss".toList]) ∧
    (parseStructure (Section.mk "Structure".toList 3 [] [Section.mk "Boss".toList 4 [] []])).1 =
      [] ∧
    deptStep [] (Section.mk "Boss".toList 4 [] []) = [] ∧
    (Parse plainStructureDoc).1.Agents.map (fun a => a.Name) = ["Boss".toList] :=
  ⟨by decide,
   (departments_at_level_three
      (Section.mk "Structure".toList 3 [] [Section.mk "Boss".toList 4 [] []])).1.trans rfl,
   (departments_at_level_three
      (Section.mk "Structure".toList 3 [] [Section.mk "Boss".toList 4 [] []])).2.2.1 [] _
        (by decide),
   by decide⟩

end orgparser

/-! ## Lemmas on trimming -/

namespace orgparser

theorem TrimSpace_eq_TrimFunc (s : Str) :
    strings.TrimSpace s = strings.TrimFunc s unicode.IsSpace := rfl

theorem TrimDash_eq_TrimFunc (s : Str) :
    strings.TrimDash s = strings.TrimFunc s (fun c => c == '-') := rfl

theorem dropWhile_head (p : Char → Bool) (s : Str) (c : Char)
    (h : (s.dropWhile p).head? = some c) : p c = false := by
  have := List.head?_dropWhile_not p s
  rw [h] at this
  exact this

theorem TrimFunc_front (p : Char → Bool) (s : Str) :
    strings.TrimFunc s p <+: s.dropWhile p := by
  have h := List.dropWhile_suffix (l := (s.dropWhile p).reverse) p
  rw [← List.reverse_prefix, List.reverse_reverse] at h
  exact h

theorem TrimFunc_within (p : Char → Bool) (s : Str) : strings.TrimFunc s p <:+: s :=
  List.IsInfix.trans ( List.IsPrefix.isInfix (TrimFunc_front p s))
    ( List.IsSuffix.isInfix (List.dropWhile_suffix p))

theorem TrimFunc_last (p : Char → Bool) (s : Str) (c : Char)
    (h : (strings.TrimFunc s p).getLast? = some c) : p c = false := by
  simp only [strings.TrimFunc, List.getLast?_reverse] at h
  exact dropWhile_head p _ c h

theorem TrimFunc_head (p : Char → Bool) (s : Str) (c : Char)
    (h : (strings.TrimFunc s p).head? = some c) : p c = false := by
  obtain ⟨t, ht⟩ := TrimFunc_front p s
  apply dropWhile_head p s c
  rw [← ht]
  cases hw : strings.TrimFunc s p with
  | nil => rw [hw] at h; simp at h
  | cons a w => rw [hw] at h; simpa using h

theorem dropWhile_of_head (p : Char → Bool) (s : Str) (h : ∀ c ∈ s.head?, p c = false) :
    s.dropWhile p = s := by
  cases s with
  | nil => rfl
  | cons a w =>
    have := h a (by simp)
    rw [List.dropWhile_cons_of_neg (by simp [this])]

theorem TrimFunc_fixed (p : Char → Bool) (s : Str) (hh : ∀ c ∈ s.head?, p c = false)
    (hl : ∀ c ∈ s.getLast?, p c = false) : strings.TrimFunc s p = s := by
  simp only [strings.TrimFunc]
  rw [dropWhile_of_head p s hh, dropWhile_of_head p s.reverse (by rwa [List.head?_reverse]),
    List.reverse_reverse]

theorem TrimFunc_idem (p : Char → Bool) (s : Str) :
    strings.TrimFunc (strings.TrimFunc s p) p = strings.TrimFunc s p :=
  TrimFunc_fixed p _ (fun c hc => TrimFunc_head p s c hc) (fun c hc => TrimFunc_last p s c hc)

end orgparser

/-! ## Theorems on the shape of a slug -/

namespace orgparser

theorem isLowerAlnum_range (c : Char) (h : isLowerAlnum c = true) :
    (97 ≤ c.toNat ∧ c.toNat ≤ 122) ∨ (48 ≤ c.toNat ∧ c.toNat ≤ 57) := by
  simp only [isLowerAlnum, Char.isLower, Char.isDigit, Bool.or_eq_true, Bool.and_eq_true,
    decide_eq_true_eq] at h
  rcases h with h | h
  · exact Or.inl ⟨h.1, h.2⟩
  · exact Or.inr ⟨h.1, h.2⟩

theorem isLowerAlnum_ne_dash (c : Char) (h : isLowerAlnum c = true) : c ≠ '-' := by
  rintro rfl
  exact absurd h (by decide)

theorem unicode_ToLower_slugChar (c : Char) (h : isLowerAlnum c = true ∨ c = '-') :
    unicode.ToLower c = c := by
  have hr : (97 ≤ c.toNat ∧ c.toNat ≤ 122) ∨ (48 ≤ c.toNat ∧ c.toNat ≤ 57) ∨ c.toNat = 45 := by
    rcases h with h | h
    · rcases isLowerAlnum_range c h with h | h
      · exact Or.inl h
      · exact Or.inr (Or.inl h)
    · exact Or.inr (Or.inr (by rw [h]; rfl))
  unfold unicode.ToLower
  have h1 : ¬ (65 ≤ c.toNat ∧ c.toNat ≤ 90) := by omega
  have h2 : ¬ c.toNat = 0x130 := by omega
  have h3 : ¬ c.toNat = 0x212A := by omega
  simp only [h1, h2, h3, if_false]

theorem ToLower_slug (r : Str) (h : ∀ c ∈ r, isLowerAlnum c = true ∨ c = '-') :
    strings.ToLower r = r := by
  induction r with
  | nil => rfl
  | cons c cs ih =>
    simp only [strings.ToLower, List.map_cons] at ih ⊢
    rw [unicode_ToLower_slugChar c (h c (by simp)), ih (fun x hx => h x (by simp [hx]))]

theorem replaceRuns_chars (x : Str) :
    ∀ b, ∀ c ∈ replaceRuns b x, isLowerAlnum c = true ∨ c = '-' := by
  induction x with
  | nil => intro b c hc; simp [replaceRuns] at hc
  | cons y ys ih =>
    intro b c hc
    simp only [replaceRuns] at hc
    split at hc
    · rename_i hy
      rcases List.mem_cons.mp hc with h | h
      · exact Or.inl (by rw [h]; exact hy)
      · exact ih _ c h
    · split at hc
      · exact ih _ c hc
      · rcases List.mem_cons.mp hc with h | h
        · exact Or.inr h
        · exact ih _ c h

theorem chain_of_ne_dash (a c : Char) (l : Str) (h : List.Chain noTwoDashes a l) (hc : c ≠ '-') :
    List.Chain noTwoDashes c l := by
  cases l with
  | nil => exact List.Chain.nil
  | cons d ds =>
    rw [List.chain_cons] at h ⊢
    exact ⟨fun hh => hc hh.1, h.2⟩

theorem replaceRuns_chain (x : Str) :
    ∀ b, List.Chain noTwoDashes (if b = true then '-' else 'a') (replaceRuns b x) := by
  induction x with
  | nil => intro b; exact List.Chain.nil
  | cons y ys ih =>
    intro b
    by_cases hy : isLowerAlnum y = true
    · simp only [replaceRuns, hy, if_true]
      rw [List.chain_cons]
      refine ⟨fun hh => isLowerAlnum_ne_dash y hy hh.2, ?_⟩
      exact chain_of_ne_dash _ _ _ (ih false) (isLowerAlnum_ne_dash y hy)
    · cases b with
      | true =>
        simp only [replaceRuns, hy, if_false, if_true]
        exact ih true
      | false =>
        simp only [replaceRuns, hy, if_false, Bool.false_eq_true]
        rw [List.chain_cons]
        exact ⟨fun hh => absurd hh.1 (by decide), ih true⟩

theorem replaceRuns_fixed (r : Str) :
    ∀ b, (∀ c ∈ r, isLowerAlnum c = true ∨ c = '-') →
      List.Chain noTwoDashes (if b = true then '-' else 'a') r → replaceRuns b r = r := by
  induction r with
  | nil => intro b _ _; rfl
  | cons c cs ih =>
    intro b hch hc
    rw [List.chain_cons] at hc
    have hcs : ∀ x ∈ cs, isLowerAlnum x = true ∨ x = '-' := fun x hx => hch x (by simp [hx])
    rcases hch c (by simp) with h | h
    · simp only [replaceRuns, h, if_true]
      rw [ih false hcs (chain_of_ne_dash _ _ _ hc.2 (by decide))]
    · have hn : isLowerAlnum c = false := by rw [h]; decide
      have hb : b = false := by
        cases b with
        | false => rfl
        | true => exact absurd ⟨rfl, h⟩ hc.1
      simp only [replaceRuns, hn, hb, Bool.false_eq_true, if_false]
      rw [ih true hcs (by simpa [h] using hc.2), h]

theorem no_double_dash (l : Str) (h : List.Chain' noTwoDashes l) :
    ¬ ("--".toList <:+: l) := by
  intro hi
  have := List.Chain'.infix h hi
  exact this.rel_head ⟨rfl, rfl⟩

theorem dropWhile_dash_replaceRuns (l : Str) :
    (replaceRuns false l).dropWhile (fun c => c == '-') = replaceRuns true l := by
  cases l with
  | nil => rfl
  | cons c cs =>
    by_cases hc : isLowerAlnum c = true
    · have hne : (c == '-') = false := by simpa using isLowerAlnum_ne_dash c hc
      simp only [replaceRuns, hc, if_true]
      rw [List.dropWhile_cons_of_neg (by simp [hne])]
    · simp only [replaceRuns, hc, if_false, Bool.false_eq_true, if_true]
      rw [List.dropWhile_cons_of_pos (by simp)]
      apply dropWhile_of_head
      intro d hd
      have hch := replaceRuns_chain cs true
      simp only [if_true] at hch
      cases hr : replaceRuns true cs with
      | nil => rw [hr] at hd; simp at hd
      | cons a w =>
        rw [hr] at hd hch
        simp only [List.head?_cons, Option.mem_def, Option.some.injEq] at hd
        subst hd
        rw [List.chain_cons] at hch
        have : a ≠ '-' := fun h => hch.1 ⟨rfl, h⟩
        simpa using this

theorem backTrim_cons (p : Char → Bool) (a : Char) (x : Str) :
    ((a :: x).reverse.dropWhile p).reverse =
      if (x.reverse.dropWhile p).reverse = [] ∧ p a = true then []
      else a :: (x.reverse.dropWhile p).reverse := by
  rw [List.reverse_cons, List.dropWhile_append]
  by_cases he : x.reverse.dropWhile p = []
  · simp only [he, List.isEmpty_nil, if_true, List.reverse_nil, true_and]
    by_cases hp : p a = true
    · simp [hp]
    · simp [hp]
  · have h1 : (x.reverse.dropWhile p).isEmpty = false := by
      cases h : x.reverse.dropWhile p with
      | nil => exact absurd h he
      | cons _ _ => rfl
    have h2 : ¬ ((x.reverse.dropWhile p).reverse = [] ∧ p a = true) := by
      rintro ⟨h, _⟩
      exact he (by simpa using h)
    simp only [h1, Bool.false_eq_true, if_false, h2, List.reverse_append, List.reverse_cons,
      List.reverse_nil, List.nil_append, List.singleton_append]

theorem intercalate_cons (sep w : Str) (ws : List Str) :
    List.intercalate sep (w :: ws) =
      w ++ (if ws = [] then [] else sep ++ List.intercalate sep ws) := by
  cases ws with
  | nil => simp [List.intercalate, List.intersperse]
  | cons v vs => simp [List.intercalate, List.intersperse]

theorem intercalate_runs_nil (ws : List Str) (h : ∀ w ∈ ws, w ≠ []) :
    List.intercalate ['-'] ws = [] ↔ ws = [] := by
  constructor
  · intro he
    cases ws with
    | nil => rfl
    | cons w more =>
      rw [intercalate_cons] at he
      have := List.append_eq_nil.mp he
      exact absurd this.1 (h w (by simp))
  · rintro rfl
    rfl

theorem filter_runs_ne (X : List Str) : ∀ w ∈ X.filter (fun w => !w.isEmpty), w ≠ [] := by
  intro w hw
  have := (List.mem_filter.mp hw).2
  intro h0
  rw [h0] at this
  simp at this

theorem trimmed_runs (l : Str) :
    ((replaceRuns true l).reverse.dropWhile (fun c => c == '-')).reverse =
        List.intercalate ['-'] (alnumRuns l) ∧
    ((replaceRuns false l).reverse.dropWhile (fun c => c == '-')).reverse =
        ((l.splitOnP (fun c => !isLowerAlnum c)).head?.getD []) ++
          (if (l.splitOnP (fun c => !isLowerAlnum c)).tail.filter (fun w => !w.isEmpty) = [] then []
           else '-' :: List.intercalate ['-']
              ((l.splitOnP (fun c => !isLowerAlnum c)).tail.filter (fun w => !w.isEmpty))) := by
  induction l with
  | nil => exact ⟨rfl, rfl⟩
  | cons c cs ih =>
    obtain ⟨ihA, ihB⟩ := ih
    obtain ⟨P0, Ps, hS⟩ := List.exists_cons_of_ne_nil
      (List.splitOnP_ne_nil (fun c => !isLowerAlnum c) cs)
    simp only [alnumRuns, hS, List.head?_cons, Option.getD_some, List.tail_cons] at ihA ihB
    by_cases hc : isLowerAlnum c = true
    · have hnd : ¬ ((c == '-') = true) := by
        simpa using isLowerAlnum_ne_dash c hc
      have hS2 : (c :: cs).splitOnP (fun c => !isLowerAlnum c) = (c :: P0) :: Ps := by
        rw [List.splitOnP_cons, hS]
        simp [hc, List.modifyHead]
      have hf : ((c :: P0) :: Ps).filter (fun w => !w.isEmpty) =
          (c :: P0) :: Ps.filter (fun w => !w.isEmpty) := rfl
      simp only [alnumRuns, hS2, List.head?_cons, Option.getD_some, List.tail_cons,
        replaceRuns, hc, if_true]
      rw [backTrim_cons, ihB, hf, intercalate_cons]
      have h2 : ¬ ((P0 ++ (if Ps.filter (fun w => !w.isEmpty) = [] then []
          else '-' :: List.intercalate ['-'] (Ps.filter (fun w => !w.isEmpty))) = []) ∧
          (c == '-') = true) := fun h => hnd h.2
      rw [if_neg h2]
      exact ⟨rfl, rfl⟩
    · have hS2 : (c :: cs).splitOnP (fun c => !isLowerAlnum c) = [] :: P0 :: Ps := by
        rw [List.splitOnP_cons, hS]
        simp [hc]
      have hf : (([] : Str) :: P0 :: Ps).filter (fun w => !w.isEmpty) =
          (P0 :: Ps).filter (fun w => !w.isEmpty) := rfl
      simp only [alnumRuns, hS2, List.head?_cons, Option.getD_some, List.tail_cons,
        replaceRuns, hc, if_false, Bool.false_eq_true, if_true, List.nil_append]
      rw [hf]
      refine ⟨ihA, ?_⟩
      rw [backTrim_cons, ihA]
      have hiff := intercalate_runs_nil ((P0 :: Ps).filter (fun w => !w.isEmpty))
        (filter_runs_ne (P0 :: Ps))
      by_cases h0 : (P0 :: Ps).filter (fun w => !w.isEmpty) = []
      · rw [if_pos h0, if_pos ⟨hiff.mpr h0, rfl⟩]
      · rw [if_neg h0, if_neg (fun h => h0 (hiff.mp h.1))]

/-- The slug is the maximal runs of `[a-z0-9]` of the lower-cased name, joined
by single dashes. -/
theorem makeID_runs (s : Str) :
    makeID s = List.intercalate ['-'] (alnumRuns (strings.ToLower s)) := by
  have h1 : makeID s =
      ((replaceRuns true (strings.ToLower s)).reverse.dropWhile (fun c => c == '-')).reverse := by
    simp only [makeID, strings.TrimDash, dropWhile_dash_replaceRuns]
  rw [h1, (trimmed_runs _).1]

/-- C21 (slug shape). For every string `s`, every character of `makeID s` is an
ASCII lower-case letter, an ASCII digit or a dash; `makeID s` neither begins nor
ends with a dash and holds no two consecutive dashes; `makeID` is idempotent;
and `makeID s` is the maximal runs of characters of `[a-z0-9]` of the lower-cased
`s`, in order, joined by single dashes: every maximal run of other characters
between two of them has become one dash, and those at the ends are gone. -/
theorem makeID_shape (s : Str) :
    (∀ c ∈ makeID s, ('a' ≤ c ∧ c ≤ 'z') ∨ ('0' ≤ c ∧ c ≤ '9') ∨ c = '-') ∧
    (makeID s).head? ≠ some '-' ∧
    (makeID s).getLast? ≠ some '-' ∧
    ¬ ("--".toList <:+: makeID s) ∧
    makeID (makeID s) = makeID s ∧
    makeID s = List.intercalate ['-'] (alnumRuns (strings.ToLower s)) := by
  have hin : makeID s <:+: replaceRuns false (strings.ToLower s) := TrimFunc_within _ _
  have hch : ∀ c ∈ makeID s, isLowerAlnum c = true ∨ c = '-' :=
    fun c hc => replaceRuns_chars _ false c (hin.subset hc)
  have hchain : List.Chain' noTwoDashes (makeID s) := by
    have := replaceRuns_chain (strings.ToLower s) false
    exact List.Chain'.infix (List.Chain'.tail (l := 'a' :: _) this) hin
  have hh : (makeID s).head? ≠ some '-' := by
    intro h
    exact absurd (TrimFunc_head (fun c => c == '-') _ '-' h) (by decide)
  have hl : (makeID s).getLast? ≠ some '-' := by
    intro h
    exact absurd (TrimFunc_last (fun c => c == '-') _ '-' h) (by decide)
  refine ⟨?_, hh, hl, no_double_dash _ hchain, ?_, makeID_runs s⟩
  · intro c hc
    rcases hch c hc with h | h
    · rcases isLowerAlnum_range c h with h | h
      · exact Or.inl ⟨by simpa [Char.le_def] using h.1, by simpa [Char.le_def] using h.2⟩
      · exact Or.inr (Or.inl ⟨by simpa [Char.le_def] using h.1, by simpa [Char.le_def] using h.2⟩)
    · exact Or.inr (Or.inr h)
  · have e1 : replaceRuns false (strings.ToLower (makeID s)) = makeID s := by
      rw [ToLower_slug _ hch]
      apply replaceRuns_fixed _ false hch
      cases hm : makeID s with
      | nil => exact List.Chain.nil
      | cons a w =>
        rw [hm] at hchain hh
        rw [List.chain_cons]
        exact ⟨fun h => by simp [h.2] at hh, hchain⟩
    show strings.TrimDash (replaceRuns false (strings.ToLower (makeID s))) = makeID s
    rw [e1]
    apply TrimFunc_fixed
    · intro c hc
      have : c ≠ '-' := by rintro rfl; exact hh hc
      simpa using this
    · intro c hc
      have : c ≠ '-' := by rintro rfl; exact hl hc
      simpa using this

/-- C21 at three names: "Tech Lead — Engineering" has the runs "tech", "lead"
and "engineering" and the slug "tech-lead-engineering"; the separators at the
ends of "  --R&D  (EU) -- " are gone and the others have become single dashes;
a name without letter or digit has the empty slug. -/
theorem makeID_shape_witness :
    alnumRuns (strings.ToLower "Tech Lead — Engineering".toList) =
      ["tech".toList, "lead".toList, "engineering".toList] ∧
    makeID "Tech Lead — Engineering".toList = "tech-lead-engineering".toList ∧
    makeID "  --R&D  (EU) -- ".toList = "r-d-eu".toList ∧
    makeID "— ! —".toList = [] ∧
    makeID "Backend Dev 2".toList = "backend-dev-2".toList :=
  ⟨by decide,
   (makeID_shape "Tech Lead — Engineering".toList).2.2.2.2.2.trans (by decide),
   (makeID_shape "  --R&D  (EU) -- ".toList).2.2.2.2.2.trans (by decide),
   (makeID_shape "— ! —".toList).2.2.2.2.2.trans (by decide),
   by decide⟩

end orgparser

/-! ## Theorems on the metadata extractor -/

namespace orgparser

theorem tailGroup_form (r v : Str) (h : regexp.tailGroup r = some v) :
    ∃ ws, r = ws ++ v ∧ v ≠ [] ∧ (∀ c ∈ ws, regexp.isS c = true) := by
  unfold regexp.tailGroup at h
  by_cases hr : r.dropWhile regexp.isS ≠ []
  · simp only [hr, ne_eq, not_false_eq_true, if_true] at h
    split at h
    · cases h
    · injection h with h
      subst h
      exact ⟨r.takeWhile regexp.isS, (List.takeWhile_append_dropWhile _ _).symm, hr,
        fun c hc => (List.mem_takeWhile_imp hc)⟩
  · have hr2 : r.dropWhile regexp.isS = [] := by simpa using hr
    simp only [hr2, ne_eq, not_true_eq_false, if_false] at h
    cases hl : r.getLast? with
    | none => rw [hl] at h; cases h
    | some c =>
      rw [hl] at h
      simp only at h
      split at h
      · cases h
      · injection h with h
        subst h
        refine ⟨r.dropLast, (List.dropLast_append_getLast? c hl).symm, List.cons_ne_nil _ _, ?_⟩
        intro x hx
        exact List.dropWhile_eq_nil_iff.mp hr2 x (List.mem_of_mem_dropLast hx)

theorem tailGroup_some (r : Str) (hr : r ≠ []) (hn : '\n' ∉ r) :
    (regexp.tailGroup r).isSome = true := by
  unfold regexp.tailGroup
  by_cases hd : r.dropWhile regexp.isS ≠ []
  · have h1 : '\n' ∉ r.dropWhile regexp.isS :=
      fun h => hn ((List.dropWhile_suffix _).subset h)
    simp only [hd, ne_eq, not_false_eq_true, if_true, h1, if_false, Option.isSome_some]
  · have hr2 : r.dropWhile regexp.isS = [] := by simpa using hd
    simp only [hr2, ne_eq, not_true_eq_false, if_false]
    cases hl : r.getLast? with
    | none => exact absurd (List.getLast?_eq_none_iff.mp hl) hr
    | some c =>
      have hc : c ≠ '\n' := by
        rintro rfl
        exact hn (List.mem_of_getLast?_eq_some hl)
      simp only [hc, if_false, Option.isSome_some]

theorem colon_stars_split (cs : Str) (h : strings.HasPrefix cs ":**".toList = true) :
    cs = ":**".toList ++ cs.drop 3 := by
  simp only [strings.HasPrefix, List.isPrefixOf_iff_prefix] at h
  obtain ⟨t, ht⟩ := h
  rw [← ht]
  rfl

theorem metaScan_form (cs : Str) :
    ∀ (key k v : Str), metaScan key cs = some (k, v) →
      ∃ taken ws, cs = taken ++ ":**".toList ++ ws ++ v ∧ k = key.reverse ++ taken ∧ k ≠ [] ∧
        v ≠ [] ∧ ∀ c ∈ ws, regexp.isS c = true := by
  induction cs with
  | nil => intro key k v h; simp [metaScan] at h
  | cons c cs ih =>
    intro key k v h
    rw [metaScan] at h
    split at h
    · rename_i v2 hm
      injection h with h
      injection h with hk hv
      subst hv
      split at hm
      · rename_i hc
        obtain ⟨ws, hr, hv, hws⟩ := tailGroup_form _ _ hm
        refine ⟨[], ws, ?_, by simp [hk], ?_, hv, hws⟩
        · rw [List.nil_append, List.append_assoc, ← hr]
          exact colon_stars_split _ hc.2
        · rw [← hk]
          simpa using hc.1
      · cases hm
    · split at h
      · cases h
      · obtain ⟨taken, ws, hcs, hk, hne, hv, hws⟩ := ih _ _ _ h
        refine ⟨c :: taken, ws, by rw [hcs]; rfl, ?_, hne, hv, hws⟩
        rw [hk]
        simp

theorem metaScan_complete (rest : Str) (hr : rest ≠ []) (hn : '\n' ∉ rest) (taken : Str) :
    ∀ key : Str, '\n' ∉ taken → (key ≠ [] ∨ taken ≠ []) →
      (metaScan key (taken ++ ":**".toList ++ rest)).isSome = true := by
  induction taken with
  | nil =>
    intro key _ hk
    have hk2 : key ≠ [] := by
      rcases hk with h | h
      · exact h
      · exact absurd rfl h
    obtain ⟨v, hv⟩ := Option.isSome_iff_exists.mp (tailGroup_some rest hr hn)
    show (metaScan key (':' :: '*' :: '*' :: rest)).isSome = true
    rw [metaScan]
    have : strings.HasPrefix (':' :: '*' :: '*' :: rest) ":**".toList = true := by
      simp [strings.HasPrefix, List.isPrefixOf]
    simp only [hk2, ne_eq, not_false_eq_true, this, and_self, if_true, List.drop_succ_cons,
      List.drop_zero, hv, Option.isSome_some]
  | cons c taken ih =>
    intro key hnl _
    have hc : c ≠ '\n' := fun h => hnl (by simp [h])
    have hnl2 : '\n' ∉ taken := fun h => hnl (by simp [h])
    show (metaScan key (c :: (taken ++ ":**".toList ++ rest))).isSome = true
    rw [metaScan]
    split
    · rfl
    · simp only [hc, if_false]
      exact ih (c :: key) hnl2 (Or.inl (List.cons_ne_nil _ _))

/-- The text matches `metaRegex` only if it has the form `**key:**` followed by
white space and a value, with a non-empty key and a non-empty value. -/
theorem metaRegex_form (t key val : Str) (h : metaRegex t = some (key, val)) :
    ∃ ws, t = "**".toList ++ key ++ ":**".toList ++ ws ++ val ∧ key ≠ [] ∧ val ≠ [] ∧
      ∀ c ∈ ws, regexp.isS c = true := by
  unfold metaRegex at h
  split at h
  · rename_i hp
    obtain ⟨taken, ws, hcs, hk, hne, hv, hws⟩ := metaScan_form _ _ _ _ h
    simp only [List.reverse_nil, List.nil_append] at hk
    subst hk
    refine ⟨ws, ?_, hne, hv, hws⟩
    simp only [strings.HasPrefix, List.isPrefixOf_iff_prefix] at hp
    obtain ⟨u, hu⟩ := hp
    rw [← hu] at hcs ⊢
    have : u = key ++ ":**".toList ++ ws ++ val := by simpa using hcs
    rw [this]
    simp
  · cases h

/-- A text of the form `**key:**rest` with a non-empty key, a non-empty rest and
no line feed matches `metaRegex`. -/
theorem metaRegex_complete (key rest : Str) (hk : key ≠ []) (hr : rest ≠ [])
    (hn1 : '\n' ∉ key) (hn2 : '\n' ∉ rest) :
    (metaRegex ("**".toList ++ key ++ ":**".toList ++ rest)).isSome = true := by
  unfold metaRegex
  have hp : strings.HasPrefix ("**".toList ++ key ++ ":**".toList ++ rest) "**".toList = true := by
    simp [strings.HasPrefix, List.isPrefixOf]
  rw [if_pos hp]
  have : ("**".toList ++ key ++ ":**".toList ++ rest).drop 2 = key ++ ":**".toList ++ rest := by
    simp
  rw [this]
  exact metaScan_complete rest hr hn2 key [] hn1 (Or.inr hk)

theorem extractMetaLineWith_eq (lower : Str → Str) (m : Meta) (line : Str) :
    extractMetaLineWith lower m line =
      (match annotationWith lower line with
        | some kv => kv :: m
        | none => m) := by
  simp only [extractMetaLineWith, annotationWith]
  cases metaRegex (strings.TrimPrefix (strings.TrimSpace line) "- ".toList) <;> rfl

theorem foldl_extractMetaLineWith (lower : Str → Str) (lines : List Str) :
    ∀ m : Meta, lines.foldl (extractMetaLineWith lower) m =
      (lines.filterMap (annotationWith lower)).reverse ++ m := by
  induction lines with
  | nil => intro m; rfl
  | cons l ls ih =>
    intro m
    rw [List.foldl_cons, ih, extractMetaLineWith_eq]
    cases h : annotationWith lower l with
    | none => simp [List.filterMap_cons, h]
    | some kv => simp [List.filterMap_cons, h]

theorem metaGet?_cons (kv : Str × Str) (m : Meta) (k : Str) :
    metaGet? (kv :: m) k = if kv.1 = k then some kv.2 else metaGet? m k := by
  cases kv
  rfl

theorem foldl_getWith_none (lower : Str → Str) (k : Str) (lines : List Str) :
    ∀ m : Meta, metaGet? (lines.foldl (extractMetaLineWith lower) m) k = none ↔
      notAnnotatedWith lower lines k ∧ metaGet? m k = none := by
  induction lines with
  | nil => intro m; simp [notAnnotatedWith]
  | cons l ls ih =>
    intro m
    rw [List.foldl_cons, ih, extractMetaLineWith_eq]
    simp only [notAnnotatedWith, List.mem_cons, forall_eq_or_imp]
    cases h : annotationWith lower l with
    | none => simp
    | some kv =>
      obtain ⟨k1, v1⟩ := kv
      rw [metaGet?_cons]
      by_cases hk : k1 = k
      · subst hk
        simp
      · simp only [hk, if_false, ne_eq, Option.some.injEq, Prod.mk.injEq, false_and,
          not_false_eq_true, implies_true, true_and]

theorem foldl_getWith_some (lower : Str → Str) (k v : Str) (lines : List Str) :
    ∀ m : Meta, metaGet? (lines.foldl (extractMetaLineWith lower) m) k = some v ↔
      lastAnnotatedWith lower lines k v ∨ (notAnnotatedWith lower lines k ∧ metaGet? m k = some v) := by
  induction lines with
  | nil =>
    intro m
    simp [lastAnnotatedWith, notAnnotatedWith]
  | cons l ls ih =>
    intro m
    rw [List.foldl_cons, ih, extractMetaLineWith_eq]
    constructor
    · rintro (⟨pre, line, post, he, ha, hp⟩ | ⟨hno, hg⟩)
      · exact Or.inl ⟨l :: pre, line, post, by rw [he]; rfl, ha, hp⟩
      · cases h : annotationWith lower l with
        | none =>
          rw [h] at hg
          refine Or.inr ⟨?_, hg⟩
          intro x hx
          rcases List.mem_cons.mp hx with rfl | hx
          · intro v2; rw [h]; simp
          · exact hno x hx
        | some kv =>
          obtain ⟨k1, v1⟩ := kv
          rw [h] at hg
          simp only [metaGet?_cons] at hg
          by_cases hk : k1 = k
          · subst hk
            simp only [if_true, Option.some.injEq] at hg
            subst hg
            exact Or.inl ⟨[], l, ls, rfl, h, hno⟩
          · simp only [hk, if_false] at hg
            refine Or.inr ⟨?_, hg⟩
            intro x hx
            rcases List.mem_cons.mp hx with rfl | hx
            · intro v2; rw [h]; simp [hk]
            · exact hno x hx
    · rintro (⟨pre, line, post, he, ha, hp⟩ | ⟨hno, hg⟩)
      · cases pre with
        | nil =>
          simp only [List.nil_append, List.cons.injEq] at he
          obtain ⟨rfl, rfl⟩ := he
          refine Or.inr ⟨hp, ?_⟩
          rw [ha]
          simp [metaGet?_cons]
        | cons p pre =>
          simp only [List.cons_append, List.cons.injEq] at he
          obtain ⟨rfl, rfl⟩ := he
          exact Or.inl ⟨pre, line, post, rfl, ha, hp⟩
      · refine Or.inr ⟨fun x hx => hno x (List.mem_cons_of_mem _ hx), ?_⟩
        cases h : annotationWith lower l with
        | none => exact hg
        | some kv =>
          obtain ⟨k1, v1⟩ := kv
          have hk : k1 ≠ k := by
            rintro rfl
            exact hno l (by simp) v1 h
          simp [metaGet?_cons, hk, hg]

theorem extractMetaWith_get_some (lower : Str → Str) (body k v : Str) :
    metaGet? (extractMetaWith lower body) k = some v ↔
      lastAnnotatedWith lower (strings.SplitLines body) k v := by
  rw [extractMetaWith, foldl_getWith_some]
  simp [metaGet?]

theorem extractMeta_get_some (body k v : Str) :
    metaGet? (extractMeta body) k = some v ↔ lastAnnotated (strings.SplitLines body) k v :=
  extractMetaWith_get_some strings.ToLower body k v

theorem extractMetaWith_get_none (lower : Str → Str) (body k : Str) :
    metaGet? (extractMetaWith lower body) k = none ↔
      notAnnotatedWith lower (strings.SplitLines body) k := by
  rw [extractMetaWith, foldl_getWith_none]
  simp [metaGet?]

/-- C22 (metadata extraction). Let `lower` be the lower-casing function of the
library, whatever its table is (`extractMeta` is `extractMetaWith` at the
`strings.ToLower` of this file). For every body, `extractMetaWith lower` holds the
annotations of the lines of the body, the latest first; it maps the key `k` to
`v` exactly when the last line that carries an annotation of `k` carries the
value `v`, and `k` is absent exactly when no line carries an annotation of `k`; a
line that carries no annotation leaves the map as it is. A line carries the
annotation `(k, v)` exactly when, trimmed and without a leading bullet, it matches
`metaRegex` with a key whose trimmed lower case is `k` and a value that trims to
`v`; a match has the form `**key:**` followed by white space and a value, and
every such text without a line feed matches. -/
theorem extractMeta_last_line (lower : Str → Str) (body : Str) :
    extractMetaWith lower body =
      ((strings.SplitLines body).filterMap (annotationWith lower)).reverse ∧
    (∀ k v, metaGet? (extractMetaWith lower body) k = some v ↔
      lastAnnotatedWith lower (strings.SplitLines body) k v) ∧
    (∀ k, metaGet? (extractMetaWith lower body) k = none ↔
      notAnnotatedWith lower (strings.SplitLines body) k) ∧
    (∀ (m : Meta) (line : Str), annotationWith lower line = none →
      extractMetaLineWith lower m line = m) ∧
    (∀ (line k v : Str), annotationWith lower line = some (k, v) ↔
      ∃ key val, metaRegex (strings.TrimPrefix (strings.TrimSpace line) "- ".toList) =
          some (key, val) ∧
        k = lower (strings.TrimSpace key) ∧ v = strings.TrimSpace val) ∧
    (∀ (t key val : Str), metaRegex t = some (key, val) →
      ∃ ws, t = "**".toList ++ key ++ ":**".toList ++ ws ++ val ∧ key ≠ [] ∧ val ≠ [] ∧
        ∀ c ∈ ws, regexp.isS c = true) ∧
    (∀ (key rest : Str), key ≠ [] → rest ≠ [] → '\n' ∉ key → '\n' ∉ rest →
      (metaRegex ("**".toList ++ key ++ ":**".toList ++ rest)).isSome = true) ∧
    extractMeta body = extractMetaWith strings.ToLower body := by
  refine ⟨?_, extractMetaWith_get_some lower body, extractMetaWith_get_none lower body, ?_, ?_,
    metaRegex_form, metaRegex_complete, rfl⟩
  · rw [extractMetaWith, foldl_extractMetaLineWith, List.append_nil]
  · intro m line h
    rw [extractMetaLineWith_eq, h]
  · intro line k v
    simp only [annotationWith, Option.map_eq_some', Prod.mk.injEq, Prod.exists]
    constructor
    · rintro ⟨key, val, h, rfl, rfl⟩
      exact ⟨key, val, h, rfl, rfl⟩
    · rintro ⟨key, val, h, rfl, rfl⟩
      exact ⟨key, val, h, rfl, rfl⟩

/-- C22 at two bodies. With the lines "- **Level:** 3", "text" and
"**level:** 7 " the key "level" is mapped to "7", the value of the last of the
two annotated lines, and the key "count" is absent. With the line
"- **ÉCOLE:** x" and a lower-casing function that maps the capital letters of
Latin-1 the key "école" is mapped to "x". -/
theorem extractMeta_last_line_witness :
    metaGet? (extractMeta "- **Level:** 3\ntext\n**level:** 7 ".toList) "level".toList =
      some "7".toList ∧
    lastAnnotatedWith strings.ToLower
      (strings.SplitLines "- **Level:** 3\ntext\n**level:** 7 ".toList)
      "level".toList "7".toList ∧
    metaGet? (extractMeta "- **Level:** 3\ntext\n**level:** 7 ".toList) "count".toList = none ∧
    extractMetaLineWith strings.ToLower [("a".toList, "b".toList)] "text".toList =
      [("a".toList, "b".toList)] ∧
    metaGet? (extractMetaWith lowerLatin "- **ÉCOLE:** x".toList) "école".toList =
      some "x".toList ∧
    lastAnnotatedWith lowerLatin (strings.SplitLines "- **ÉCOLE:** x".toList)
      "école".toList "x".toList :=
  ⟨by decide,
   ((extractMeta_last_line strings.ToLower "- **Level:** 3\ntext\n**level:** 7 ".toList).2.1
      "level".toList "7".toList).mp (by decide),
   by decide,
   (extractMeta_last_line strings.ToLower []).2.2.2.1 _ _ (by decide),
   by decide,
   ((extractMeta_last_line lowerLatin "- **ÉCOLE:** x".toList).2.1
      "école".toList "x".toList).mp (by decide)⟩

end orgparser

/-! ## Theorems on the culture extractor -/

namespace orgparser

theorem TrimFunc_nil (p : Char → Bool) (s : Str) (h : strings.TrimFunc s p = []) :
    ∀ c ∈ s, p c = true := by
  simp only [strings.TrimFunc, List.reverse_eq_nil_iff] at h
  have h1 := List.dropWhile_eq_nil_iff.mp h
  have h2 : s.dropWhile p = [] := by
    cases hu : s.dropWhile p with
    | nil => rfl
    | cons a w =>
      have ha := dropWhile_head p s a (by rw [hu]; rfl)
      have := h1 a (by rw [hu]; simp)
      rw [ha] at this
      cases this
  exact List.dropWhile_eq_nil_iff.mp h2

theorem getLast?_append_ne (a b : Str) (hb : b ≠ []) : (a ++ b).getLast? = b.getLast? := by
  rw [List.getLast?_append]
  cases hl : b.getLast? with
  | none => exact absurd (List.getLast?_eq_none_iff.mp hl) hb
  | some c => rfl

theorem TrimPrefix_tail (s p : Str) : strings.TrimPrefix s p <:+ s := by
  unfold strings.TrimPrefix
  split
  · exact List.drop_suffix _ _
  · exact List.suffix_refl _

/-- The value of an annotation is never empty: the line is trimmed before it is
matched, so the value ends with a character that is no white space. -/
theorem annotation_value_ne (line k v : Str) (h : annotationOf line = some (k, v)) : v ≠ [] := by
  simp only [annotationOf, Option.map_eq_some', Prod.mk.injEq, Prod.exists] at h
  obtain ⟨key, val, hm, _, rfl⟩ := h
  obtain ⟨ws, ht, _, hval, _⟩ := metaRegex_form _ _ _ hm
  obtain ⟨c, hc⟩ : ∃ c, val.getLast? = some c := by
    cases hl : val.getLast? with
    | none => exact absurd (List.getLast?_eq_none_iff.mp hl) hval
    | some c => exact ⟨c, rfl⟩
  have h1 : (strings.TrimPrefix (strings.TrimSpace line) "- ".toList).getLast? = some c := by
    rw [ht, getLast?_append_ne _ _ hval, hc]
  have hne : strings.TrimPrefix (strings.TrimSpace line) "- ".toList ≠ [] := by
    intro h0
    rw [h0] at h1
    cases h1
  obtain ⟨u, hu⟩ := TrimPrefix_tail (strings.TrimSpace line) "- ".toList
  have h2 : (strings.TrimSpace line).getLast? = some c := by
    rw [← hu, getLast?_append_ne _ _ hne, h1]
  have h3 : unicode.IsSpace c = false := TrimFunc_last unicode.IsSpace line c h2
  intro h0
  have := TrimFunc_nil unicode.IsSpace val h0 c (List.mem_of_getLast?_eq_some hc)
  rw [h3] at this
  cases this

theorem extractMeta_value_ne (body k v : Str) (h : metaGet? (extractMeta body) k = some v) :
    v ≠ [] := by
  obtain ⟨_, line, _, _, ha, _⟩ := (extractMeta_get_some body k v).mp h
  exact annotation_value_ne line k v ha

theorem split_at_colon (t : Str) (h : ':' ∈ t) :
    t = t.takeWhile (fun c => c != ':') ++ ':' :: (t.dropWhile (fun c => c != ':')).drop 1 ∧
      ':' ∉ t.takeWhile (fun c => c != ':') := by
  constructor
  · have h1 := (List.takeWhile_append_dropWhile (fun c => c != ':') t).symm
    cases hd : t.dropWhile (fun c => c != ':') with
    | nil =>
      have := List.dropWhile_eq_nil_iff.mp hd ':' h
      simp at this
    | cons a w =>
      have ha := dropWhile_head (fun c => c != ':') t a (by rw [hd]; rfl)
      have ha2 : a = ':' := by simpa using ha
      rw [hd] at h1
      rw [ha2] at h1
      exact h1
  · intro hm
    have := List.mem_takeWhile_imp hm
    simp at this

theorem barePresetLine_eq (preset line : Str) :
    barePresetLine preset line =
      if isBarePreset line = true then
        strings.TrimSpace (((strings.TrimSpace line).dropWhile (fun c => c != ':')).drop 1)
      else preset := by
  simp only [barePresetLine, isBarePreset]
  split
  · rename_i h
    have hc := colon_of_preset _ h
    simp [strings.SplitColon2, hc]
  · rfl

theorem foldl_bare_none (lines : List Str) (h : ∀ l ∈ lines, isBarePreset l = false) :
    ∀ p : Str, lines.foldl barePresetLine p = p := by
  induction lines with
  | nil => intro p; rfl
  | cons l ls ih =>
    intro p
    rw [List.foldl_cons, barePresetLine_eq, h l (by simp)]
    exact ih (fun x hx => h x (by simp [hx])) p

theorem foldl_bare_last (pre : List Str) (l : Str) (post : List Str) (p : Str)
    (hl : isBarePreset l = true) (hpost : ∀ x ∈ post, isBarePreset x = false) :
    (pre ++ l :: post).foldl barePresetLine p =
      strings.TrimSpace (((strings.TrimSpace l).dropWhile (fun c => c != ':')).drop 1) := by
  rw [List.foldl_append, List.foldl_cons, foldl_bare_none post hpost, barePresetLine_eq, hl]
  rfl

theorem parseCulture_annotated (sec : Section) (h : metaGet (extractMeta sec.content)
    "preset".toList ≠ []) : parseCulture sec = cultureOfMeta (extractMeta sec.content) := by
  simp only [parseCulture]
  rw [if_neg]
  exact h

theorem parseCulture_bare (sec : Section) (h : metaGet (extractMeta sec.content)
    "preset".toList = []) :
    parseCulture sec =
      { cultureOfMeta (extractMeta sec.content) with
        Preset := (strings.SplitLines sec.content).foldl barePresetLine [] } := by
  simp only [parseCulture]
  rw [if_pos]
  · show _ = { cultureOfMeta (extractMeta sec.content) with
      Preset := (strings.SplitLines sec.content).foldl barePresetLine [] }
    have : (cultureOfMeta (extractMeta sec.content)).Preset = [] := h
    rw [this]
  · exact h

theorem parseCulture_others (sec : Section) :
    (parseCulture sec).Escalation = (cultureOfMeta (extractMeta sec.content)).Escalation ∧
    (parseCulture sec).ProgressUpdates =
      (cultureOfMeta (extractMeta sec.content)).ProgressUpdates ∧
    (parseCulture sec).AckRequired = (cultureOfMeta (extractMeta sec.content)).AckRequired ∧
    (parseCulture sec).HierarchyDepth =
      (cultureOfMeta (extractMeta sec.content)).HierarchyDepth := by
  by_cases h : metaGet (extractMeta sec.content) "preset".toList = []
  · rw [parseCulture_bare sec h]
    exact ⟨rfl, rfl, rfl, rfl⟩
  · rw [parseCulture_annotated sec h]
    exact ⟨rfl, rfl, rfl, rfl⟩

/-- C23 (culture preset fallback). For every culture section: if the body has a
preset annotation, `Preset` is its value, whatever the bare lines are; if it has
none, `Preset` is the trimmed text after the first colon of the last line that,
trimmed and lower-cased, begins with "preset:", and it is empty when there is no
such line; the other four fields are those read from the annotations alone. -/
theorem culture_preset (sec : Section) :
    (∀ v, metaGet? (extractMeta sec.content) "preset".toList = some v →
      (parseCulture sec).Preset = v) ∧
    (metaGet? (extractMeta sec.content) "preset".toList = none →
      (∀ (pre : List Str) (l : Str) (post : List Str),
        strings.SplitLines sec.content = pre ++ l :: post → isBarePreset l = true →
        (∀ x ∈ post, isBarePreset x = false) →
        ∃ before after, strings.TrimSpace l = before ++ ':' :: after ∧ ':' ∉ before ∧
          (parseCulture sec).Preset = strings.TrimSpace after) ∧
      ((∀ l ∈ strings.SplitLines sec.content, isBarePreset l = false) →
        (parseCulture sec).Preset = [])) ∧
    (parseCulture sec).Escalation = metaGet (extractMeta sec.content) "escalation".toList ∧
    (parseCulture sec).ProgressUpdates =
      metaGet (extractMeta sec.content) "progress updates".toList ∧
    (parseCulture sec).AckRequired = (cultureOfMeta (extractMeta sec.content)).AckRequired ∧
    (parseCulture sec).HierarchyDepth =
      (cultureOfMeta (extractMeta sec.content)).HierarchyDepth := by
  refine ⟨?_, ?_, (parseCulture_others sec).1, (parseCulture_others sec).2.1,
    (parseCulture_others sec).2.2.1, (parseCulture_others sec).2.2.2⟩
  · intro v hv
    have hne := extractMeta_value_ne _ _ _ hv
    have hg : metaGet (extractMeta sec.content) "preset".toList = v := metaGet_of_some _ _ _ hv
    rw [parseCulture_annotated sec (by rw [hg]; exact hne)]
    exact hg
  · intro hnone
    have hg : metaGet (extractMeta sec.content) "preset".toList = [] :=
      metaGet_of_none _ _ hnone
    rw [parseCulture_bare sec hg]
    constructor
    · intro pre l post he hl hpost
      have hc : ':' ∈ strings.TrimSpace l := colon_of_preset _ hl
      obtain ⟨h1, h2⟩ := split_at_colon _ hc
      refine ⟨_, _, h1, h2, ?_⟩
      show (strings.SplitLines sec.content).foldl barePresetLine [] = _
      rw [he, foldl_bare_last pre l post [] hl hpost]
    · intro hall
      show (strings.SplitLines sec.content).foldl barePresetLine [] = _
      exact foldl_bare_none _ hall []

/-- C23 at three bodies: with a preset annotation and a bare line the annotation
wins; with two bare lines and no annotation the last bare line gives the preset,
cut at its first colon; with neither the preset is empty. -/
theorem culture_preset_witness :
    (parseCulture (Section.mk "Culture".toList 2
      "preset: bare\n- **Preset:** startup".toList [])).Preset = "startup".toList ∧
    (∃ before after,
      strings.TrimSpace " Preset:research:lab ".toList = before ++ ':' :: after ∧
      ':' ∉ before ∧
      (parseCulture (Section.mk "Culture".toList 2
        "preset: agency\n Preset:research:lab \n- **Escalation:** immediate".toList [])).Preset =
        strings.TrimSpace after) ∧
    (parseCulture (Section.mk "Culture".toList 2
      "preset: agency\n Preset:research:lab \n- **Escalation:** immediate".toList [])).Preset =
      "research:lab".toList ∧
    (parseCulture (Section.mk "Culture".toList 2
      "- **Escalation:** immediate".toList [])).Preset = [] :=
  ⟨(culture_preset _).1 "startup".toList (by decide),
   ((culture_preset (Section.mk "Culture".toList 2
      "preset: agency\n Preset:research:lab \n- **Escalation:** immediate".toList [])).2.1
      (by decide)).1 ["preset: agency".toList] " Preset:research:lab ".toList
      ["- **Escalation:** immediate".toList] (by decide) (by decide) (by decide),
   by decide,
   ((culture_preset (Section.mk "Culture".toList 2
      "- **Escalation:** immediate".toList [])).2.1 (by decide)).2 (by decide)⟩

end orgparser

/-! ## Theorems on the policy extractor -/

namespace orgparser

theorem findDigits_run (v run : Str) (h : firstDigitRun v run) : findDigits v = run := by
  obtain ⟨pre, post, rfl, hpre, hne, hrun, hpost⟩ := h
  obtain ⟨d, ds, rfl⟩ := List.exists_cons_of_ne_nil hne
  have hd : d.isDigit = true := hrun d (by simp)
  simp only [findDigits, List.append_assoc]
  rw [List.dropWhile_append_of_pos (by intro a ha; simp [hpre a ha])]
  rw [List.cons_append, List.dropWhile_cons_of_neg (by simp [hd]), ← List.cons_append,
    List.takeWhile_append_of_pos hrun]
  cases post with
  | nil => simp
  | cons p ps =>
    have := hpost p (by simp)
    rw [List.takeWhile_cons_of_neg (by simp [this]), List.append_nil]

theorem findDigits_no_digit (v : Str) (h : ∀ c ∈ v, c.isDigit = false) : findDigits v = [] := by
  have : v.dropWhile (fun c => !c.isDigit) = [] :=
    List.dropWhile_eq_nil_iff.mpr (by intro a ha; simp [h a ha])
  simp only [findDigits, this, List.takeWhile_nil]

theorem Atoi_run (run : Str) (hne : run ≠ []) (h : ∀ c ∈ run, c.isDigit = true) :
    strconv.Atoi run =
      if (strconv.digitsValue run : Int) ≥ 2 ^ 63 then (2 ^ 63 - 1, false)
      else ((strconv.digitsValue run : Int), true) := by
  obtain ⟨d, ds, rfl⟩ := List.exists_cons_of_ne_nil hne
  have hd := isDigit_range d (h d (by simp))
  have h1 : d ≠ '-' := by
    rintro rfl
    exact absurd hd (by decide)
  have h2 : d ≠ '+' := by
    rintro rfl
    exact absurd hd (by decide)
  have hall : (d :: ds).all Char.isDigit = true := by
    rw [List.all_eq_true]
    exact h
  have e1 : ((some d : Option Char) == some '-') = false := by simpa using h1
  have e2 : ((some d : Option Char) == some '+') = false := by simpa using h2
  simp only [strconv.Atoi, List.head?_cons, e1, e2, Bool.or_self, Bool.false_eq_true, if_false,
    List.isEmpty_cons, hall, Bool.not_true]

theorem policyNumber_run (m : Meta) (key v run : Str) (hv : metaGet? m key = some v)
    (hr : firstDigitRun v run) :
    policyNumber m key =
      if (strconv.digitsValue run : Int) ≥ 2 ^ 63 then 2 ^ 63 - 1
      else (strconv.digitsValue run : Int) := by
  have hf := findDigits_run v run hr
  obtain ⟨_, _, _, _, hne, hrun, _⟩ := hr
  simp only [policyNumber, hv, hf, ne_eq, hne, not_false_eq_true, if_true, Atoi_run run hne hrun]
  split <;> rfl

theorem parsePolicies_eq (sec : Section) :
    parsePolicies sec =
      { PerAgentBudget := policyNumber (extractMeta (policyContent sec)) "per-agent limit".toList
        AlertThreshold := policyNumber (extractMeta (policyContent sec)) "alert threshold".toList
        DepartmentCaps := [] } := rfl

/-- C24 (policy numbers). The two numbers of a policy section are `policyNumber`
of the keys "per-agent limit" and "alert threshold" in the annotations of its
combined body. For every map and key, `policyNumber` is 0 when the key is absent
and when its value has no digit, and it is the decimal value of the first maximal
run of ASCII digits of the value when this value is below 2^63; a larger value
gives 2^63 - 1. -/
theorem policy_numbers (sec : Section) :
    (parsePolicies sec).PerAgentBudget =
      policyNumber (extractMeta (policyContent sec)) "per-agent limit".toList ∧
    (parsePolicies sec).AlertThreshold =
      policyNumber (extractMeta (policyContent sec)) "alert threshold".toList ∧
    ∀ (m : Meta) (key : Str),
      (metaGet? m key = none → policyNumber m key = 0) ∧
      (∀ v, metaGet? m key = some v → (∀ c ∈ v, c.isDigit = false) → policyNumber m key = 0) ∧
      (∀ v run, metaGet? m key = some v → firstDigitRun v run →
        strconv.digitsValue run < 2 ^ 63 → policyNumber m key = strconv.digitsValue run) ∧
      (∀ v run, metaGet? m key = some v → firstDigitRun v run →
        2 ^ 63 ≤ strconv.digitsValue run → policyNumber m key = 2 ^ 63 - 1) := by
  refine ⟨rfl, rfl, ?_⟩
  intro m key
  refine ⟨?_, ?_, ?_, ?_⟩
  · intro h
    simp only [policyNumber, h]
  · intro v hv hnd
    simp only [policyNumber, hv, findDigits_no_digit v hnd, ne_eq, not_true_eq_false, if_false]
  · intro v run hv hr hlt
    rw [policyNumber_run m key v run hv hr, if_neg]
    have : ((strconv.digitsValue run : Nat) : Int) < 2 ^ 63 := by exact_mod_cast hlt
    omega
  · intro v run hv hr hge
    rw [policyNumber_run m key v run hv hr, if_pos]
    have : (2 : Int) ^ 63 ≤ ((strconv.digitsValue run : Nat) : Int) := by exact_mod_cast hge
    omega

/-- C24 at the section whose sub-heading "Budget" carries
"500 credits/period" and "80%": the numbers are 500 and 80. -/
theorem policy_numbers_witness :
    (parsePolicies budgetSection).PerAgentBudget = 500 ∧
    (parsePolicies budgetSection).AlertThreshold = 80 ∧
    policyNumber (extractMeta (policyContent budgetSection)) "per-agent limit".toList =
      strconv.digitsValue "500".toList ∧
    policyNumber (extractMeta (policyContent budgetSection)) "alert threshold".toList =
      strconv.digitsValue "80".toList ∧
    policyNumber (extractMeta (policyContent budgetSection)) "count".toList = 0 :=
  ⟨by decide, by decide,
   ((policy_numbers budgetSection).2.2 _ _).2.2.1 "500 credits/period".toList "500".toList
     (by decide) ⟨[], " credits/period".toList, rfl, by decide, by decide, by decide, by decide⟩
     (by decide),
   ((policy_numbers budgetSection).2.2 _ _).2.2.1 "80%".toList "80".toList
     (by decide) ⟨[], "%".toList, rfl, by decide, by decide, by decide, by decide⟩
     (by decide),
   ((policy_numbers budgetSection).2.2 _ _).1 (by decide)⟩

theorem SplitLines_ne_nil (s : Str) : strings.SplitLines s ≠ [] := by
  cases s with
  | nil => simp [strings.SplitLines]
  | cons c cs =>
    simp only [strings.SplitLines]
    split
    · simp
    · split <;> simp

theorem SplitLines_append (a b : Str) :
    strings.SplitLines (a ++ '\n' :: b) = strings.SplitLines a ++ strings.SplitLines b := by
  induction a with
  | nil => simp [strings.SplitLines]
  | cons c cs ih =>
    rw [List.cons_append]
    by_cases hc : c = '\n'
    · simp only [strings.SplitLines, hc, if_true, ih, List.cons_append]
    · simp only [strings.SplitLines, hc, if_false, ih]
      cases h : strings.SplitLines cs with
      | nil => exact absurd h (SplitLines_ne_nil cs)
      | cons l ls => rfl

theorem foldl_content (l : List Section) :
    ∀ acc : Str,
      l.foldl (fun acc child => acc ++ '\n' :: child.content) acc =
        acc ++ (l.map (fun c => '\n' :: c.content)).flatten := by
  induction l with
  | nil => intro acc; simp
  | cons c cs ih =>
    intro acc
    rw [List.foldl_cons, ih]
    simp

theorem SplitLines_flatten (l : List Section) :
    ∀ acc : Str,
      strings.SplitLines (acc ++ (l.map (fun c => '\n' :: c.content)).flatten) =
        strings.SplitLines acc ++ (l.map (fun c => strings.SplitLines c.content)).flatten := by
  induction l with
  | nil => intro acc; simp
  | cons c cs ih =>
    intro acc
    have : acc ++ ((c :: cs).map (fun c => '\n' :: c.content)).flatten =
        (acc ++ '\n' :: c.content) ++ (cs.map (fun c => '\n' :: c.content)).flatten := by
      simp
    rw [this, ih, SplitLines_append]
    simp

theorem policyContent_eq (sec : Section) :
    policyContent sec =
      sec.content ++ (sec.children.map (fun c => '\n' :: c.content)).flatten :=
  foldl_content _ _

theorem policyContent_lines (sec : Section) :
    strings.SplitLines (policyContent sec) =
      strings.SplitLines sec.content ++
        (sec.children.map (fun c => strings.SplitLines c.content)).flatten := by
  rw [policyContent_eq, SplitLines_flatten]

/-- C25 (policy body concatenation). For every policy section the text whose
annotations `parsePolicies` reads is the section's own body followed by the body
of each immediate child, in document order, each after a line feed; its lines are
the lines of the own body followed by the lines of each child's body, so a key is
mapped to the value of the last annotated line among them, a line of a child's
body included; and `parsePolicies` is the same for any two sections with the same
own body and the same bodies of immediate children, whatever stands below the
children. -/
theorem policy_bodies (sec : Section) :
    policyContent sec =
      sec.content ++ (sec.children.map (fun c => '\n' :: c.content)).flatten ∧
    strings.SplitLines (policyContent sec) =
      strings.SplitLines sec.content ++
        (sec.children.map (fun c => strings.SplitLines c.content)).flatten ∧
    parsePolicies sec =
      { PerAgentBudget := policyNumber (extractMeta (policyContent sec)) "per-agent limit".toList
        AlertThreshold := policyNumber (extractMeta (policyContent sec)) "alert threshold".toList
        DepartmentCaps := [] } ∧
    (∀ k v, metaGet? (extractMeta (policyContent sec)) k = some v ↔
      lastAnnotated
        (strings.SplitLines sec.content ++
          (sec.children.map (fun c => strings.SplitLines c.content)).flatten) k v) ∧
    (∀ sec2 : Section, sec2.content = sec.content →
      sec2.children.map Section.content = sec.children.map Section.content →
      parsePolicies sec2 = parsePolicies sec) := by
  refine ⟨policyContent_eq sec, policyContent_lines sec, rfl, ?_, ?_⟩
  · intro k v
    rw [extractMeta_get_some, policyContent_lines]
  · intro sec2 hc hch
    have : policyContent sec2 = policyContent sec := by
      rw [policyContent_eq, policyContent_eq, hc]
      have h2 := congrArg (List.map (fun s : Str => '\n' :: s)) hch
      simp only [List.map_map] at h2
      have e : ∀ l : List Section, l.map (fun c => '\n' :: c.content) =
          l.map ((fun s : Str => '\n' :: s) ∘ Section.content) := fun l => rfl
      rw [e, e, h2]
    rw [parsePolicies_eq, parsePolicies_eq, this]

/-- C25 at two sections: the annotations under the sub-heading "Budget" are
honoured; and with the key "alert threshold" in the own body (70%), in the first
child (80%) and in the second child (90%) the last one wins, while the key
"per-agent limit", which only a grandchild carries, stays at 0. -/
theorem policy_bodies_witness :
    parsePolicies budgetSection = ⟨500, 80, []⟩ ∧
    parsePolicies layeredPolicies = ⟨0, 90, []⟩ ∧
    policyContent layeredPolicies =
      "- **Alert threshold:** 70%\n- **Alert threshold:** 80%\n- **Alert threshold:** 90%".toList ∧
    metaGet? (extractMeta (policyContent layeredPolicies)) "alert threshold".toList =
      some "90%".toList ∧
    parsePolicies (Section.mk "Policies".toList 2 "- **Alert threshold:** 70%".toList
      [Section.mk "Budget".toList 3 "- **Alert threshold:** 80%".toList [],
       Section.mk "Later".toList 3 "- **Alert threshold:** 90%".toList []]) =
      parsePolicies layeredPolicies :=
  ⟨by decide, by decide, (policy_bodies layeredPolicies).1.trans (by decide),
   ((policy_bodies layeredPolicies).2.2.2.1 "alert threshold".toList "90%".toList).mpr
     ⟨["- **Alert threshold:** 70%".toList, "- **Alert threshold:** 80%".toList],
      "- **Alert threshold:** 90%".toList, [], by decide, by decide,
      fun l hl => absurd hl (List.not_mem_nil l)⟩,
   (policy_bodies layeredPolicies).2.2.2.2 _ rfl rfl⟩

end orgparser

/-! ## Theorems on the init wizard -/

namespace wizard

/-- C27 (wizard back-navigation), which the code does not satisfy. For every
model, the team-name step included, `Update` on the key "esc" gives the model
with `cancelled` set and every other field, the step among them, unchanged, and
returns `tea.Quit`: the first `switch` of `Update` returns before the step is
looked at. The esc case of `updateTeamName`, which would go back to the template
step without cancelling, is never reached from `Update`, although the help line
of the team-name step says "esc to go back". -/
theorem Update_esc_cancels (inputUpdate : TextInput → Str → TextInput × Cmd) (m : Model) :
    Update inputUpdate m (Msg.KeyMsg "esc".toList) = some ({ m with cancelled := true }, Cmd.Quit) ∧
    (∀ r, Update inputUpdate m (Msg.KeyMsg "esc".toList) = some r →
      r.1.cancelled = true ∧ r.1.step = m.step ∧ r.2 = Cmd.Quit) ∧
    updateTeamName inputUpdate m "esc".toList =
      some ({ m with step := step.stepTemplate }, Cmd.nil) ∧
    (Update inputUpdate teamNameModel (Msg.KeyMsg "esc".toList)).map
        (fun r => (r.1.step, r.1.cancelled)) = some (step.stepTeamName, true) ∧
    helpLine step.stepTeamName = "enter to confirm • esc to go back".toList := by
  have h : Update inputUpdate m (Msg.KeyMsg "esc".toList) =
      some ({ m with cancelled := true }, Cmd.Quit) := by
    simp only [Update]
    rw [if_neg (by decide), if_pos trivial]
  refine ⟨h, ?_, ?_, ?_, rfl⟩
  · intro r hr
    rw [h] at hr
    injection hr with hr
    subst hr
    exact ⟨rfl, rfl, rfl⟩
  · simp only [updateTeamName]
    rw [if_neg (by decide), if_pos trivial]
  · simp only [Update]
    rw [if_neg (by decide), if_pos trivial]
    rfl

end wizard

/-! ## Lemmas on a document that begins with its title -/

namespace orgparser

theorem scanHeadings_shift (L : List Str) :
    ∀ (i : Nat) (b : Bool), scanHeadings (i + 1) b L = (scanHeadings i b L).map shiftLine := by
  induction L with
  | nil => intro i b; rfl
  | cons l ls ih =>
    intro i b
    simp only [scanHeadings]
    split
    · exact ih _ _
    · split
      · exact ih _ _
      · split
        · rw [ih]; rfl
        · exact ih _ _

theorem flatSections_cons (lines : List Str) (h : headingInfo) (hs : List headingInfo) :
    flatSections lines (h :: hs) =
      Section.mk h.heading h.level
        (strings.JoinLines
          ((lines.take (match hs with
              | [] => lines.length
              | h2 :: _ => h2.lineIdx)).drop (h.lineIdx + 1))) [] ::
        flatSections lines hs := rfl

theorem flatSections_shift (l0 : Str) (L : List Str) (H : List headingInfo) :
    flatSections (l0 :: L) (H.map shiftLine) = flatSections L H := by
  induction H with
  | nil => rfl
  | cons h hs ih =>
    rw [List.map_cons, flatSections_cons, flatSections_cons, ih]
    cases hs with
    | nil => rfl
    | cons h2 more => rfl

theorem flatSections_title (l0 n : Str) (L : List Str) (H : List headingInfo) :
    ∃ c0, flatSections (l0 :: L) (⟨1, n, 0⟩ :: H.map shiftLine) =
      Section.mk n 1 c0 [] :: flatSections L H := by
  rw [flatSections_cons, flatSections_shift]
  exact ⟨_, rfl⟩

theorem Section.children_setChildren (r : Section) (cs : List Section) :
    (r.setChildren cs).children = cs := by
  cases r; rfl

theorem Section.level_setChildren (r : Section) (cs : List Section) :
    (r.setChildren cs).level = r.level := by
  cases r; rfl

theorem Section.setChildren_setChildren (r : Section) (cs ds : List Section) :
    (r.setChildren cs).setChildren ds = r.setChildren ds := by
  cases r; rfl

theorem Section.setChildren_self (r : Section) (h : r.children = []) : r.setChildren [] = r := by
  cases r
  simp only [Section.children_mk] at h
  subst h
  rfl

theorem dropWhile_embed (lv : Int) (base : stackEntry) (hb : ¬ base.level ≥ lv)
    (stack : List stackEntry) :
    (stack.map embedEntry ++ [base]).dropWhile (fun e => decide (e.level ≥ lv)) =
      (stack.dropWhile (fun e => decide (e.level ≥ lv))).map embedEntry ++ [base] := by
  induction stack with
  | nil =>
    simp only [List.map_nil, List.nil_append, List.dropWhile_nil]
    rw [List.dropWhile_cons_of_neg (by simpa using hb)]
  | cons e es ih =>
    by_cases he : e.level ≥ lv
    · have he2 : (embedEntry e).level ≥ lv := he
      rw [List.map_cons, List.cons_append, List.dropWhile_cons_of_pos (by simpa using he2),
        List.dropWhile_cons_of_pos (by simpa using he), ih]
    · have he2 : ¬ (embedEntry e).level ≥ lv := he
      rw [List.map_cons, List.cons_append, List.dropWhile_cons_of_neg (by simpa using he2),
        List.dropWhile_cons_of_neg (by simpa using he)]
      rfl

theorem buildTreeStep_paths (st : List Section × List stackEntry) (s : Section)
    (h : ∀ e ∈ st.2, e.sec ≠ []) : ∀ e ∈ (buildTreeStep st s).2, e.sec ≠ [] := by
  have hsub : ∀ e ∈ st.2.dropWhile (fun e => decide (e.level ≥ s.level)), e.sec ≠ [] :=
    fun e he => h e ((List.dropWhile_suffix _).subset he)
  simp only [buildTreeStep]
  cases hd : st.2.dropWhile (fun e => decide (e.level ≥ s.level)) with
  | nil =>
    intro e he
    simp only [List.mem_singleton] at he
    subst he
    exact List.cons_ne_nil _ _
  | cons top more =>
    rw [hd] at hsub
    intro e he
    simp only [List.mem_cons] at he
    rcases he with rfl | he
    · intro h0
      have := congrArg List.length h0
      simp at this
    · exact hsub e (by simp [he])

theorem buildTreeStep_embed (r : Section) (st : List Section × List stackEntry) (s : Section)
    (h : ∀ e ∈ st.2, e.sec ≠ []) (hl : r.level < s.level) :
    buildTreeStep (embedState r st) s = embedState r (buildTreeStep st s) := by
  have hsub : ∀ e ∈ st.2.dropWhile (fun e => decide (e.level ≥ s.level)), e.sec ≠ [] :=
    fun e he => h e ((List.dropWhile_suffix _).subset he)
  have hb : ¬ (⟨[0], r.level⟩ : stackEntry).level ≥ s.level := by
    show ¬ r.level ≥ s.level
    omega
  simp only [buildTreeStep, embedState, dropWhile_embed s.level _ hb]
  cases hd : st.2.dropWhile (fun e => decide (e.level ≥ s.level)) with
  | nil =>
    simp only [List.map_nil, List.nil_append, modifyAt, updateNth, getAt, List.getElem?_cons_zero,
      Section.children_setChildren, Section.setChildren_setChildren, List.length_append,
      List.length_singleton, List.cons_append]
    rfl
  | cons top more =>
    rw [hd] at hsub
    have htop := hsub top (by simp)
    obtain ⟨j, p, hp⟩ := List.exists_cons_of_ne_nil htop
    simp only [List.map_cons, List.cons_append, embedEntry, hp, modifyAt, updateNth, getAt,
      List.getElem?_cons_zero, Section.children_setChildren, Section.setChildren_setChildren]

theorem foldl_buildTreeStep_embed (r : Section) (F : List Section)
    (hF : ∀ s ∈ F, r.level < s.level) :
    ∀ st : List Section × List stackEntry, (∀ e ∈ st.2, e.sec ≠ []) →
      F.foldl buildTreeStep (embedState r st) = embedState r (F.foldl buildTreeStep st) := by
  induction F with
  | nil => intro st _; rfl
  | cons s rest ih =>
    intro st h
    rw [List.foldl_cons, List.foldl_cons, buildTreeStep_embed r st s h (hF s (by simp))]
    exact ih (fun x hx => hF x (by simp [hx])) _ (buildTreeStep_paths st s h)

/-- A first section above all later ones becomes the only root, and the later
sections build their tree below it. -/
theorem buildTree_root (r : Section) (F : List Section) (hr : r.children = [])
    (hF : ∀ s ∈ F, r.level < s.level) :
    buildTree (r :: F) = [r.setChildren (buildTree F)] := by
  have h0 : buildTreeStep ([], []) r = embedState r ([], []) := by
    simp only [buildTreeStep, embedState, List.dropWhile_nil, List.nil_append, List.length_singleton,
      List.map_nil, Section.setChildren_self r hr]
  simp only [buildTree, List.foldl_cons, h0]
  rw [foldl_buildTreeStep_embed r F hF ([], []) (by simp)]
  rfl

theorem parseMarkdownSections_buildTree (source : Str) :
    parseMarkdownSections source =
      buildTree (flatSections (strings.SplitLines source)
        (scanHeadings 0 false (strings.SplitLines source))) := by
  simp only [parseMarkdownSections]
  split
  · rename_i h
    rw [List.length_eq_zero.mp h]
    rfl
  · rfl

end orgparser

/-! ## Theorems on the built-in templates -/

namespace templates

open orgparser

theorem SplitLines_line (l : Str) (h : '\n' ∉ l) : strings.SplitLines l = [l] := by
  induction l with
  | nil => rfl
  | cons c cs ih =>
    have hc : c ≠ '\n' := fun e => h (by simp [e])
    have hcs : '\n' ∉ cs := fun e => h (by simp [e])
    simp only [strings.SplitLines, hc, if_false, ih hcs]

theorem TrimSpace_title (n : Str) (hn : validName n) :
    strings.TrimSpace ('#' :: ' ' :: n) = '#' :: ' ' :: n := by
  obtain ⟨h0, _, h2⟩ := hn
  apply TrimFunc_fixed
  · intro c hc
    simp only [List.head?_cons, Option.mem_def, Option.some.injEq] at hc
    subst hc
    decide
  · intro c hc
    have h3 : n.getLast? = some c := by
      have := getLast?_append_ne ['#', ' '] n h0
      simp only [List.cons_append, List.nil_append] at this
      rw [this] at hc
      exact hc
    rw [← h2] at h3
    exact TrimFunc_last unicode.IsSpace n c h3

theorem headingRegex_title (n : Str) (hn : validName n) :
    ∃ m : Str × Str, headingRegex ('#' :: ' ' :: n) = some m ∧ (m.1.length : Int) = 1 ∧ m.2 = n := by
  have h := headingOfLine_title n hn.1 hn.2.2 hn.2.1
  simp only [headingOfLine, TrimSpace_title n hn] at h
  cases hr : headingRegex ('#' :: ' ' :: n) with
  | none =>
    rw [hr] at h
    simp only [Prod.mk.injEq] at h
    exact absurd h.1.symm hn.1
  | some m =>
    rw [hr] at h
    simp only [Prod.mk.injEq] at h
    exact ⟨m, rfl, h.2, h.1⟩

theorem scanHeadings_title (n : Str) (hn : validName n) (L : List Str) :
    scanHeadings 0 false (('#' :: ' ' :: n) :: L) = ⟨1, n, 0⟩ :: scanHeadings 1 false L := by
  obtain ⟨m, hm, h1, h2⟩ := headingRegex_title n hn
  have hf : strings.HasPrefix ('#' :: ' ' :: n) "\x60\x60\x60".toList = false := rfl
  rw [scanHeadings]
  simp only [TrimSpace_title n hn, hf, Bool.false_eq_true, if_false, hm, h1, h2, Nat.zero_add]

/-- The sections of a document whose first line is the title `# n`, for a valid
name `n`, and whose other headings have a level above 1: one root with the title
`n` and the level 1, and below it the sections of the rest of the document. -/
theorem parseMarkdownSections_titled (n rest : Str) (hn : validName n)
    (hrest : belowTitle rest = true) :
    ∃ c0, parseMarkdownSections ('#' :: ' ' :: (n ++ '\n' :: rest)) =
      [Section.mk n 1 c0 (parseMarkdownSections rest)] := by
  have hl : '\n' ∉ '#' :: ' ' :: n := by
    intro h
    simp only [List.mem_cons] at h
    rcases h with h | h | h
    · exact absurd h (by decide)
    · exact absurd h (by decide)
    · exact hn.2.1 h
  have hs : strings.SplitLines ('#' :: ' ' :: (n ++ '\n' :: rest)) =
      ('#' :: ' ' :: n) :: strings.SplitLines rest := by
    have := SplitLines_append ('#' :: ' ' :: n) rest
    rw [SplitLines_line _ hl] at this
    exact this
  obtain ⟨c0, hc0⟩ := flatSections_title ('#' :: ' ' :: n) n (strings.SplitLines rest)
    (scanHeadings 0 false (strings.SplitLines rest))
  refine ⟨c0, ?_⟩
  rw [parseMarkdownSections_buildTree, hs, scanHeadings_title n hn, scanHeadings_shift, hc0,
    buildTree_root _ _ (Section.children_mk _ _ _ _), ← parseMarkdownSections_buildTree]
  · rfl
  · intro s hs
    simp only [belowTitle, List.all_eq_true, decide_eq_true_eq] at hrest
    exact hrest s hs

/-- The result of `Parse` on a document whose first line is the title `# n`,
for a valid name `n`, and whose other headings have a level above 1. -/
theorem Parse_titled (n rest : Str) (hn : validName n) (hrest : belowTitle rest = true) :
    (Parse ('#' :: ' ' :: (n ++ '\n' :: rest))).1.Name = n ∧
    (Parse ('#' :: ' ' :: (n ++ '\n' :: rest))).1.Agents = agentsOfBody rest ∧
    (Parse ('#' :: ' ' :: (n ++ '\n' :: rest))).2 =
      (if agentsOfBody rest = [] then [noAgentsError] else []) := by
  obtain ⟨c0, hc0⟩ := parseMarkdownSections_titled n rest hn hrest
  have hname : (Parse ('#' :: ' ' :: (n ++ '\n' :: rest))).1.Name = n := by
    rw [(Parse_errors_name _).2, hc0]
    rfl
  have hag : (Parse ('#' :: ' ' :: (n ++ '\n' :: rest))).1.Agents = agentsOfBody rest := by
    have hst : ((parseMarkdownSections rest).foldl dispatchChild
        ({ emptyOrg with Name := n }, [])).1.Name ≠ [] := by
      have := (foldl_dispatchChild_errors (parseMarkdownSections rest)
        ({ emptyOrg with Name := n }, []))
      rw [this.2]
      exact hn.1
    have hp : Parse ('#' :: ' ' :: (n ++ '\n' :: rest)) =
        finishParse [Section.mk n 1 c0 (parseMarkdownSections rest)]
          ((parseMarkdownSections rest).foldl dispatchChild ({ emptyOrg with Name := n }, [])) := by
      simp only [Parse, hc0]
      rfl
    rw [hp, finishParse_named _ _ hst,
      (foldl_dispatchChild_agents (parseMarkdownSections rest) _).1]
    rfl
  refine ⟨hname, hag, ?_⟩
  rw [(Parse_errors_name _).1, hag]

theorem Render_titled (rest n : Str) :
    strings.ReplaceFirst ("# \x7b\x7bTEAM_NAME\x7d\x7d\n".toList ++ rest)
      "\x7b\x7bTEAM_NAME\x7d\x7d".toList n = '#' :: ' ' :: (n ++ '\n' :: rest) := rfl

theorem assistantTeam_facts :
    assistantTeam.Content = "# \x7b\x7bTEAM_NAME\x7d\x7d\n".toList ++ bodyOf assistantTeam ∧
    belowTitle (bodyOf assistantTeam) = true ∧
    (agentsOfBody (bodyOf assistantTeam)).map (fun a => (a.Name, a.Level)) =
      [("Oscar".toList, 10), ("Radar".toList, 7), ("Muse".toList, 7), ("Ink".toList, 4),
       ("Lens".toList, 4), ("Forge".toList, 7), ("Shield".toList, 7), ("Guru".toList, 7)] := by
  decide!

theorem contentAgency_facts :
    contentAgency.Content = "# \x7b\x7bTEAM_NAME\x7d\x7d\n".toList ++ bodyOf contentAgency ∧
    belowTitle (bodyOf contentAgency) = true ∧
    (agentsOfBody (bodyOf contentAgency)).map (fun a => (a.Name, a.Level)) =
      [("Editor".toList, 10), ("Scout".toList, 7), ("Strategist".toList, 7),
       ("Writer 1".toList, 4), ("Writer 2".toList, 4), ("Designer".toList, 4)] := by
  decide!

theorem devShop_facts :
    devShop.Content = "# \x7b\x7bTEAM_NAME\x7d\x7d\n".toList ++ bodyOf devShop ∧
    belowTitle (bodyOf devShop) = true ∧
    (agentsOfBody (bodyOf devShop)).map (fun a => (a.Name, a.Level)) =
      [("Tech Lead".toList, 9), ("Backend Dev 1".toList, 4), ("Backend Dev 2".toList, 4),
       ("Frontend Dev 1".toList, 4), ("Frontend Dev 2".toList, 4), ("QA".toList, 4)] := by
  decide!

theorem researchLab_facts :
    researchLab.Content = "# \x7b\x7bTEAM_NAME\x7d\x7d\n".toList ++ bodyOf researchLab ∧
    belowTitle (bodyOf researchLab) = true ∧
    (agentsOfBody (bodyOf researchLab)).map (fun a => (a.Name, a.Level)) =
      [("PI".toList, 10), ("Analyst 1".toList, 7), ("Analyst 2".toList, 7),
       ("Collector 1".toList, 4), ("Collector 2".toList, 4), ("Synthesizer".toList, 4)] := by
  decide!

theorem Render_parse (t : Template) (n : Str) (names : List (Str × Int)) (hn : validName n)
    (hc : t.Content = "# \x7b\x7bTEAM_NAME\x7d\x7d\n".toList ++ bodyOf t)
    (hb : belowTitle (bodyOf t) = true)
    (hag : (agentsOfBody (bodyOf t)).map (fun a => (a.Name, a.Level)) = names)
    (h3 : 3 ≤ names.length) :
    ("# ".toList ++ n ++ "\n".toList) <+: Render t n ∧
    (Parse (Render t n)).2 = [] ∧
    (Parse (Render t n)).1.Name = n ∧
    3 ≤ (Parse (Render t n)).1.Agents.length ∧
    (Parse (Render t n)).1.Agents.map (fun a => (a.Name, a.Level)) = names := by
  have hr : Render t n = '#' :: ' ' :: (n ++ '\n' :: bodyOf t) := by
    unfold Render
    rw [hc]
    exact Render_titled _ _
  obtain ⟨h1, h2, h3e⟩ := Parse_titled n (bodyOf t) hn hb
  have hlen : (agentsOfBody (bodyOf t)).length = names.length := by
    rw [← hag, List.length_map]
  have hne : agentsOfBody (bodyOf t) ≠ [] := by
    intro h0
    rw [h0] at hlen
    simp only [List.length_nil] at hlen
    omega
  rw [hr]
  refine ⟨⟨bodyOf t, by simp⟩, ?_, h1, ?_, ?_⟩
  · rw [h3e, if_neg hne]
  · rw [h2, hlen]
    exact h3
  · rw [h2, hag]

/-- C26 (the built-in templates parse cleanly). For every template of
`Available` and every team name `n` that is not empty, holds no line feed and has
no white space at either end, the rendered text begins with "# ", `n` and a line
feed, and `Parse` of it returns no error, the name `n` and at least 3 roles; for
the template "assistant-team" one of the roles is named "Oscar" and has the
level 10. -/
theorem templates_parse (t : Template) (ht : t ∈ Available) (n : Str) (hn : validName n) :
    ("# ".toList ++ n ++ "\n".toList) <+: Render t n ∧
    (Parse (Render t n)).2 = [] ∧
    (Parse (Render t n)).1.Name = n ∧
    3 ≤ (Parse (Render t n)).1.Agents.length ∧
    (t.Name = "assistant-team".toList →
      ∃ a ∈ (Parse (Render t n)).1.Agents, a.Name = "Oscar".toList ∧ a.Level = 10) := by
  simp only [Available, List.mem_cons, List.mem_singleton, List.mem_nil_iff, or_false] at ht
  rcases ht with rfl | rfl | rfl | rfl
  · obtain ⟨hc, hb, hag⟩ := assistantTeam_facts
    obtain ⟨p1, p2, p3, p4, p5⟩ := Render_parse assistantTeam n _ hn hc hb hag (by decide)
    refine ⟨p1, p2, p3, p4, fun _ => ?_⟩
    cases hA : (Parse (Render assistantTeam n)).1.Agents with
    | nil => rw [hA] at p4; simp at p4
    | cons a rest =>
      rw [hA, List.map_cons] at p5
      injection p5 with p5 _
      injection p5 with e1 e2
      exact ⟨a, List.mem_cons_self _ _, e1, e2⟩
  · obtain ⟨hc, hb, hag⟩ := contentAgency_facts
    obtain ⟨p1, p2, p3, p4, _⟩ := Render_parse contentAgency n _ hn hc hb hag (by decide)
    exact ⟨p1, p2, p3, p4, fun h => absurd h (by decide)⟩
  · obtain ⟨hc, hb, hag⟩ := devShop_facts
    obtain ⟨p1, p2, p3, p4, _⟩ := Render_parse devShop n _ hn hc hb hag (by decide)
    exact ⟨p1, p2, p3, p4, fun h => absurd h (by decide)⟩
  · obtain ⟨hc, hb, hag⟩ := researchLab_facts
    obtain ⟨p1, p2, p3, p4, _⟩ := Render_parse researchLab n _ hn hc hb hag (by decide)
    exact ⟨p1, p2, p3, p4, fun h => absurd h (by decide)⟩

/-- C26 at the template "dev-shop" and the team name "Test Org" of the tests:
the rendered text begins with the title line, and it parses with no error, the
name "Test Org" and at least 3 roles. -/
theorem templates_parse_witness :
    devShop ∈ Available ∧ validName "Test Org".toList ∧
    ("# Test Org\n".toList <+: Render devShop "Test Org".toList) ∧
    (Parse (Render devShop "Test Org".toList)).2 = [] ∧
    (Parse (Render devShop "Test Org".toList)).1.Name = "Test Org".toList ∧
    3 ≤ (Parse (Render devShop "Test Org".toList)).1.Agents.length :=
  ⟨by simp [Available], ⟨by decide, by decide, by decide⟩,
   (templates_parse devShop (by simp [Available]) "Test Org".toList
      ⟨by decide, by decide, by decide⟩).1,
   (templates_parse devShop (by simp [Available]) "Test Org".toList
      ⟨by decide, by decide, by decide⟩).2.1,
   (templates_parse devShop (by simp [Available]) "Test Org".toList
      ⟨by decide, by decide, by decide⟩).2.2.1,
   (templates_parse devShop (by simp [Available]) "Test Org".toList
      ⟨by decide, by decide, by decide⟩).2.2.2.1⟩

end templates

/-! ## Theorems on the run of `Parse` with its checks -/

namespace orgparser

theorem countLoopChecked_eq (maxLen : Nat) (mk : Nat → Agent) (k : Nat) :
    ∀ (i : Nat) (agents : List Agent), agents.length ≤ maxLen →
      countLoopChecked maxLen mk k i agents =
        if agents.length + k ≤ maxLen then some (agents ++ (List.range' i k).map mk) else none := by
  induction k with
  | zero =>
    intro i agents h
    simp only [countLoopChecked, Nat.add_zero, h, if_true, List.range'_zero, List.map_nil,
      List.append_nil]
  | succ k ih =>
    intro i agents h
    simp only [countLoopChecked]
    by_cases hlt : agents.length < maxLen
    · rw [if_pos hlt, ih (i + 1) (agents ++ [mk i]) (by simp; omega)]
      have e1 : (agents ++ [mk i]).length + k = agents.length + (k + 1) := by simp; omega
      rw [e1]
      have e2 : agents ++ [mk i] ++ (List.range' (i + 1) k).map mk =
          agents ++ (List.range' i (k + 1)).map mk := by
        simp [List.range'_succ]
      rw [e2]
    · rw [if_neg hlt, if_neg (by omega)]

theorem standaloneAgents_length (dept : Section) :
    (standaloneAgents dept).length = (countOf (extractMeta dept.content)).toNat := by
  simp only [standaloneAgents, List.length_map, List.length_range]

theorem standaloneChecked_eq (maxLen : Nat) (agents : List Agent) (dept : Section)
    (h : agents.length ≤ maxLen) :
    standaloneChecked maxLen agents dept =
      if (agents ++ standaloneAgents dept).length ≤ maxLen then
        some (agents ++ standaloneAgents dept)
      else none := by
  simp only [standaloneChecked]
  rw [countLoopChecked_eq _ _ _ _ _ h, ← List.range_eq_range', List.length_append,
    standaloneAgents_length]
  rfl

theorem subRoleStep_length (domain : Str) (st : List Agent × Str) (ri : Nat) (sub : Section) :
    st.1.length ≤ (subRoleStep domain st ri sub).1.length := by
  by_cases h4 : sub.level = 4
  · rw [subRoleStep_eq _ _ _ _ h4]
    simp
  · rw [subRoleStep_skip _ _ _ _ h4]

theorem subRoleLoop_length (domain : Str) (l : List Section) (st : List Agent × Str) (ri : Nat) :
    st.1.length ≤ (subRoleLoop domain st ri l).1.length := by
  rw [subRoleLoop_append]
  simp

theorem subRoleStepChecked_eq (maxLen : Nat) (domain : Str) (st : List Agent × Str) (ri : Nat)
    (sub : Section) (h : st.1.length ≤ maxLen) :
    subRoleStepChecked maxLen domain st ri sub =
      if (subRoleStep domain st ri sub).1.length ≤ maxLen then
        some (subRoleStep domain st ri sub)
      else none := by
  by_cases h4 : sub.level = 4
  · simp only [subRoleStepChecked, subRoleStep, h4, ne_eq, not_true_eq_false, if_false]
    rw [countLoopChecked_eq _ _ _ _ _ h, ← List.range_eq_range']
    simp only [List.length_append, List.length_map, List.length_range]
    by_cases hc : st.1.length + (countOf (extractMeta sub.content)).toNat ≤ maxLen
    · simp only [hc, if_true]
    · simp only [hc, if_false]
  · simp only [subRoleStepChecked, subRoleStep, h4, ne_eq, not_false_eq_true, if_true, h]

theorem subRoleLoopChecked_eq (maxLen : Nat) (domain : Str) (l : List Section) :
    ∀ (st : List Agent × Str) (ri : Nat), st.1.length ≤ maxLen →
      subRoleLoopChecked maxLen domain st ri l =
        if (subRoleLoop domain st ri l).1.length ≤ maxLen then some (subRoleLoop domain st ri l)
        else none := by
  induction l with
  | nil =>
    intro st ri h
    simp only [subRoleLoopChecked, subRoleLoop, h, if_true]
  | cons s rest ih =>
    intro st ri h
    simp only [subRoleLoopChecked, subRoleLoop]
    rw [subRoleStepChecked_eq _ _ _ _ _ h]
    by_cases hs : (subRoleStep domain st ri s).1.length ≤ maxLen
    · rw [if_pos hs]
      exact ih _ _ hs
    · rw [if_neg hs, if_neg]
      have := subRoleLoop_length domain rest (subRoleStep domain st ri s) (ri + 1)
      omega

theorem deptStep_length (agents : List Agent) (dept : Section) :
    agents.length ≤ (deptStep agents dept).length := by
  rw [deptStep_append]
  simp

theorem foldl_deptStep_length (l : List Section) (agents : List Agent) :
    agents.length ≤ (l.foldl deptStep agents).length := by
  rw [foldl_deptStep_eq]
  simp

theorem deptStepChecked_eq (maxLen : Nat) (agents : List Agent) (dept : Section)
    (h : agents.length ≤ maxLen) :
    deptStepChecked maxLen agents dept =
      if (deptStep agents dept).length ≤ maxLen then some (deptStep agents dept) else none := by
  by_cases h3 : dept.level = 3
  · by_cases hb : inferLevel dept.heading (extractMeta dept.content) ≥ 10 ∨
        dept.children.length = 0
    · simp only [deptStepChecked, deptStep, h3, ne_eq, not_true_eq_false, if_false, hb, if_true]
      exact standaloneChecked_eq maxLen agents dept h
    · simp only [deptStepChecked, deptStep, h3, ne_eq, not_true_eq_false, if_false, hb]
      rw [subRoleLoopChecked_eq _ _ _ _ _ h]
      by_cases hc : (subRoleLoop
          (if metaGet (extractMeta dept.content) "domain".toList = [] then
            nameFromHeading dept.heading
           else metaGet (extractMeta dept.content) "domain".toList)
          (agents, []) 0 dept.children).1.length ≤ maxLen
      · simp only [hc, if_true, Option.map_some']
      · simp only [hc, if_false, Option.map_none']
  · simp only [deptStepChecked, deptStep, h3, ne_eq, not_false_eq_true, if_true, h]

theorem loop_deptStepChecked (maxLen : Nat) (l : List Section) :
    ∀ agents : List Agent, agents.length ≤ maxLen →
      loopChecked (deptStepChecked maxLen) agents l =
        if (l.foldl deptStep agents).length ≤ maxLen then some (l.foldl deptStep agents)
        else none := by
  induction l with
  | nil =>
    intro agents h
    simp only [loopChecked, List.foldl_nil, h, if_true]
  | cons d rest ih =>
    intro agents h
    simp only [loopChecked, List.foldl_cons]
    rw [deptStepChecked_eq _ _ _ h]
    by_cases hs : (deptStep agents d).length ≤ maxLen
    · rw [if_pos hs]
      exact ih _ hs
    · rw [if_neg hs, if_neg]
      have := foldl_deptStep_length rest (deptStep agents d)
      omega

/-- The checked run of `parseStructure` returns exactly when the records fit
the slice, and then it returns what `parseStructure` computes. -/
theorem parseStructureChecked_eq (maxLen : Nat) (sec : Section) :
    parseStructureChecked maxLen sec =
      if (parseStructure sec).1.length ≤ maxLen then some (parseStructure sec) else none := by
  simp only [parseStructureChecked, parseStructure]
  rw [loop_deptStepChecked maxLen sec.children [] (Nat.zero_le _)]
  by_cases hc : (sec.children.foldl deptStep []).length ≤ maxLen
  · simp only [hc, if_true, Option.map_some']
  · simp only [hc, if_false, Option.map_none']

theorem loopChecked_guard {σ α : Type} (step2 : σ → α → Option σ) (step : σ → α → σ)
    (P : α → Bool) (h : ∀ st a, step2 st a = if P a = true then some (step st a) else none)
    (l : List α) :
    ∀ st : σ, loopChecked step2 st l = if l.all P = true then some (l.foldl step st) else none := by
  induction l with
  | nil => intro _; rfl
  | cons a rest ih =>
    intro st
    simp only [loopChecked, h, List.foldl_cons, List.all_cons]
    by_cases ha : P a = true
    · simp only [ha, if_true, Bool.true_and]
      exact ih _
    · simp only [ha, if_false, Bool.false_eq_true, Bool.false_and]

theorem all_filter {α : Type} (p q : α → Bool) (l : List α) :
    (l.filter p).all q = l.all (fun a => !p a || q a) := by
  induction l with
  | nil => rfl
  | cons a rest ih =>
    by_cases ha : p a = true
    · rw [List.filter_cons_of_pos ha, List.all_cons, List.all_cons, ih]
      simp [ha]
    · rw [List.filter_cons_of_neg ha, List.all_cons, ih]
      simp [ha]

theorem dispatchChildChecked_eq (maxLen : Nat) (st : ParsedOrg × List Str) (c : Section) :
    dispatchChildChecked maxLen st c =
      if (!structureChild c || fits maxLen c) = true then some (dispatchChild st c) else none := by
  by_cases hfit : (parseStructure c).1.length ≤ maxLen <;>
  cases h1 : strings.Contains (strings.ToLower c.heading) "culture".toList <;>
  cases h2 : strings.Contains (strings.ToLower c.heading) "structure".toList <;>
  cases h3 : strings.Contains (strings.ToLower c.heading) "policies".toList <;>
  cases h4 : strings.Contains (strings.ToLower c.heading) "policy".toList <;>
  simp only [dispatchChildChecked, dispatchChild, structureChild, fits, h1, h2, h3, h4,
    parseCulture_checked, parseStructureChecked_eq, hfit] <;> rfl

theorem dispatchRootChecked_eq (maxLen : Nat) (st : ParsedOrg × List Str) (s : Section) :
    dispatchRootChecked maxLen st s =
      if (!(decide (s.level = 2) && structureChild s) || fits maxLen s) = true then
        some (dispatchRoot st s)
      else none := by
  by_cases hfit : (parseStructure s).1.length ≤ maxLen <;>
  by_cases h0 : s.level = 2 <;>
  cases h1 : strings.Contains (strings.ToLower s.heading) "culture".toList <;>
  cases h2 : strings.Contains (strings.ToLower s.heading) "structure".toList <;>
  simp only [dispatchRootChecked, dispatchRoot, structureChild, fits, h0, h1, h2,
    parseCulture_checked, parseStructureChecked_eq, hfit] <;> rfl

theorem finishParse_checked (maxLen : Nat) (sections : List Section)
    (st : ParsedOrg × List Str) :
    (match (if st.1.Name = [] then loopChecked (dispatchRootChecked maxLen) st sections
        else some st) with
      | none => none
      | some st3 =>
        if st3.1.Agents.length = 0 then some (st3.1, st3.2 ++ [noAgentsError]) else some st3) =
      if ((if st.1.Name = [] then
            sections.filter (fun s => decide (s.level = 2) && structureChild s)
          else []).all (fits maxLen)) = true then
        some (finishParse sections st)
      else none := by
  by_cases hN : st.1.Name = []
  · simp only [hN, if_true, finishParse]
    rw [loopChecked_guard (dispatchRootChecked maxLen) dispatchRoot _
      (dispatchRootChecked_eq maxLen), all_filter]
    by_cases hall : (sections.all fun a =>
        !(decide (a.level = 2) && structureChild a) || fits maxLen a) = true
    · simp only [hall, if_true]
      split <;> rfl
    · simp only [hall, if_false, Bool.false_eq_true]
  · simp only [hN, if_false, finishParse, List.all_nil, if_true]
    split <;> rfl

/-- The checked run of `Parse` returns exactly when the records of every
structure section it processes fit the role slice, and then it returns what
`Parse` computes: no index or slice expression is ever out of bounds. -/
theorem ParseChecked_eq (maxLen : Nat) (source : Str) :
    ParseChecked maxLen source =
      if (dispatchedStructures source).all (fits maxLen) = true then some (Parse source)
      else none := by
  unfold ParseChecked
  rw [parseMarkdownSections_checked]
  show (match (match List.find? (fun s => decide (s.level = 1)) (parseMarkdownSections source) with
      | some s =>
        loopChecked (dispatchChildChecked maxLen) ({ emptyOrg with Name := s.heading }, [])
          s.children
      | none => some (emptyOrg, [])) with
    | none => none
    | some st =>
      match (if st.1.Name = [] then
          loopChecked (dispatchRootChecked maxLen) st (parseMarkdownSections source)
        else some st) with
      | none => none
      | some st3 =>
        if st3.1.Agents.length = 0 then some (st3.1, st3.2 ++ [noAgentsError])
        else some st3) = _
  cases hf : List.find? (fun s => decide (s.level = 1)) (parseMarkdownSections source) with
  | none =>
    have hd : (dispatchedStructures source).all (fits maxLen) =
        (if (emptyOrg, ([] : List Str)).1.Name = [] then
            (parseMarkdownSections source).filter
              (fun s => decide (s.level = 2) && structureChild s)
          else []).all (fits maxLen) := by
      unfold dispatchedStructures
      rw [hf]
      rfl
    have hp : Parse source = finishParse (parseMarkdownSections source) (emptyOrg, []) := by
      simp only [Parse, hf]
    rw [hd, hp]
    exact finishParse_checked maxLen _ _
  | some s =>
    have hname := (foldl_dispatchChild_errors s.children
      ({ emptyOrg with Name := s.heading }, [])).2
    have hd : (dispatchedStructures source).all (fits maxLen) =
        ((s.children.all fun a => !structureChild a || fits maxLen a) &&
          (if (s.children.foldl dispatchChild ({ emptyOrg with Name := s.heading }, [])).1.Name = []
            then (parseMarkdownSections source).filter
              (fun s => decide (s.level = 2) && structureChild s)
            else []).all (fits maxLen)) := by
      unfold dispatchedStructures
      rw [hf, List.all_append, all_filter, hname]
    have hp : Parse source = finishParse (parseMarkdownSections source)
        (s.children.foldl dispatchChild ({ emptyOrg with Name := s.heading }, [])) := by
      simp only [Parse, hf]
    rw [hd, hp]
    show (match loopChecked (dispatchChildChecked maxLen)
        ({ emptyOrg with Name := s.heading }, []) s.children with
      | none => none
      | some st =>
        match (if st.1.Name = [] then
            loopChecked (dispatchRootChecked maxLen) st (parseMarkdownSections source)
          else some st) with
        | none => none
        | some st3 =>
          if st3.1.Agents.length = 0 then some (st3.1, st3.2 ++ [noAgentsError])
          else some st3) = _
    rw [loopChecked_guard (dispatchChildChecked maxLen) dispatchChild _
      (dispatchChildChecked_eq maxLen)]
    by_cases hall : (s.children.all fun a => !structureChild a || fits maxLen a) = true
    · simp only [hall, if_true, Bool.true_and]
      exact finishParse_checked maxLen _ _
    · simp only [hall, if_false, Bool.false_eq_true, Bool.false_and]

theorem countOf_huge (h : Str) (l : Int) (cs : List Section) :
    (countOf (extractMeta
      (Section.mk h l "- **Count:** 9223372036854775807".toList cs).content)).toNat =
      9223372036854775807 := by
  rw [Section.content_mk]
  decide

theorem parseStructure_two (h : Str) (l : Int) (c : Str) (A B : Section) :
    (parseStructure (Section.mk h l c [A, B])).1 = deptStep (deptStep [] A) B := rfl

theorem two_standalone_length (h : Str) (l : Int) (c : Str) (A B : Section)
    (hA : standaloneDept A) (hB : standaloneDept B) :
    (parseStructure (Section.mk h l c [A, B])).1.length =
      (countOf (extractMeta A.content)).toNat + (countOf (extractMeta B.content)).toNat := by
  rw [parseStructure_two, deptStep_standalone _ _ hB, deptStep_standalone _ _ hA,
    List.length_append, List.length_append, standaloneAgents_length, standaloneAgents_length,
    List.length_nil, Nat.zero_add]

theorem fits_two_standalone (maxLen : Nat) (h : Str) (l : Int) (c : Str) (A B : Section)
    (hA : standaloneDept A) (hB : standaloneDept B)
    (hlt : maxLen < (countOf (extractMeta A.content)).toNat +
      (countOf (extractMeta B.content)).toNat) :
    fits maxLen (Section.mk h l c [A, B]) = false := by
  unfold fits
  rw [two_standalone_length h l c A B hA hB, decide_eq_false_iff_not]
  omega

/-- C5 as stated fails. In the document whose structure section has the two
standalone departments A and B, each with the count 9223372036854775807, the
count loops would append 2^64 - 2 records, more than any slice can hold, since a
slice length is an `int`: the run of `Parse` with the role slice bounded by
2^63 - 1, the largest `int`, does not return. -/
theorem Parse_count_overflow :
    dispatchedStructures hugeCountsDoc =
      [Section.mk "Structure".toList 2 []
        [Section.mk "A".toList 3 "- **Count:** 9223372036854775807".toList [],
         Section.mk "B".toList 3 "- **Count:** 9223372036854775807".toList []]] ∧
    ParseChecked (2 ^ 63 - 1) hugeCountsDoc = none := by
  have hd : dispatchedStructures hugeCountsDoc =
      [Section.mk "Structure".toList 2 []
        [Section.mk "A".toList 3 "- **Count:** 9223372036854775807".toList [],
         Section.mk "B".toList 3 "- **Count:** 9223372036854775807".toList []]] := rfl
  refine ⟨hd, ?_⟩
  have hfit := fits_two_standalone (2 ^ 63 - 1) "Structure".toList 2 []
    (Section.mk "A".toList 3 "- **Count:** 9223372036854775807".toList [])
    (Section.mk "B".toList 3 "- **Count:** 9223372036854775807".toList [])
    ⟨Section.level_mk _ _ _ _, Or.inr (Section.children_mk _ _ _ _)⟩
    ⟨Section.level_mk _ _ _ _, Or.inr (Section.children_mk _ _ _ _)⟩
    (by rw [countOf_huge, countOf_huge]; decide)
  rw [ParseChecked_eq, hd, List.all_cons, hfit, Bool.false_and, if_neg Bool.false_ne_true]

/-- C5, amended (`Parse` aborts only when the role slice overflows). For every
input text and every number `maxLen` of records the role slice can hold, the run
of `Parse` with all its checks returns exactly when the records of every
structure section it processes fit the slice, and then it returns what `Parse`
computes; so it returns whenever they fit, and when it does not return, some
structure section yields more than `maxLen` records. No index or slice expression
is ever out of bounds: the sections are built and the culture is read without a
failing check on every input. -/
theorem ParseChecked_returns (maxLen : Nat) (source : Str) :
    ParseChecked maxLen source =
      (if (dispatchedStructures source).all (fits maxLen) = true then some (Parse source)
       else none) ∧
    ((∀ sec ∈ dispatchedStructures source, (parseStructure sec).1.length ≤ maxLen) →
      ParseChecked maxLen source = some (Parse source)) ∧
    (ParseChecked maxLen source = none →
      ∃ sec ∈ dispatchedStructures source, maxLen < (parseStructure sec).1.length) ∧
    parseMarkdownSectionsChecked source = some (parseMarkdownSections source) ∧
    (∀ sec : Section, parseCultureChecked sec = some (parseCulture sec)) := by
  refine ⟨ParseChecked_eq maxLen source, ?_, ?_, parseMarkdownSections_checked source,
    parseCulture_checked⟩
  · intro h
    rw [ParseChecked_eq, if_pos]
    rw [List.all_eq_true]
    intro sec hs
    simpa [fits] using h sec hs
  · intro h
    rw [ParseChecked_eq] at h
    by_cases hall : (dispatchedStructures source).all (fits maxLen) = true
    · rw [if_pos hall] at h
      cases h
    · have hex : ∃ sec ∈ dispatchedStructures source, ¬ fits maxLen sec = true := by
        by_contra hcon
        apply hall
        rw [List.all_eq_true]
        intro sec hs
        by_contra hf
        exact hcon ⟨sec, hs, hf⟩
      obtain ⟨sec, hs, hf⟩ := hex
      refine ⟨sec, hs, ?_⟩
      have : ¬ (parseStructure sec).1.length ≤ maxLen := by simpa [fits] using hf
      omega

/-- C5, amended, on the test document with room for 1000 records: its structure
section yields three records, and the checked run returns what `Parse`
computes. -/
theorem ParseChecked_returns_witness :
    (∀ sec ∈ dispatchedStructures testOrg, (parseStructure sec).1.length ≤ 1000) ∧
    ParseChecked 1000 testOrg = some (Parse testOrg) ∧
    (Parse testOrg).1.Agents.length = 3 :=
  ⟨by decide, (ParseChecked_returns 1000 testOrg).2.1 (by decide), by decide⟩

end orgparser
